import Mathlib

/-!
Verification of the gridist pathfinding experiment harness.

The Rust sources are embedded shallowly:

* Distances (Rust type Distance = f64) only ever take values of the form
  a + b*sqrt(2) in this program (step costs are 1 and sqrt 2, the octile
  metric is (max-min) + sqrt 2 * min), so they are embedded exactly as
  elements of the ring of integers adjoined sqrt 2, which carries a
  decidable linear order.  f64 partial_cmp never returns None on these
  values, so comparisons are total.
* The open set of the search engine (Rust std BinaryHeap) is embedded as
  the exact array algorithm used by the Rust standard library: push is
  append followed by sift-up, pop swaps the last element to the root and
  runs sift-down-to-bottom (walk the hole to a leaf along greater
  children, preferring the right child on ties, then sift the element
  back up).  This reproduces the pop order exactly, including ties.
* Mutation is explicit state passing; loops take fuel and the fuel is
  proved sufficient where a claim needs it.

Code present in src is translated directly (search.rs, instance.rs,
grid.rs, agent.rs, experiment.rs).  The tile/grid layer with the episode
counter, the per-direction cost table, and the datum-returning agent
interface are used by src/src/search.rs and src/src/instance.rs but their
defining file is not in the source tree; those definitions are modelled
from the spec and are marked as such in their doc comments.
-/

namespace Gridist

/-- Distance values: the subring of the reals generated by 1 and sqrt 2,
embedded exactly (Rust Distance = f64; every distance this program builds
is a + b*sqrt 2 with integer a, b). -/
abbrev Dist : Type := Zsqrtd ((2 : ℕ) : ℤ)

instance : Zsqrtd.Nonsquare 2 :=
  ⟨fun n h => by
    rcases n with _ | _ | n
    · simp at h
    · simp at h
    · nlinarith⟩

/-- Square root of two as a Dist. -/
def sqrt2 : Dist := ⟨0, 1⟩

/-- Point: integer (row, column) coordinate, from src/src/grid.rs. -/
structure Point where
  y : ℕ
  x : ℕ
  deriving DecidableEq, Repr

instance : Inhabited Point := ⟨⟨0, 0⟩⟩

/-- Point::neighbors from src/src/grid.rs (lines 27-40): the 3 by 3 box
around the point minus the point itself, clipped at zero (usize), with no
upper clipping.  Row-major order as produced by the nested loops. -/
def Point.neighbors (p : Point) : List Point :=
  let ystart := if p.y < 1 then 0 else p.y - 1
  let xstart := if p.x < 1 then 0 else p.x - 1
  let ys := List.range' ystart (p.y + 2 - ystart)
  let xs := List.range' xstart (p.x + 2 - xstart)
  ys.flatMap fun y =>
    xs.filterMap fun x =>
      if y = p.y ∧ x = p.x then none else some ⟨y, x⟩

/-- Modelled from the spec: the 8-slot neighborhood used by the search
engine (search.rs iterates point.neighbors() as 8 optional slots aligned
with a per-slot cost table; the defining code is not in src).  Slots are
in row-major order; a slot is none when the coordinate would be negative. -/
def Point.neighborsSlots (p : Point) : List (Option Point) :=
  [ if p.y = 0 ∨ p.x = 0 then none else some ⟨p.y - 1, p.x - 1⟩,
    if p.y = 0 then none else some ⟨p.y - 1, p.x⟩,
    if p.y = 0 then none else some ⟨p.y - 1, p.x + 1⟩,
    if p.x = 0 then none else some ⟨p.y, p.x - 1⟩,
    some ⟨p.y, p.x + 1⟩,
    if p.x = 0 then none else some ⟨p.y + 1, p.x - 1⟩,
    some ⟨p.y + 1, p.x⟩,
    some ⟨p.y + 1, p.x + 1⟩ ]

/-- Modelled from the spec: the fixed per-direction cost table COST used
by search.rs (diagonal moves cost sqrt 2, orthogonal moves cost 1),
aligned with the neighbor slots. -/
def COST : List Dist := [sqrt2, 1, sqrt2, 1, 1, sqrt2, 1, sqrt2]

/-- Measure::octile for Distance from src/src/grid.rs:
max(dy,dx) - min(dy,dx) + sqrt 2 * min(dy,dx). -/
def octile (src dst : Point) : Dist :=
  let dy := if dst.y > src.y then dst.y - src.y else src.y - dst.y
  let dx := if dst.x > src.x then dst.x - src.x else src.x - dst.x
  let cartesian := max dy dx
  let diagonal := min dy dx
  ((cartesian - diagonal : ℕ) : Dist) + sqrt2 * (diagonal : Dist)

/-- Modelled from the spec: Distance::octile_heuristic, called by
search.rs for the initial h value; the spec names octile as the built-in
heuristic, so it is the octile metric. -/
def octile_heuristic (src dst : Point) : Dist := octile src dst

/-- Measure::euclidean for Distance from src/src/grid.rs:
sqrt(dy^2 + dx^2), as a real number. -/
noncomputable def euclidean (src dst : Point) : ℝ :=
  let dy := (dst.y : ℝ) - (src.y : ℝ)
  let dx := (dst.x : ℝ) - (src.x : ℝ)
  Real.sqrt (dy * dy + dx * dx)

/-- Terrain from src/src/grid.rs. -/
inductive Terrain where
  | Ground
  | OutOfBounds
  | Trees
  | Swamp
  | Water
  deriving DecidableEq, Repr

/-- Belief from src/src/grid.rs. -/
inductive Belief where
  | Unknown
  | Passable
  | Impassable
  deriving DecidableEq, Repr

/-- Terrain::passable from src/src/grid.rs: Ground is believed passable,
everything else impassable. -/
def Terrain.passable : Terrain → Belief
  | Terrain.Ground => Belief.Passable
  | _ => Belief.Impassable

/-- Tile: terrain and belief as in src/src/grid.rs (there called Cell),
extended with the search scratch fields described by the spec data model
(g, h, optional parent back-pointer, and the visited episode tag), which
search.rs and instance.rs use but whose defining file is not in src.
Modelled from the spec for the scratch part. -/
structure Tile where
  terrain : Terrain
  belief : Belief
  h : Dist
  g : Dist
  parent : Option Point
  visited : ℕ
  deriving DecidableEq

/-- Tile::new: belief starts Unknown, scratch zeroed, tag 0 (fresh grids
have episode counter 0, searches use tags starting at 1). -/
def Tile.new (terrain : Terrain) : Tile :=
  { terrain := terrain, belief := Belief.Unknown, h := 0, g := 0,
    parent := none, visited := 0 }

instance : Inhabited Tile := ⟨Tile.new Terrain.Ground⟩

/-- Cell::look from src/src/grid.rs (lines 151-155): reveal the tile if
its belief is still Unknown. -/
def Tile.look (t : Tile) : Tile :=
  if t.belief = Belief.Unknown then { t with belief := t.terrain.passable } else t

/-- Modelled from the spec: the ground-truth passability predicate used
by trial generation and the reachability oracle (the spec: terrain-based,
is physically Ground).  The belief-based variant from src/src/grid.rs
Cell::passable is Tile.freespace below. -/
def Tile.passable (t : Tile) : Bool := t.terrain = Terrain.Ground

/-- Belief-based passability (body of Cell::passable in src/src/grid.rs,
lines 157-159; the spec calls this the not-known-impassable predicate used
during live agent search, named freespace by agent.rs). -/
def Tile.freespace (t : Tile) : Bool := t.belief ≠ Belief.Impassable

/-- Modelled from the spec: Tile::visit, mark a tile visited for the
episode with its parent set to the expanded point and tentative g and h. -/
def Tile.visit (t : Tile) (parent : Point) (g h : Dist) (episode : ℕ) : Tile :=
  { t with parent := some parent, g := g, h := h, visited := episode }

/-- Modelled from the spec: Tile::visit_initial, mark the source visited
with no parent and g = 0. -/
def Tile.visit_initial (t : Tile) (h : Dist) (episode : ℕ) : Tile :=
  { t with parent := none, g := 0, h := h, visited := episode }

/-- Modelled from the spec: Tile::visited(episode), the O(1) episode-tag
test. -/
def Tile.visitedAt (t : Tile) (episode : ℕ) : Bool := t.visited = episode

/-- Modelled from the spec: Tile::f = g + h. -/
def Tile.f (t : Tile) : Dist := t.g + t.h

/-- Grid: 2-D tile collection with dimensions and the monotonically
increasing episode counter (spec data model; Grid in src/src/grid.rs has
the cells and dimensions, the episode counter is modelled from the spec). -/
structure Grid where
  tiles : List (List Tile)
  height : ℕ
  width : ℕ
  episode : ℕ
  deriving DecidableEq

/-- Grid::new as used by the parser: dimensions from the tile matrix,
episode counter 0. -/
def Grid.new (tiles : List (List Tile)) : Grid :=
  { tiles := tiles, height := tiles.length,
    width := (tiles.headD []).length, episode := 0 }

/-- Grid::get from src/src/grid.rs: out-of-range points are a recoverable
miss. -/
def Grid.get (g : Grid) (p : Point) : Option Tile :=
  (g.tiles.get? p.y).bind fun row => row.get? p.x

/-- Indexing (grid[point] in Rust, which panics when out of range); total
here with a default tile, used only under in-bounds hypotheses. -/
def Grid.getTile (g : Grid) (p : Point) : Tile := (g.get p).getD default

/-- Functional update of one tile; identity when out of range (matches
get_mut returning None). -/
def Grid.setTile (g : Grid) (p : Point) (t : Tile) : Grid :=
  { g with tiles :=
      match g.tiles.get? p.y with
      | none => g.tiles
      | some row => g.tiles.set p.y (row.set p.x t) }

/-- Apply a function to the tile at p when it exists (get_mut pattern). -/
def Grid.modifyTile (g : Grid) (p : Point) (f : Tile → Tile) : Grid :=
  match g.get p with
  | none => g
  | some t => g.setTile p (f t)

/-- Modelled from the spec: Grid::look(point) (called by instance.rs),
reveal the point and every valid neighbor. -/
def Grid.look (g : Grid) (p : Point) : Grid :=
  (p :: p.neighborsSlots.filterMap id).foldl
    (fun acc q => acc.modifyTile q Tile.look) g

/-- Modelled from the spec: Grid::forget (called by run_trials), reset
every belief to Unknown without touching terrain. -/
def Grid.forget (g : Grid) : Grid :=
  { g with tiles := g.tiles.map (List.map fun t => { t with belief := Belief.Unknown }) }

/-- Modelled from the spec: Grid::next_episode, the only way to advance
the episode counter; returns a fresh id. -/
def Grid.next_episode (g : Grid) : ℕ × Grid :=
  (g.episode + 1, { g with episode := g.episode + 1 })

/-- Total number of tiles, the bound for search fuel. -/
def Grid.tileCount (g : Grid) : ℕ := (g.tiles.map List.length).sum

/-- Well-formedness of the stored dimensions (established by the parser). -/
def Grid.wf (g : Grid) : Prop :=
  g.tiles.length = g.height ∧ ∀ row ∈ g.tiles, row.length = g.width

/-- Episode-tag freshness: no tile is tagged beyond the grid's episode
counter (holds for parsed grids and is preserved by every operation). -/
def Grid.fresh (g : Grid) : Prop :=
  ∀ p t, g.get p = some t → t.visited ≤ g.episode

/-- Node from src/src/search.rs: a heap entry. -/
structure Node where
  point : Point
  f : Dist
  g : Dist
  deriving DecidableEq

instance : Inhabited Node := ⟨⟨default, 0, 0⟩⟩

/-- f64 partial_cmp on distances (total here: Dist has no NaN and the
program never produces one, so the None arm of the Rust match is dead). -/
def pcmp (a b : Dist) : Ordering :=
  if a < b then Ordering.lt else if a = b then Ordering.eq else Ordering.gt

/-- Ord for Node from src/src/search.rs (lines 33-43): compare reversed
on f (so the max-heap pops the smallest f), and on equal f compare g
directly (so the max-heap pops the largest g first). -/
def cmpNode (a b : Node) : Ordering :=
  match pcmp b.f a.f with
  | Ordering.eq => pcmp a.g b.g
  | o => o

/-- Rust derived comparison a <= b, i.e. cmp(a, b) is not Greater. -/
def Node.le (a b : Node) : Bool := cmpNode a b ≠ Ordering.gt

/-- Array element read with a default, as the heap code is always used
in bounds. -/
def hget (l : List Node) (i : ℕ) : Node := l.getD i default

/-- Swap two array positions (the accumulated effect of the hole-based
moves in the Rust sift routines). -/
def swapL (l : List Node) (i j : ℕ) : List Node :=
  match l.get? i, l.get? j with
  | some a, some b => (l.set i b).set j a
  | _, _ => l

/-- BinaryHeap::sift_up from the Rust standard library: move the element
at pos toward the root while it is greater than its parent. -/
def siftUpGo : ℕ → List Node → ℕ → ℕ → List Node
  | 0, l, _, _ => l
  | fuel + 1, l, start, pos =>
    if pos ≤ start then l
    else
      if Node.le (hget l pos) (hget l ((pos - 1) / 2)) then l
      else siftUpGo fuel (swapL l pos ((pos - 1) / 2)) start ((pos - 1) / 2)

def siftUp (l : List Node) (start pos : ℕ) : List Node :=
  siftUpGo (pos + 1) l start pos

/-- BinaryHeap::sift_down_to_bottom, first phase: walk the hole down to a
leaf along the greater child, preferring the right child on ties; returns
the array and the final hole position. -/
def pickChild (l : List Node) (pos : ℕ) : ℕ :=
  if Node.le (hget l (2 * pos + 1)) (hget l (2 * pos + 2)) then 2 * pos + 2
  else 2 * pos + 1

def siftDownGo : ℕ → List Node → ℕ → List Node × ℕ
  | 0, l, pos => (l, pos)
  | fuel + 1, l, pos =>
    if 2 * pos + 2 < l.length then
      siftDownGo fuel (swapL l pos (pickChild l pos)) (pickChild l pos)
    else if 2 * pos + 2 = l.length then (swapL l pos (2 * pos + 1), 2 * pos + 1)
    else (l, pos)

/-- BinaryHeap::sift_down_to_bottom: walk to the bottom, then sift the
moved element back up toward start. -/
def siftDownToBottom (l : List Node) (pos : ℕ) : List Node :=
  let r := siftDownGo l.length l pos
  siftUp r.1 pos r.2

/-- BinaryHeap::push: append, then sift up from the last position. -/
def Heap.push (l : List Node) (n : Node) : List Node :=
  siftUp (l ++ [n]) 0 l.length

/-- BinaryHeap::pop: remove the last element, swap it with the root,
return the old root and restore the heap with sift_down_to_bottom. -/
def Heap.pop (l : List Node) : Option (Node × List Node) :=
  match l with
  | [] => none
  | [x] => some (x, [])
  | x :: rest =>
    some (x, siftDownToBottom ((rest.getLast?).getD default :: rest.dropLast) 0)

theorem swapL_length (l : List Node) (i j : ℕ) : (swapL l i j).length = l.length := by
  unfold swapL
  cases hi : l.get? i <;> cases hj : l.get? j <;> simp

theorem set_get_self {α : Type} (l : List α) (i : ℕ) (hi : i < l.length) :
    l.set i (l.get ⟨i, hi⟩) = l := by
  induction l generalizing i with
  | nil => simp at hi
  | cons a as ih =>
    cases i with
    | zero => simp
    | succ m =>
      have hm : m < as.length := by simpa using hi
      simpa using ih m hm

/-- Replacing position i by c and consing the old element is a
permutation of consing c. -/
theorem get_cons_set_perm (l : List Node) (i : ℕ) (hi : i < l.length) (c : Node) :
    (l.get ⟨i, hi⟩ :: l.set i c).Perm (c :: l) := by
  induction l generalizing i with
  | nil => simp at hi
  | cons a as ih =>
    cases i with
    | zero => simpa using List.Perm.swap c a as
    | succ m =>
      have hm : m < as.length := by simpa using hi
      have step : (as.get ⟨m, hm⟩ :: a :: as.set m c).Perm (c :: a :: as) := by
        refine (List.Perm.swap a (as.get ⟨m, hm⟩) (as.set m c)).trans ?_
        exact (List.Perm.cons a (ih m hm)).trans (List.Perm.swap c a as)
      simpa using step

theorem set_set_perm (l : List Node) (i j : ℕ) (hi : i < l.length) (hj : j < l.length) :
    ((l.set i (l.get ⟨j, hj⟩)).set j (l.get ⟨i, hi⟩)).Perm l := by
  rcases eq_or_ne i j with rfl | hij
  · rw [List.set_set]
    rw [set_get_self l i hi]
  · have hj1 : j < (l.set i (l.get ⟨j, hj⟩)).length := by simpa using hj
    have h1 : (l.set i (l.get ⟨j, hj⟩)).get ⟨j, hj1⟩ = l.get ⟨j, hj⟩ := by
      simp [List.getElem_set_of_ne hij]
    have p1 := get_cons_set_perm (l.set i (l.get ⟨j, hj⟩)) j hj1 (l.get ⟨i, hi⟩)
    have p2 := get_cons_set_perm l i hi (l.get ⟨j, hj⟩)
    rw [h1] at p1
    have p3 : (l.get ⟨j, hj⟩ :: (l.set i (l.get ⟨j, hj⟩)).set j (l.get ⟨i, hi⟩)).Perm
        (l.get ⟨j, hj⟩ :: l) := by
      exact p1.trans p2
    exact List.Perm.cons_inv p3

theorem swapL_perm (l : List Node) (i j : ℕ) : (swapL l i j).Perm l := by
  unfold swapL
  cases hi : l.get? i with
  | none => exact List.Perm.refl l
  | some a =>
    cases hj : l.get? j with
    | none => exact List.Perm.refl l
    | some b =>
      have hi2 : i < l.length := by
        by_contra hcon
        rw [List.get?_eq_none.mpr (Nat.le_of_not_lt hcon)] at hi
        exact Option.noConfusion hi
      have hj2 : j < l.length := by
        by_contra hcon
        rw [List.get?_eq_none.mpr (Nat.le_of_not_lt hcon)] at hj
        exact Option.noConfusion hj
      have ha : a = l.get ⟨i, hi2⟩ := by
        have h := List.get?_eq_get hi2
        rw [hi] at h
        exact Option.some_inj.mp h
      have hb : b = l.get ⟨j, hj2⟩ := by
        have h := List.get?_eq_get hj2
        rw [hj] at h
        exact Option.some_inj.mp h
      subst ha hb
      exact set_set_perm l i j hi2 hj2

theorem siftUpGo_perm (fuel : ℕ) (l : List Node) (start pos : ℕ) :
    (siftUpGo fuel l start pos).Perm l := by
  induction fuel generalizing l pos with
  | zero => exact List.Perm.refl l
  | succ fuel ih =>
    unfold siftUpGo
    split
    · exact List.Perm.refl l
    · split
      · exact List.Perm.refl l
      · exact (ih _ _).trans (swapL_perm l _ _)

theorem siftUp_perm (l : List Node) (start pos : ℕ) : (siftUp l start pos).Perm l :=
  siftUpGo_perm _ l start pos

theorem siftDownGo_perm (fuel : ℕ) (l : List Node) (pos : ℕ) :
    (siftDownGo fuel l pos).1.Perm l := by
  induction fuel generalizing l pos with
  | zero => exact List.Perm.refl l
  | succ fuel ih =>
    unfold siftDownGo
    split
    · exact (ih _ _).trans (swapL_perm l _ _)
    · split
      · exact swapL_perm l _ _
      · exact List.Perm.refl l

theorem siftDownToBottom_perm (l : List Node) (pos : ℕ) :
    (siftDownToBottom l pos).Perm l :=
  (siftUp_perm _ _ _).trans (siftDownGo_perm _ l pos)

theorem Heap.push_perm (l : List Node) (n : Node) : (Heap.push l n).Perm (n :: l) :=
  (siftUp_perm _ _ _).trans (List.perm_append_singleton n l)

theorem Heap.pop_none (l : List Node) : Heap.pop l = none ↔ l = [] := by
  cases l with
  | nil => simp [Heap.pop]
  | cons x rest => cases rest <;> simp [Heap.pop]

theorem Heap.pop_perm (l : List Node) (x : Node) (r : List Node)
    (h : Heap.pop l = some (x, r)) : l.Perm (x :: r) := by
  cases l with
  | nil => simp [Heap.pop] at h
  | cons a rest =>
    cases hr : rest with
    | nil =>
      subst hr
      simp [Heap.pop] at h
      simp [h.1, h.2]
    | cons b bs =>
      subst hr
      simp only [Heap.pop, Option.some_inj, Prod.mk.injEq] at h
      obtain ⟨rfl, hrest⟩ := h
      have hne : (b :: bs) ≠ [] := by simp
      have hlast : (b :: bs).dropLast ++ [(b :: bs).getLast hne] = b :: bs :=
        List.dropLast_append_getLast hne
      have hg : (b :: bs).getLast? = some ((b :: bs).getLast hne) :=
        List.getLast?_eq_getLast_of_ne_nil hne
      have hperm : (b :: bs).Perm (((b :: bs).getLast?).getD default :: (b :: bs).dropLast) := by
        rw [hg]
        have h2 : ((b :: bs).dropLast ++ [(b :: bs).getLast hne]).Perm
            ((b :: bs).getLast hne :: (b :: bs).dropLast) :=
          List.perm_append_singleton _ _
        exact (hlast ▸ h2 : _)
      refine List.Perm.cons a ?_
      refine hperm.trans ?_
      rw [← hrest]
      exact (siftDownToBottom_perm _ _).symm

/-- Path from src/src/search.rs: a vector of points, target first, the
next step to take at the end (consumed by popping from the end). -/
abbrev Path := List Point

/-- extract_path from src/src/search.rs: follow parent pointers from the
end point, pushing each point whose tile has a parent.  The Rust loop has
no fuel; here fuel (tile count + 1) bounds the walk, which suffices for
all runs proved below. -/
def extractPathGo (g : Grid) : ℕ → Point → Path → Path
  | 0, _, acc => acc
  | fuel + 1, point, acc =>
    match (g.getTile point).parent with
    | some previous => extractPathGo g fuel previous (acc ++ [point])
    | none => acc

def extract_path (g : Grid) (e : Point) : Path :=
  extractPathGo g (g.tileCount + 1) e []

/-- Data from src/src/search.rs: the search result bundle. -/
structure SearchData where
  path : Path
  expansions : ℕ
  deriving DecidableEq

/-- Neighbor expansion from the body of the astar while loop in
src/src/search.rs (lines 101-116): for each neighbor slot in order, if
the slot is occupied, in bounds, not yet visited this episode, and
passable, visit it (parent = expanded point, tentative g and h) and push
it on the open set. -/
def visitNeighbors (passable : Tile → Bool) (heuristic : Point → Point → Dist)
    (ep : ℕ) (target point : Point) (gval : Dist) :
    List (Option Point × Dist) → Grid → List Node → Grid × List Node
  | [], grid, heap => (grid, heap)
  | (none, _) :: rest, grid, heap =>
    visitNeighbors passable heuristic ep target point gval rest grid heap
  | (some nbr, cost) :: rest, grid, heap =>
    match grid.get nbr with
    | none => visitNeighbors passable heuristic ep target point gval rest grid heap
    | some tile =>
      if !tile.visitedAt ep && passable tile then
        visitNeighbors passable heuristic ep target point gval rest
          (grid.setTile nbr (tile.visit point (gval + cost) (heuristic nbr target) ep))
          (Heap.push heap
            ⟨nbr, (tile.visit point (gval + cost) (heuristic nbr target) ep).f,
              (tile.visit point (gval + cost) (heuristic nbr target) ep).g⟩)
      else
        visitNeighbors passable heuristic ep target point gval rest grid heap

/-- State of the astar while loop: the (mutably borrowed) grid, the open
set, and the expansion counter. -/
structure SearchState where
  grid : Grid
  openHeap : List Node
  expansions : ℕ

/-- One iteration of the astar while loop from src/src/search.rs: pop, count
the expansion, stop with the reconstructed path if the target was popped,
otherwise expand the neighbors; inl means the function returns. -/
def astarStep (heuristic : Point → Point → Dist) (passable : Tile → Bool)
    (target : Point) (ep : ℕ) (st : SearchState) :
    (Option SearchData × Grid) ⊕ SearchState :=
  match Heap.pop st.openHeap with
  | none => Sum.inl (none, st.grid)
  | some (expand, rest) =>
    if expand.point = target then
      Sum.inl (some ⟨extract_path st.grid expand.point, st.expansions + 1⟩, st.grid)
    else
      Sum.inr ⟨(visitNeighbors passable heuristic ep target expand.point
          ((st.grid.getTile expand.point).g) (expand.point.neighborsSlots.zip COST)
          st.grid rest).1,
        (visitNeighbors passable heuristic ep target expand.point
          ((st.grid.getTile expand.point).g) (expand.point.neighborsSlots.zip COST)
          st.grid rest).2,
        st.expansions + 1⟩

/-- Fueled astar while loop; none means out of fuel (never happens with
the fuel supplied by astar, proved below). -/
def astarLoop (heuristic : Point → Point → Dist) (passable : Tile → Bool)
    (target : Point) (ep : ℕ) : ℕ → SearchState → Option (Option SearchData × Grid)
  | 0, _ => none
  | fuel + 1, st =>
    match astarStep heuristic passable target ep st with
    | Sum.inl r => some r
    | Sum.inr st2 => astarLoop heuristic passable target ep fuel st2

/-- Setup of astar from src/src/search.rs (lines 79-90): obtain a fresh
episode, visit the source (initial h from the octile heuristic) and push
it on the empty open set. -/
def initState (g : Grid) (source target : Point) : SearchState :=
  let ep := (g.next_episode).1
  let grid1 := (g.next_episode).2
  let grid2 := grid1.modifyTile source
    (fun t => t.visit_initial (octile_heuristic source target) ep)
  ⟨grid2,
   Heap.push [] ⟨source, (grid2.getTile source).f, (grid2.getTile source).g⟩,
   0⟩

/-- astar from src/src/search.rs (lines 70-121): set up the episode and
run the expansion loop; the fuel tileCount + 2 is sufficient (shown
below), so the getD default is never taken. -/
def astar (grid0 : Grid) (source target : Point)
    (heuristic : Point → Point → Dist) (passable : Tile → Bool) :
    Option SearchData × Grid :=
  (astarLoop heuristic passable target ((grid0.next_episode).1) (grid0.tileCount + 2)
    (initState grid0 source target)).getD (none, (initState grid0 source target).grid)

/-- Modelled from the spec: Grid::has_path, the ground-truth reachability
oracle used only by trial generation; a search invocation with the
terrain-based predicate.  It advances the episode counter like any search. -/
def Grid.has_path (g : Grid) (source target : Point) : Bool × Grid :=
  ((astar g source target octile_heuristic Tile.passable).1.isSome,
   (astar g source target octile_heuristic Tile.passable).2)

/-- Modelled from the spec: the record returned by Agent::act, a next
point together with the expansions this call performed (agent.rs in src
is an earlier revision returning only the point; instance.rs consumes the
action and expansions fields). -/
structure AgentData where
  action : Point
  expansions : ℕ
  deriving DecidableEq

/-- The two agent policies (AlwaysAstar and RepeatedAstar from
src/src/agent.rs), as a closed type; the heuristic is a parameter of act. -/
inductive AgentKind where
  | always
  | rastar
  deriving DecidableEq

/-- RepeatedAstar::follow_path from src/src/agent.rs (lines 141-144):
pop the next step off the cached path; popping an empty cached vector
yields no step but keeps the (empty) path cached. -/
def followPath (st : Option Path) : Option Point × Option Path :=
  match st with
  | none => (none, none)
  | some l =>
    match l.getLast? with
    | none => (none, some l)
    | some x => (some x, some l.dropLast)

/-- RepeatedAstar::update_path from src/src/agent.rs (lines 129-139),
against the search engine of src/src/search.rs: refresh the cached path
by a full episode under the belief predicate, keeping the expansion count
(modelled from the spec for the expansion count). -/
def updatePath (heuristic : Point → Point → Dist) (grid : Grid)
    (location target : Point) : Option Path × ℕ × Grid :=
  match astar grid location target heuristic Tile.freespace with
  | (none, g2) => (none, 0, g2)
  | (some d, g2) => (some d.path, d.expansions, g2)

/-- Agent::act for RepeatedAstar from src/src/agent.rs (lines 146-168),
with the expansion counts modelled from the spec: a cached step that is
still believed passable is consumed and returned with 0 expansions and no
search; otherwise one full episode refreshes the path and its first step
is returned with the true expansion count (no step if the refresh found
no path). -/
def rastarAct (heuristic : Point → Point → Dist) (st : Option Path)
    (grid : Grid) (location target : Point) :
    Option AgentData × Option Path × Grid :=
  match followPath st with
  | (some next, st2) =>
    if (grid.getTile next).freespace then (some ⟨next, 0⟩, st2, grid)
    else
      match updatePath heuristic grid location target with
      | (p3, exp, g2) =>
        match followPath p3 with
        | (stp, p4) => (stp.map fun a => ⟨a, exp⟩, p4, g2)
  | (none, _) =>
    match updatePath heuristic grid location target with
    | (p3, exp, g2) =>
      match followPath p3 with
      | (stp, p4) => (stp.map fun a => ⟨a, exp⟩, p4, g2)

/-- Agent::act for AlwaysAstar from src/src/agent.rs (lines 96-108), with
the expansion count modelled from the spec: a fresh full episode on every
call, returning the first step of the path. -/
def alwaysAct (heuristic : Point → Point → Dist) (grid : Grid)
    (location target : Point) : Option AgentData × Grid :=
  match astar grid location target heuristic Tile.freespace with
  | (none, g2) => (none, g2)
  | (some d, g2) => (d.path.getLast?.map fun a => ⟨a, d.expansions⟩, g2)

/-- Dispatch of Agent::act over the two policies.  The agent state is the
cached path (meaningful only for RepeatedAstar). -/
def Agent.act (kind : AgentKind) (heuristic : Point → Point → Dist)
    (st : Option Path) (grid : Grid) (location target : Point) :
    Option AgentData × Option Path × Grid :=
  match kind with
  | AgentKind.always =>
    match alwaysAct heuristic grid location target with
    | (d, g2) => (d, st, g2)
  | AgentKind.rastar => rastarAct heuristic st grid location target

/-- Agent::reset: the default does nothing (AlwaysAstar); RepeatedAstar
clears the cached path (src/src/agent.rs lines 165-167). -/
def Agent.reset (kind : AgentKind) (st : Option Path) : Option Path :=
  match kind with
  | AgentKind.always => st
  | AgentKind.rastar => none

/-- Datum from src/src/instance.rs: per-run statistics.  The Rust field
cost (a running f64 sum of the configured cost metric over the moves
taken) is recorded here as the list of moves, summed by Datum.cost; the
counters are as in the source. -/
structure Datum where
  moves : List (Point × Point)
  steps : ℕ
  episodes : ℕ
  expansions : ℕ
  deriving DecidableEq

def Datum.empty : Datum := ⟨[], 0, 0, 0⟩

/-- The accumulated cost of a run: the sum the Rust code maintains by
data.cost += cost(location, point) at each move. -/
noncomputable def Datum.cost (cost : Point → Point → ℝ) (d : Datum) : ℝ :=
  (d.moves.map fun m => cost m.1 m.2).sum

/-- The while let loop of Instance::run_once from src/src/instance.rs
(lines 110-130): act, account the episode if the call expanded nodes,
move the agent (step count, cost ledger, look at the new location), stop
with the statistics when the target was entered, fail when the agent has
no move.  Fuel bounds the walk. -/
def runOnceGo (kind : AgentKind) (heuristic : Point → Point → Dist) :
    ℕ → Grid → Option Path → Point → Point → Datum → Option Datum × Grid
  | 0, g, _, _, _, _ => (none, g)
  | fuel + 1, g, st, location, target, data =>
    match Agent.act kind heuristic st g location target with
    | (none, _, g2) => (none, g2)
    | (some d, st2, g2) =>
      let data2 := if 0 < d.expansions then
          { data with episodes := data.episodes + 1,
                      expansions := data.expansions + d.expansions }
        else data
      let data3 := { data2 with steps := data2.steps + 1,
                                moves := data2.moves ++ [(location, d.action)] }
      let g3 := g2.look d.action
      if d.action = target then (some data3, g3)
      else runOnceGo kind heuristic fuel g3 st2 d.action target data3

/-- Instance::run_once from src/src/instance.rs (lines 104-132): reset
the statistics and the agent, move to the source, reveal its
neighborhood, then run the loop. -/
def run_once (kind : AgentKind) (heuristic : Point → Point → Dist)
    (fuel : ℕ) (g : Grid) (source target : Point) : Option Datum × Grid :=
  runOnceGo kind heuristic fuel (g.look source) (Agent.reset kind none)
    source target Datum.empty

/-- Modelled from the spec: one uniform draw of Range::new(0, n) from the
seeded generator, as the k-th value of an abstract stream reduced mod n
(the claims hold for every stream, so the generator internals stay
abstract; a draw is always below n when n is positive, as with the Rust
Range). -/
def sampleRange (stream : ℕ → ℕ) (k n : ℕ) : ℕ := stream k % n

/-- The inner rejection loop of Instance::build_trials from
src/src/instance.rs (lines 148-161): draw a candidate pair (four draws),
accept it when source and target differ, both tiles are ground-truth
passable and a ground-truth path connects them; otherwise draw again.
The && short-circuits, so has_path (which advances the episode counter)
runs only when the cheap tests pass.  Fuel bounds the rejection loop
(the Rust loop can spin forever on a grid with no valid pair). -/
def drawPair (stream : ℕ → ℕ) : ℕ → ℕ → Grid → Option ((Point × Point) × ℕ × Grid)
  | 0, _, _ => none
  | fuel + 1, k, g =>
    let source : Point := ⟨sampleRange stream k g.height, sampleRange stream (k + 1) g.width⟩
    let target : Point := ⟨sampleRange stream (k + 2) g.height, sampleRange stream (k + 3) g.width⟩
    if source ≠ target ∧ (g.getTile source).passable ∧ (g.getTile target).passable then
      match g.has_path source target with
      | (true, g2) => some ((source, target), k + 4, g2)
      | (false, g2) => drawPair stream fuel (k + 4) g2
    else
      drawPair stream fuel (k + 4) g

/-- The outer loop of Instance::build_trials (lines 147-162): generation
always proceeds from trial 0; only pairs at index at least start are
retained. -/
def buildTrialsGo (stream : ℕ → ℕ) (innerFuel start : ℕ) :
    ℕ → ℕ → ℕ → Grid → List (Point × Point) → List (Point × Point) × Grid
  | 0, _, _, g, acc => (acc, g)
  | remaining + 1, trialIdx, k, g, acc =>
    match drawPair stream innerFuel k g with
    | none => (acc, g)
    | some (pair, k2, g2) =>
      buildTrialsGo stream innerFuel start remaining (trialIdx + 1) k2 g2
        (if start ≤ trialIdx then acc ++ [pair] else acc)

/-- Instance::build_trials from src/src/instance.rs (lines 134-164).
The seeded generator keyed by (seed, height, width) is the supplied
stream; claims quantify over all streams. -/
def build_trials (stream : ℕ → ℕ) (innerFuel : ℕ) (g : Grid)
    (start endv : ℕ) : List (Point × Point) × Grid :=
  buildTrialsGo stream innerFuel start endv 0 0 g []

/-- The processing loop of Instance::run_trials (lines 174-180): forget
between trials, then run once per retained pair. -/
def runTrialsGo (kind : AgentKind) (heuristic : Point → Point → Dist)
    (runFuel : ℕ) : List (Point × Point) → Grid → List (Option Datum) →
    List (Option Datum) × Grid
  | [], g, acc => (acc, g)
  | pair :: rest, g, acc =>
    match run_once kind heuristic runFuel g.forget pair.1 pair.2 with
    | (r, g2) => runTrialsGo kind heuristic runFuel rest g2 (acc ++ [r])

/-- Instance::run_trials from src/src/instance.rs (lines 166-182). -/
def run_trials (kind : AgentKind) (heuristic : Point → Point → Dist)
    (stream : ℕ → ℕ) (innerFuel runFuel : ℕ) (g : Grid)
    (start endv : ℕ) : List (Option Datum) × Grid :=
  match build_trials stream innerFuel g start endv with
  | (trials, g1) => runTrialsGo kind heuristic runFuel trials g1 []

/-- Modelled from the spec: the per-tile effect of Grid::forget, belief
back to Unknown, terrain untouched. -/
def Tile.forget (t : Tile) : Tile := { t with belief := Belief.Unknown }

/-!  Theorems.  -/

theorem cmpNode_gt_iff (a b : Node) :
    cmpNode a b = Ordering.gt ↔ (a.f < b.f ∨ (a.f = b.f ∧ b.g < a.g)) := by
  rcases lt_trichotomy a.f b.f with h | h | h
  · simp [cmpNode, pcmp, h, lt_asymm h, ne_of_gt h]
  · rcases lt_trichotomy a.g b.g with hg | hg | hg
    · simp [cmpNode, pcmp, h, hg, lt_asymm hg, ne_of_gt hg, not_lt_of_gt hg]
    · simp [cmpNode, pcmp, h, hg]
    · simp [cmpNode, pcmp, h, hg, lt_asymm hg, ne_of_gt hg]
  · simp [cmpNode, pcmp, h, lt_asymm h, ne_of_gt h, (ne_of_gt h).symm]

/-- C2 counterexample: two nodes with equal f where the node with the
smaller g compares Less, so the max-heap pops it later, not first as the
claim states. -/
theorem c2_smaller_g_not_preferred :
    (⟨⟨0, 0⟩, 1, 0⟩ : Node).f = (⟨⟨0, 0⟩, 1, 1⟩ : Node).f ∧
    (⟨⟨0, 0⟩, 1, 0⟩ : Node).g < (⟨⟨0, 0⟩, 1, 1⟩ : Node).g ∧
    cmpNode ⟨⟨0, 0⟩, 1, 0⟩ ⟨⟨0, 0⟩, 1, 1⟩ = Ordering.lt := by
  refine ⟨rfl, ?_, by decide⟩
  decide

/-- C2 (amended): the comparator orders a node strictly greater (popped
first by the max-heap) exactly when its f is lower, or the f values are
equal and its g is LARGER; ties on f prefer the larger g, not the
smaller. -/
theorem c2_cmp_lowest_f_ties_larger_g (a b : Node) :
    cmpNode a b = Ordering.gt ↔ (a.f < b.f ∨ (a.f = b.f ∧ b.g < a.g)) :=
  cmpNode_gt_iff a b

/-- C7: Cell::look is idempotent; a first look on an unknown tile sets
the belief from the terrain (Ground to Passable, otherwise Impassable);
look never touches terrain; and forget followed by look restores the
pre-forget belief of an observed tile. -/
theorem look_of_not_unknown (t : Tile) (h : t.belief ≠ Belief.Unknown) : t.look = t := by
  unfold Tile.look
  rw [if_neg h]

theorem look_of_unknown (t : Tile) (h : t.belief = Belief.Unknown) :
    t.look = { t with belief := t.terrain.passable } := by
  unfold Tile.look
  rw [if_pos h]

theorem look_belief_not_unknown (t : Tile) (h : t.belief = Belief.Unknown) :
    t.look.belief ≠ Belief.Unknown := by
  rw [look_of_unknown t h]
  cases t.terrain <;> simp [Terrain.passable]

theorem c7_look_idempotent_forget_restores (c : Tile) :
    (c.look.look = c.look) ∧
    (c.look.terrain = c.terrain) ∧
    (c.belief = Belief.Unknown → c.look.belief = c.terrain.passable) ∧
    (c.belief = c.terrain.passable → c.forget.look = c) := by
  refine ⟨?_, ?_, ?_, ?_⟩
  · by_cases h1 : c.belief = Belief.Unknown
    · exact look_of_not_unknown c.look (look_belief_not_unknown c h1)
    · rw [look_of_not_unknown c h1]
      exact look_of_not_unknown c h1
  · unfold Tile.look
    split_ifs <;> rfl
  · intro h
    rw [look_of_unknown c h]
  · intro h
    have hb : c.forget.belief = Belief.Unknown := rfl
    rw [look_of_unknown c.forget hb]
    cases c with
    | mk terrain belief hh gg parent visited =>
      simp only [Tile.forget, Tile.mk.injEq, true_and, and_true]
      exact h.symm

/-- C7 witness at a concrete observed tile. -/
theorem c7_witness :
    ((Tile.new Terrain.Trees).look.belief = (Tile.new Terrain.Trees).look.terrain.passable ∧
      (Tile.new Terrain.Trees).look.forget.look = (Tile.new Terrain.Trees).look) ∧
    ((Tile.new Terrain.Swamp).belief = Belief.Unknown ∧
      (Tile.new Terrain.Swamp).look.belief = (Tile.new Terrain.Swamp).terrain.passable) :=
  ⟨⟨by decide,
    (c7_look_idempotent_forget_restores ((Tile.new Terrain.Trees).look)).2.2.2 (by decide)⟩,
   ⟨by decide, (c7_look_idempotent_forget_restores (Tile.new Terrain.Swamp)).2.2.1 (by decide)⟩⟩

/-- C9 counterexample: Point::neighbors is not clipped at the grid
edges; on a 1 by 1 grid the neighbors of (0,0) include (0,1), which lies
outside the grid's dimensions (its get is a miss and its column is not
below the width). -/
theorem c9_neighbors_not_clipped_at_edges :
    (⟨0, 1⟩ : Point) ∈ (⟨0, 0⟩ : Point).neighbors ∧
    (Grid.new [[Tile.new Terrain.Ground]]).get ⟨0, 1⟩ = none ∧
    ¬ (⟨0, 1⟩ : Point).x < (Grid.new [[Tile.new Terrain.Ground]]).width := by
  refine ⟨?_, ?_, ?_⟩ <;> decide

/-- C9 (amended): Point::neighbors returns exactly the points at
Chebyshev distance 1 whose coordinates stay nonnegative (clipping at
zero only); clipping at the upper grid edges is left to the callers'
in-bounds lookups. -/
theorem c9_neighbors_chebyshev_ring (p q : Point) :
    q ∈ p.neighbors ↔
      (q ≠ p ∧ q.y ≤ p.y + 1 ∧ p.y ≤ q.y + 1 ∧ q.x ≤ p.x + 1 ∧ p.x ≤ q.x + 1) := by
  unfold Point.neighbors
  simp only [List.mem_flatMap, List.mem_filterMap, List.mem_range'_1]
  constructor
  · rintro ⟨y, hy, x, hx, hfx⟩
    by_cases hc : y = p.y ∧ x = p.x
    · rw [if_pos hc] at hfx
      exact absurd hfx (by simp)
    · rw [if_neg hc] at hfx
      obtain rfl : (⟨y, x⟩ : Point) = q := Option.some_inj.mp hfx
      refine ⟨?_, ?_, ?_, ?_, ?_⟩
      · intro he
        apply hc
        have hy2 : y = p.y := congrArg Point.y he
        have hx2 : x = p.x := congrArg Point.x he
        exact ⟨hy2, hx2⟩
      · show y ≤ p.y + 1
        rcases hy with ⟨hy1, hy2⟩
        split_ifs at hy1 hy2 with h <;> omega
      · show p.y ≤ y + 1
        rcases hy with ⟨hy1, hy2⟩
        split_ifs at hy1 hy2 with h <;> omega
      · show x ≤ p.x + 1
        rcases hx with ⟨hx1, hx2⟩
        split_ifs at hx1 hx2 with h <;> omega
      · show p.x ≤ x + 1
        rcases hx with ⟨hx1, hx2⟩
        split_ifs at hx1 hx2 with h <;> omega
  · rintro ⟨hne, h1, h2, h3, h4⟩
    refine ⟨q.y, ?_, q.x, ?_, ?_⟩
    · constructor
      · split_ifs with h <;> omega
      · split_ifs with h <;> omega
    · constructor
      · split_ifs with h <;> omega
      · split_ifs with h <;> omega
    · have hno : ¬(q.y = p.y ∧ q.x = p.x) := by
        rintro ⟨hy, hx⟩
        exact hne (by cases q; cases p; simp_all)
      rw [if_neg hno]

theorem get_isSome_lt {α : Type} {l : List α} {n : ℕ} {a : α}
    (h : l.get? n = some a) : n < l.length := by
  by_contra hc
  rw [List.get?_eq_none.mpr (Nat.le_of_not_lt hc)] at h
  exact Option.noConfusion h

theorem Grid.get_some (g : Grid) (p : Point) (t : Tile) (h : g.get p = some t) :
    ∃ row, g.tiles.get? p.y = some row ∧ row.get? p.x = some t := by
  unfold Grid.get at h
  cases hy : g.tiles.get? p.y with
  | none => rw [hy] at h; exact Option.noConfusion h
  | some row =>
    rw [hy] at h
    exact ⟨row, rfl, h⟩

theorem Grid.get_setTile_self (g : Grid) (p : Point) (t0 t : Tile)
    (h : g.get p = some t0) : (g.setTile p t).get p = some t := by
  obtain ⟨row, hy, hx⟩ := g.get_some p t0 h
  have hylt : p.y < g.tiles.length := get_isSome_lt hy
  have hxlt : p.x < row.length := get_isSome_lt hx
  unfold Grid.setTile Grid.get
  rw [hy]
  simp only [List.get?_set_eq_of_lt _ hylt, List.get?_set_eq_of_lt _ hxlt,
    Option.some_bind]

theorem Grid.get_setTile_ne (g : Grid) (p q : Point) (t : Tile)
    (h : q ≠ p) : (g.setTile p t).get q = g.get q := by
  unfold Grid.setTile Grid.get
  cases hy : g.tiles.get? p.y with
  | none => rfl
  | some row =>
    simp only []
    by_cases hyy : q.y = p.y
    · have hxx : q.x ≠ p.x := by
        intro hc
        exact h (by cases p; cases q; simp_all)
      have hylt : p.y < g.tiles.length := get_isSome_lt hy
      rw [hyy]
      rw [List.get?_set_eq_of_lt _ hylt, hy]
      simp only [Option.some_bind]
      rw [List.get?_set_ne _ _ (fun hc => hxx hc.symm)]
    · rw [List.get?_set_ne _ _ (fun hc => hyy hc.symm)]

theorem Grid.get_modifyTile_self (g : Grid) (p : Point) (f : Tile → Tile)
    (t0 : Tile) (h : g.get p = some t0) :
    (g.modifyTile p f).get p = some (f t0) := by
  unfold Grid.modifyTile
  rw [h]
  exact g.get_setTile_self p t0 (f t0) h

theorem Grid.get_modifyTile_ne (g : Grid) (p q : Point) (f : Tile → Tile)
    (h : q ≠ p) : (g.modifyTile p f).get q = g.get q := by
  unfold Grid.modifyTile
  cases hp : g.get p with
  | none => rfl
  | some t0 => exact g.get_setTile_ne p q (f t0) h

theorem Grid.setTile_episode (g : Grid) (p : Point) (t : Tile) :
    (g.setTile p t).episode = g.episode := by
  unfold Grid.setTile
  cases g.tiles.get? p.y <;> rfl

theorem Grid.modifyTile_episode (g : Grid) (p : Point) (f : Tile → Tile) :
    (g.modifyTile p f).episode = g.episode := by
  unfold Grid.modifyTile
  cases g.get p with
  | none => rfl
  | some t => exact g.setTile_episode p (f t)

/-- C10: for an in-bounds source equal to the target, astar succeeds with
an empty path and exactly one expansion, whatever the terrain, belief,
heuristic, or passability predicate: the source is visited without a
passability check and the target test fires on the first pop. -/
theorem c10_source_equals_target (g : Grid) (p : Point)
    (heuristic : Point → Point → Dist) (passable : Tile → Bool)
    (h : (g.get p).isSome) :
    (astar g p p heuristic passable).1 = some ⟨[], 1⟩ := by
  obtain ⟨t0, ht⟩ := Option.isSome_iff_exists.mp h
  have hg1 : ({ g with episode := g.episode + 1 } : Grid).get p = some t0 := ht
  have hg2 : (({ g with episode := g.episode + 1 } : Grid).modifyTile p
      (fun t => t.visit_initial (octile_heuristic p p) (g.episode + 1))).get p =
      some (t0.visit_initial (octile_heuristic p p) (g.episode + 1)) :=
    Grid.get_modifyTile_self _ p _ t0 hg1
  have htile : (({ g with episode := g.episode + 1 } : Grid).modifyTile p
      (fun t => t.visit_initial (octile_heuristic p p) (g.episode + 1))).getTile p =
      t0.visit_initial (octile_heuristic p p) (g.episode + 1) := by
    unfold Grid.getTile
    rw [hg2]
    rfl
  have hpath : extract_path (({ g with episode := g.episode + 1 } : Grid).modifyTile p
      (fun t => t.visit_initial (octile_heuristic p p) (g.episode + 1))) p = [] := by
    unfold extract_path
    unfold extractPathGo
    rw [htile]
    rfl
  have hstep : astarStep heuristic passable p (g.episode + 1)
      ⟨({ g with episode := g.episode + 1 } : Grid).modifyTile p
          (fun t => t.visit_initial (octile_heuristic p p) (g.episode + 1)),
        [⟨p,
          ((({ g with episode := g.episode + 1 } : Grid).modifyTile p
            (fun t => t.visit_initial (octile_heuristic p p) (g.episode + 1))).getTile p).f,
          ((({ g with episode := g.episode + 1 } : Grid).modifyTile p
            (fun t => t.visit_initial (octile_heuristic p p) (g.episode + 1))).getTile p).g⟩],
        0⟩ =
      Sum.inl (some ⟨[], 1⟩,
        ({ g with episode := g.episode + 1 } : Grid).modifyTile p
          (fun t => t.visit_initial (octile_heuristic p p) (g.episode + 1))) := by
    unfold astarStep
    simp only [Heap.pop, if_true]
    rw [hpath]
  have hloop : ∀ fuel,
      astarLoop heuristic passable p (g.episode + 1) (fuel + 1)
        ⟨({ g with episode := g.episode + 1 } : Grid).modifyTile p
            (fun t => t.visit_initial (octile_heuristic p p) (g.episode + 1)),
          [⟨p,
            ((({ g with episode := g.episode + 1 } : Grid).modifyTile p
              (fun t => t.visit_initial (octile_heuristic p p) (g.episode + 1))).getTile p).f,
            ((({ g with episode := g.episode + 1 } : Grid).modifyTile p
              (fun t => t.visit_initial (octile_heuristic p p) (g.episode + 1))).getTile p).g⟩],
          0⟩ =
        some (some ⟨[], 1⟩,
          ({ g with episode := g.episode + 1 } : Grid).modifyTile p
            (fun t => t.visit_initial (octile_heuristic p p) (g.episode + 1))) := by
    intro fuel
    rw [astarLoop]
    rw [hstep]
  exact congrArg
    (fun r => (r.getD ((none : Option SearchData),
      ({ g with episode := g.episode + 1 } : Grid).modifyTile p
        (fun t => t.visit_initial (octile_heuristic p p) (g.episode + 1)))).1)
    (hloop (g.tileCount + 1))

/-!  Reachability and the search loop invariant.  -/

/-- The persistent (never mutated by search) part of a tile. -/
def Tile.pers (t : Tile) : Terrain × Belief := (t.terrain, t.belief)

/-- Two grids agree on shape and persistent tile data. -/
def persEq (g1 g2 : Grid) : Prop :=
  ∀ p, (g1.get p).map Tile.pers = (g2.get p).map Tile.pers

/-- A tile is marked visited for the episode. -/
def visitedP (g : Grid) (ep : ℕ) (p : Point) : Prop :=
  ∃ t, g.get p = some t ∧ t.visited = ep

/-- One admissible search step: q occupies a neighbor slot of p, is in
bounds, and its tile satisfies the passability predicate. -/
def stepOK (g0 : Grid) (P : Tile → Bool) (p q : Point) : Prop :=
  some q ∈ p.neighborsSlots ∧ ∃ t, g0.get q = some t ∧ P t = true

/-- Connectivity through in-bounds 8-connected steps whose tiles satisfy
the predicate (the source itself is not tested, matching astar). -/
inductive Reach (g0 : Grid) (P : Tile → Bool) (s : Point) : Point → Prop where
  | refl : Reach g0 P s s
  | step {p q : Point} : Reach g0 P s p → stepOK g0 P p q → Reach g0 P s q

/-- Predicate-stability: the predicate only reads the persistent part of
a tile (true of Tile.passable and Tile.freespace). -/
def persStable (P : Tile → Bool) : Prop :=
  ∀ t1 t2 : Tile, t1.terrain = t2.terrain → t1.belief = t2.belief → P t1 = P t2

theorem persStable_passable : persStable Tile.passable := by
  intro t1 t2 ht hb
  simp [Tile.passable, ht]

theorem persStable_freespace : persStable Tile.freespace := by
  intro t1 t2 ht hb
  simp [Tile.freespace, hb]

/-- Number of tiles marked visited for the episode. -/
def countVisited (g : Grid) (ep : ℕ) : ℕ :=
  (g.tiles.map (fun row => row.countP (fun t => t.visited == ep))).sum

theorem countP_set {α : Type} (f : α → Bool) :
    ∀ (l : List α) (i : ℕ) (a b : α), l.get? i = some a →
    (l.set i b).countP f + (if f a then 1 else 0) =
      l.countP f + (if f b then 1 else 0) := by
  intro l
  induction l with
  | nil => intro i a b h; simp at h
  | cons x xs ih =>
    intro i a b h
    cases i with
    | zero =>
      obtain rfl : x = a := by simpa using h
      by_cases hfa : f x <;> by_cases hfb : f b <;>
        simp [List.countP_cons, hfa, hfb]
    | succ m =>
      have h2 := ih m a b (by simpa using h)
      simp only [List.set_cons_succ, List.countP_cons]
      omega

theorem sum_map_set {α : Type} (F : α → ℕ) :
    ∀ (l : List α) (i : ℕ) (a b : α), l.get? i = some a →
    ((l.set i b).map F).sum + F a = (l.map F).sum + F b := by
  intro l
  induction l with
  | nil => intro i a b h; simp at h
  | cons x xs ih =>
    intro i a b h
    cases i with
    | zero =>
      obtain rfl : x = a := by simpa using h
      simp only [List.set_cons_zero, List.map_cons, List.sum_cons]
      omega
    | succ m =>
      have h2 := ih m a b (by simpa using h)
      simp only [List.set_cons_succ, List.map_cons, List.sum_cons]
      omega

theorem countVisited_setTile (g : Grid) (ep : ℕ) (p : Point) (t0 t2 : Tile)
    (h : g.get p = some t0) :
    countVisited (g.setTile p t2) ep + (if t0.visited == ep then 1 else 0) =
      countVisited g ep + (if t2.visited == ep then 1 else 0) := by
  obtain ⟨row, hy, hx⟩ := g.get_some p t0 h
  unfold countVisited Grid.setTile
  rw [hy]
  simp only []
  have hrow := countP_set (fun t => t.visited == ep) row p.x t0 t2 hx
  have hsum := sum_map_set (fun row => row.countP (fun t => t.visited == ep))
    g.tiles p.y row (row.set p.x t2) hy
  simp only [] at hrow hsum ⊢
  omega

theorem tileCount_setTile (g : Grid) (p : Point) (t0 t2 : Tile)
    (h : g.get p = some t0) : (g.setTile p t2).tileCount = g.tileCount := by
  obtain ⟨row, hy, hx⟩ := g.get_some p t0 h
  unfold Grid.tileCount Grid.setTile
  rw [hy]
  simp only []
  have hsum := sum_map_set List.length g.tiles p.y row (row.set p.x t2) hy
  have hlen : (row.set p.x t2).length = row.length := by simp
  omega

theorem countVisited_le_tileCount (g : Grid) (ep : ℕ) :
    countVisited g ep ≤ g.tileCount := by
  unfold countVisited Grid.tileCount
  induction g.tiles with
  | nil => simp
  | cons row rows ih =>
    simp only [List.map_cons, List.sum_cons]
    have : row.countP (fun t => t.visited == ep) ≤ row.length := List.countP_le_length _
    omega

theorem Heap.push_length (l : List Node) (n : Node) :
    (Heap.push l n).length = l.length + 1 := by
  have h := (Heap.push_perm l n).length_eq
  simpa using h

/-!  Effect of one neighbor expansion pass.  -/

section VN

variable (P : Tile → Bool) (H : Point → Point → Dist) (ep : ℕ)
variable (target point : Point) (gval : Dist)

theorem vn_pers (slots : List (Option Point × Dist)) (grid : Grid) (heap : List Node) :
    ∀ p, ((visitNeighbors P H ep target point gval slots grid heap).1.get p).map Tile.pers =
      ((grid.get p).map Tile.pers) := by
  induction slots generalizing grid heap with
  | nil => intro p; rfl
  | cons head rest ih =>
    intro p
    obtain ⟨onbr, cost⟩ := head
    cases onbr with
    | none => exact ih grid heap p
    | some nbr =>
      simp only [visitNeighbors]
      cases hget : grid.get nbr with
      | none => exact ih grid heap p
      | some tile =>
        simp only []
        by_cases hcond : (!tile.visitedAt ep && P tile) = true
        · rw [if_pos hcond]
          refine (ih _ _ p).trans ?_
          by_cases hp : p = nbr
          · subst hp
            rw [Grid.get_setTile_self _ _ tile _ hget, hget]
            rfl
          · rw [Grid.get_setTile_ne _ _ _ _ hp]
        · rw [if_neg hcond]
          exact ih grid heap p

theorem vn_episode (slots : List (Option Point × Dist)) (grid : Grid) (heap : List Node) :
    (visitNeighbors P H ep target point gval slots grid heap).1.episode = grid.episode := by
  induction slots generalizing grid heap with
  | nil => rfl
  | cons head rest ih =>
    obtain ⟨onbr, cost⟩ := head
    cases onbr with
    | none => exact ih grid heap
    | some nbr =>
      simp only [visitNeighbors]
      cases hget : grid.get nbr with
      | none => exact ih grid heap
      | some tile =>
        simp only []
        by_cases hcond : (!tile.visitedAt ep && P tile) = true
        · rw [if_pos hcond]
          exact (ih _ _).trans (Grid.setTile_episode _ _ _)
        · rw [if_neg hcond]
          exact ih grid heap

theorem vn_visited_stable (slots : List (Option Point × Dist)) (grid : Grid)
    (heap : List Node) :
    ∀ p, visitedP grid ep p →
      (visitNeighbors P H ep target point gval slots grid heap).1.get p = grid.get p := by
  induction slots generalizing grid heap with
  | nil => intro p _; rfl
  | cons head rest ih =>
    intro p hvis
    obtain ⟨onbr, cost⟩ := head
    cases onbr with
    | none => exact ih grid heap p hvis
    | some nbr =>
      simp only [visitNeighbors]
      cases hget : grid.get nbr with
      | none => exact ih grid heap p hvis
      | some tile =>
        simp only []
        by_cases hcond : (!tile.visitedAt ep && P tile) = true
        · rw [if_pos hcond]
          have hne : p ≠ nbr := by
            intro he
            subst he
            obtain ⟨t, ht, htv⟩ := hvis
            rw [hget] at ht
            obtain rfl := Option.some_inj.mp ht
            simp [Tile.visitedAt, htv] at hcond
          have hstay : (grid.setTile nbr
              (tile.visit point (gval + cost) (H nbr target) ep)).get p = grid.get p :=
            Grid.get_setTile_ne _ _ _ _ hne
          have hvis2 : visitedP (grid.setTile nbr
              (tile.visit point (gval + cost) (H nbr target) ep)) ep p := by
            obtain ⟨t, ht, htv⟩ := hvis
            exact ⟨t, hstay ▸ ht, htv⟩
          exact (ih _ _ p hvis2).trans hstay
        · rw [if_neg hcond]
          exact ih grid heap p hvis

theorem vn_visited_mono (slots : List (Option Point × Dist)) (grid : Grid)
    (heap : List Node) :
    ∀ p, visitedP grid ep p →
      visitedP (visitNeighbors P H ep target point gval slots grid heap).1 ep p := by
  intro p hvis
  obtain ⟨t, ht, htv⟩ := hvis
  exact ⟨t, (vn_visited_stable P H ep target point gval slots grid heap p ⟨t, ht, htv⟩) ▸ ht, htv⟩

theorem vn_heap_mono (slots : List (Option Point × Dist)) (grid : Grid)
    (heap : List Node) :
    ∀ n ∈ heap, n ∈ (visitNeighbors P H ep target point gval slots grid heap).2 := by
  induction slots generalizing grid heap with
  | nil => intro n hn; exact hn
  | cons head rest ih =>
    intro n hn
    obtain ⟨onbr, cost⟩ := head
    cases onbr with
    | none => exact ih grid heap n hn
    | some nbr =>
      simp only [visitNeighbors]
      cases hget : grid.get nbr with
      | none => exact ih grid heap n hn
      | some tile =>
        simp only []
        by_cases hcond : (!tile.visitedAt ep && P tile) = true
        · rw [if_pos hcond]
          refine ih _ _ n ?_
          exact (Heap.push_perm heap _).mem_iff.mpr (List.mem_cons_of_mem _ hn)
        · rw [if_neg hcond]
          exact ih grid heap n hn

theorem vn_new_visited (slots : List (Option Point × Dist))
    (grid : Grid) (heap : List Node) :
    ∀ p, visitedP (visitNeighbors P H ep target point gval slots grid heap).1 ep p →
      visitedP grid ep p ∨
      ((∃ c, (some p, c) ∈ slots) ∧
       (∃ t, grid.get p = some t ∧ P t = true) ∧
       (∃ t2, (visitNeighbors P H ep target point gval slots grid heap).1.get p = some t2 ∧
          t2.parent = some point ∧ t2.visited = ep) ∧
       (∃ n ∈ (visitNeighbors P H ep target point gval slots grid heap).2, n.point = p)) := by
  induction slots generalizing grid heap with
  | nil => intro p hvis; exact Or.inl hvis
  | cons head rest ih =>
    intro p hvis
    obtain ⟨onbr, cost⟩ := head
    cases onbr with
    | none =>
      rcases ih grid heap p hvis with hl | ⟨⟨c, hc⟩, hmid, hfin, hnode⟩
      · exact Or.inl hl
      · exact Or.inr ⟨⟨c, List.mem_cons_of_mem _ hc⟩, hmid, hfin, hnode⟩
    | some nbr =>
      simp only [visitNeighbors] at hvis ⊢
      cases hget : grid.get nbr with
      | none =>
        rw [hget] at hvis
        simp only [] at hvis
        rcases ih grid heap p hvis with hl | ⟨⟨c, hc⟩, hmid, hfin, hnode⟩
        · exact Or.inl hl
        · exact Or.inr ⟨⟨c, List.mem_cons_of_mem _ hc⟩, hmid, hfin, hnode⟩
      | some tile =>
        rw [hget] at hvis
        simp only [] at hvis ⊢
        by_cases hcond : (!tile.visitedAt ep && P tile) = true
        · rw [if_pos hcond] at hvis ⊢
          have hsplit : (!tile.visitedAt ep) = true ∧ P tile = true := by
            simpa using hcond
          have hPtile : P tile = true := hsplit.2
          have hnv : ¬ tile.visited = ep := by
            intro hc
            have h1 := hsplit.1
            simp [Tile.visitedAt, hc] at h1
          rcases ih _ _ p hvis with hl | ⟨⟨c, hc⟩, hmid, hfin, hnode⟩
          · by_cases hp : p = nbr
            · subst hp
              refine Or.inr ⟨⟨cost, List.mem_cons_self _ _⟩, ⟨tile, hget, hPtile⟩, ?_, ?_⟩
              · have hvis2 : visitedP (grid.setTile p
                    (tile.visit point (gval + cost) (H p target) ep)) ep p :=
                  ⟨_, Grid.get_setTile_self _ _ tile _ hget, rfl⟩
                refine ⟨tile.visit point (gval + cost) (H p target) ep, ?_, rfl, rfl⟩
                rw [vn_visited_stable P H ep target point gval rest _ _ p hvis2]
                exact Grid.get_setTile_self _ _ tile _ hget
              · refine ⟨⟨p, (tile.visit point (gval + cost) (H p target) ep).f,
                  (tile.visit point (gval + cost) (H p target) ep).g⟩, ?_, rfl⟩
                refine vn_heap_mono P H ep target point gval rest _ _ _ ?_
                exact (Heap.push_perm heap _).mem_iff.mpr (List.mem_cons_self _ _)
            · left
              obtain ⟨t, ht, htv⟩ := hl
              rw [Grid.get_setTile_ne _ _ _ _ hp] at ht
              exact ⟨t, ht, htv⟩
          · by_cases hp : p = nbr
            · subst hp
              refine Or.inr ⟨⟨cost, List.mem_cons_self _ _⟩, ⟨tile, hget, hPtile⟩, hfin, hnode⟩
            · obtain ⟨t, ht, hPt⟩ := hmid
              rw [Grid.get_setTile_ne _ _ _ _ hp] at ht
              exact Or.inr ⟨⟨c, List.mem_cons_of_mem _ hc⟩, ⟨t, ht, hPt⟩, hfin, hnode⟩
        · rw [if_neg hcond] at hvis ⊢
          rcases ih grid heap p hvis with hl | ⟨⟨c, hc⟩, hmid, hfin, hnode⟩
          · exact Or.inl hl
          · exact Or.inr ⟨⟨c, List.mem_cons_of_mem _ hc⟩, hmid, hfin, hnode⟩

theorem vn_heap_new (slots : List (Option Point × Dist)) (grid : Grid)
    (heap : List Node) :
    ∀ n ∈ (visitNeighbors P H ep target point gval slots grid heap).2,
      n ∈ heap ∨ visitedP (visitNeighbors P H ep target point gval slots grid heap).1 ep n.point := by
  induction slots generalizing grid heap with
  | nil => intro n hn; exact Or.inl hn
  | cons head rest ih =>
    intro n hn
    obtain ⟨onbr, cost⟩ := head
    cases onbr with
    | none => exact ih grid heap n hn
    | some nbr =>
      simp only [visitNeighbors] at hn ⊢
      cases hget : grid.get nbr with
      | none =>
        rw [hget] at hn
        simp only [] at hn
        exact ih grid heap n hn
      | some tile =>
        rw [hget] at hn
        simp only [] at hn ⊢
        by_cases hcond : (!tile.visitedAt ep && P tile) = true
        · rw [if_pos hcond] at hn ⊢
          rcases ih _ _ n hn with hl | hr
          · rcases List.mem_cons.mp ((Heap.push_perm heap _).mem_iff.mp hl) with he | hold
            · right
              subst he
              refine vn_visited_mono P H ep target point gval rest _ _ _ ?_
              exact ⟨_, Grid.get_setTile_self _ _ tile _ hget, rfl⟩
            · exact Or.inl hold
          · exact Or.inr hr
        · rw [if_neg hcond] at hn ⊢
          exact ih grid heap n hn

theorem vn_count (slots : List (Option Point × Dist)) (grid : Grid)
    (heap : List Node) :
    (visitNeighbors P H ep target point gval slots grid heap).2.length +
      countVisited grid ep =
    heap.length + countVisited (visitNeighbors P H ep target point gval slots grid heap).1 ep := by
  induction slots generalizing grid heap with
  | nil => rfl
  | cons head rest ih =>
    obtain ⟨onbr, cost⟩ := head
    cases onbr with
    | none => exact ih grid heap
    | some nbr =>
      simp only [visitNeighbors]
      cases hget : grid.get nbr with
      | none => exact ih grid heap
      | some tile =>
        simp only []
        by_cases hcond : (!tile.visitedAt ep && P tile) = true
        · rw [if_pos hcond]
          have hsplit : (!tile.visitedAt ep) = true ∧ P tile = true := by
            simpa using hcond
          have hnv : (tile.visited == ep) = false := by
            cases hbe : (tile.visited == ep)
            · rfl
            · have hc : tile.visited = ep := by simpa using hbe
              have h1 := hsplit.1
              simp [Tile.visitedAt, hc] at h1
          have hv2 : ((tile.visit point (gval + cost) (H nbr target) ep).visited == ep) = true := by
            simp [Tile.visit]
          have hcv := countVisited_setTile grid ep nbr tile
            (tile.visit point (gval + cost) (H nbr target) ep) hget
          simp only [hnv, hv2, Bool.false_eq_true, if_false, if_true] at hcv
          have hpl := Heap.push_length heap
            ⟨nbr, (tile.visit point (gval + cost) (H nbr target) ep).f,
              (tile.visit point (gval + cost) (H nbr target) ep).g⟩
          have := ih (grid.setTile nbr (tile.visit point (gval + cost) (H nbr target) ep))
            (Heap.push heap
              ⟨nbr, (tile.visit point (gval + cost) (H nbr target) ep).f,
                (tile.visit point (gval + cost) (H nbr target) ep).g⟩)
          omega
        · rw [if_neg hcond]
          exact ih grid heap

theorem vn_tileCount (slots : List (Option Point × Dist)) (grid : Grid)
    (heap : List Node) :
    (visitNeighbors P H ep target point gval slots grid heap).1.tileCount = grid.tileCount := by
  induction slots generalizing grid heap with
  | nil => rfl
  | cons head rest ih =>
    obtain ⟨onbr, cost⟩ := head
    cases onbr with
    | none => exact ih grid heap
    | some nbr =>
      simp only [visitNeighbors]
      cases hget : grid.get nbr with
      | none => exact ih grid heap
      | some tile =>
        simp only []
        by_cases hcond : (!tile.visitedAt ep && P tile) = true
        · rw [if_pos hcond]
          rw [ih _ _]
          exact tileCount_setTile grid nbr tile _ hget
        · rw [if_neg hcond]
          exact ih grid heap

theorem vn_closure (slots : List (Option Point × Dist)) (grid : Grid)
    (heap : List Node) :
    ∀ q c, (some q, c) ∈ slots → (∃ t, grid.get q = some t ∧ P t = true) →
      visitedP (visitNeighbors P H ep target point gval slots grid heap).1 ep q := by
  induction slots generalizing grid heap with
  | nil => intro q c hq; simp at hq
  | cons head rest ih =>
    intro q c hq hmid
    obtain ⟨onbr, cost⟩ := head
    cases onbr with
    | none =>
      rcases List.mem_cons.mp hq with he | hrest
      · exact absurd he (by simp)
      · exact ih grid heap q c hrest hmid
    | some nbr =>
      simp only [visitNeighbors]
      obtain ⟨t, ht, hPt⟩ := hmid
      cases hget : grid.get nbr with
      | none =>
        rcases List.mem_cons.mp hq with he | hrest
        · obtain ⟨he1, -⟩ := Prod.mk.injEq .. ▸ he
          obtain rfl : nbr = q := by simpa using he1.symm
          rw [hget] at ht
          exact Option.noConfusion ht
        · exact ih grid heap q c hrest ⟨t, ht, hPt⟩
      | some tile =>
        simp only []
        by_cases hcond : (!tile.visitedAt ep && P tile) = true
        · rw [if_pos hcond]
          by_cases hqn : q = nbr
          · subst hqn
            refine vn_visited_mono P H ep target point gval rest _ _ _ ?_
            exact ⟨_, Grid.get_setTile_self _ _ tile _ hget, rfl⟩
          · rcases List.mem_cons.mp hq with he | hrest
            · obtain ⟨he1, -⟩ := Prod.mk.injEq .. ▸ he
              exact absurd (by simpa using he1.symm : nbr = q) (fun hc => hqn hc.symm)
            · refine ih _ _ q c hrest ?_
              rw [Grid.get_setTile_ne _ _ _ _ hqn]
              exact ⟨t, ht, hPt⟩
        · rw [if_neg hcond]
          by_cases hqn : q = nbr
          · subst hqn
            rw [hget] at ht
            obtain rfl := Option.some_inj.mp ht
            have hvA : Tile.visitedAt tile ep = true := by
              cases hva : Tile.visitedAt tile ep
              · exact absurd (by simp [hva, hPt]) hcond
              · rfl
            have hve : tile.visited = ep := by simpa [Tile.visitedAt] using hvA
            refine vn_visited_mono P H ep target point gval rest _ _ _ ?_
            exact ⟨tile, hget, hve⟩
          · rcases List.mem_cons.mp hq with he | hrest
            · obtain ⟨he1, -⟩ := Prod.mk.injEq .. ▸ he
              exact absurd (by simpa using he1.symm : nbr = q) (fun hc => hqn hc.symm)
            · exact ih grid heap q c hrest ⟨t, ht, hPt⟩

end VN


/-!  The search loop invariant.  -/

theorem getTile_eq (g : Grid) (p : Point) (t : Tile) (h : g.get p = some t) :
    g.getTile p = t := by
  unfold Grid.getTile
  rw [h]
  rfl

theorem pers_transfer {g1 g2 : Grid} {p : Point} {t : Tile}
    (h : (g1.get p).map Tile.pers = (g2.get p).map Tile.pers)
    (ht : g1.get p = some t) :
    ∃ t0, g2.get p = some t0 ∧ t0.terrain = t.terrain ∧ t0.belief = t.belief := by
  rw [ht] at h
  cases h2 : g2.get p with
  | none => rw [h2] at h; exact Option.noConfusion h
  | some t0 =>
    rw [h2] at h
    have := Option.some_inj.mp h
    unfold Tile.pers at this
    refine ⟨t0, rfl, ?_, ?_⟩
    · exact (congrArg Prod.fst this).symm
    · exact (congrArg Prod.snd this).symm

theorem exists_zip_right {α β : Type} :
    ∀ (l1 : List α) (l2 : List β) (a : α), a ∈ l1 → l1.length ≤ l2.length →
      ∃ b, (a, b) ∈ l1.zip l2 := by
  intro l1
  induction l1 with
  | nil => intro l2 a ha; simp at ha
  | cons x xs ih =>
    intro l2 a ha hlen
    cases l2 with
    | nil => simp at hlen
    | cons y ys =>
      rcases List.mem_cons.mp ha with rfl | hxs
      · exact ⟨y, List.mem_cons_self _ _⟩
      · obtain ⟨b, hb⟩ := ih ys a hxs (by simpa using hlen)
        exact ⟨b, List.mem_cons_of_mem _ hb⟩

/-- The invariant maintained by every iteration of the astar loop. -/
structure Inv (g0 : Grid) (P : Tile → Bool) (source target : Point) (ep : ℕ)
    (st : SearchState) : Prop where
  pers : ∀ p, (st.grid.get p).map Tile.pers = (g0.get p).map Tile.pers
  srcVis : visitedP st.grid ep source
  heapVis : ∀ n ∈ st.openHeap, visitedP st.grid ep n.point
  visReach : ∀ p, visitedP st.grid ep p → Reach g0 P source p
  closed : ∀ p, visitedP st.grid ep p → (∀ n ∈ st.openHeap, n.point ≠ p) →
    ∀ q, stepOK g0 P p q → visitedP st.grid ep q
  tgtHeap : visitedP st.grid ep target → ∃ n ∈ st.openHeap, n.point = target
  parNone : ∀ p, visitedP st.grid ep p → (st.grid.getTile p).parent = none → p = source
  parVis : ∀ p q, visitedP st.grid ep p → (st.grid.getTile p).parent = some q →
    visitedP st.grid ep q
  srcPar : (st.grid.getTile source).parent = none

theorem initState_grid_get (g : Grid) (source target : Point) (t0 : Tile)
    (hs : g.get source = some t0) :
    ∀ p, (initState g source target).grid.get p =
      if p = source
      then some (t0.visit_initial (octile_heuristic source target) (g.episode + 1))
      else g.get p := by
  intro p
  by_cases hp : p = source
  · subst hp
    rw [if_pos rfl]
    exact Grid.get_modifyTile_self _ p _ t0 hs
  · rw [if_neg hp]
    exact Grid.get_modifyTile_ne _ _ _ _ hp

theorem initState_vis_only (g : Grid) (source target : Point) (t0 : Tile)
    (hs : g.get source = some t0) (hfresh : g.fresh) :
    ∀ p, visitedP (initState g source target).grid (g.episode + 1) p → p = source := by
  intro p hvis
  obtain ⟨t, ht, htv⟩ := hvis
  by_cases hp : p = source
  · exact hp
  · rw [initState_grid_get g source target t0 hs p, if_neg hp] at ht
    have := hfresh p t ht
    omega

theorem initState_heap (g : Grid) (source target : Point) :
    (initState g source target).openHeap =
      [⟨source, ((initState g source target).grid.getTile source).f,
        ((initState g source target).grid.getTile source).g⟩] := rfl

theorem inv_init (g : Grid) (P : Tile → Bool) (source target : Point) (t0 : Tile)
    (hs : g.get source = some t0) (hfresh : g.fresh) :
    Inv g P source target (g.episode + 1) (initState g source target) := by
  have hget := initState_grid_get g source target t0 hs
  have hvisonly := initState_vis_only g source target t0 hs hfresh
  have hsrcget : (initState g source target).grid.get source =
      some (t0.visit_initial (octile_heuristic source target) (g.episode + 1)) := by
    rw [hget source, if_pos rfl]
  have hsrcvis : visitedP (initState g source target).grid (g.episode + 1) source :=
    ⟨_, hsrcget, rfl⟩
  have hsrcpar : ((initState g source target).grid.getTile source).parent = none := by
    rw [getTile_eq _ _ _ hsrcget]
    rfl
  refine ⟨?_, hsrcvis, ?_, ?_, ?_, ?_, ?_, ?_, hsrcpar⟩
  · intro p
    rw [hget p]
    by_cases hp : p = source
    · subst hp
      rw [if_pos rfl, hs]
      rfl
    · rw [if_neg hp]
  · intro n hn
    rw [initState_heap] at hn
    rcases List.mem_cons.mp hn with rfl | hcon
    · exact hsrcvis
    · simp at hcon
  · intro p hvis
    rw [hvisonly p hvis]
    exact Reach.refl
  · intro p hvis hnotin q hq
    exfalso
    refine hnotin ⟨source, ((initState g source target).grid.getTile source).f,
      ((initState g source target).grid.getTile source).g⟩ ?_ ?_
    · rw [initState_heap]
      exact List.mem_cons_self _ _
    · exact (hvisonly p hvis).symm
  · intro hvis
    refine ⟨⟨source, ((initState g source target).grid.getTile source).f,
      ((initState g source target).grid.getTile source).g⟩, ?_, ?_⟩
    · rw [initState_heap]
      exact List.mem_cons_self _ _
    · exact (hvisonly target hvis).symm
  · intro p hvis _
    exact hvisonly p hvis
  · intro p q hvis hpar
    rw [hvisonly p hvis] at hpar
    rw [hsrcpar] at hpar
    exact Option.noConfusion hpar


theorem inv_step (g0 : Grid) (H : Point → Point → Dist) (P : Tile → Bool)
    (source target : Point) (ep : ℕ) (st st2 : SearchState)
    (hP : persStable P)
    (hinv : Inv g0 P source target ep st)
    (hstep : astarStep H P target ep st = Sum.inr st2) :
    Inv g0 P source target ep st2 := by
  unfold astarStep at hstep
  cases hpop : Heap.pop st.openHeap with
  | none =>
    rw [hpop] at hstep
    simp only [] at hstep
    exact Sum.noConfusion hstep
  | some pr =>
    obtain ⟨expand, rest⟩ := pr
    rw [hpop] at hstep
    simp only [] at hstep
    by_cases htgt : expand.point = target
    · rw [if_pos htgt] at hstep
      exact Sum.noConfusion hstep
    · rw [if_neg htgt] at hstep
      obtain rfl := Sum.inr.inj hstep
      have hpp := Heap.pop_perm st.openHeap expand rest hpop
      have hexp : expand ∈ st.openHeap := hpp.mem_iff.mpr (List.mem_cons_self expand rest)
      have hrest : ∀ n ∈ rest, n ∈ st.openHeap := fun n hn =>
        hpp.mem_iff.mpr (List.mem_cons_of_mem _ hn)
      have hExpVis := hinv.heapVis expand hexp
      have hExpReach := hinv.visReach _ hExpVis
      have hlen : (expand.point.neighborsSlots).length ≤ COST.length := by
        simp [Point.neighborsSlots, COST]
      have hstepOK_conv : ∀ q, stepOK g0 P expand.point q →
          (∃ c, (some q, c) ∈ expand.point.neighborsSlots.zip COST) ∧
          (∃ t, st.grid.get q = some t ∧ P t = true) := by
        rintro q ⟨hmem, t0, hg0, hPt0⟩
        refine ⟨exists_zip_right _ COST _ hmem hlen, ?_⟩
        obtain ⟨t, ht, hterr, hbel⟩ := pers_transfer (hinv.pers q).symm hg0
        exact ⟨t, ht, (hP t t0 hterr hbel).trans hPt0⟩
      have hmid_conv : ∀ q c, (some q, c) ∈ expand.point.neighborsSlots.zip COST →
          (∃ t, st.grid.get q = some t ∧ P t = true) → stepOK g0 P expand.point q := by
        rintro q c hzip ⟨t, ht, hPt⟩
        refine ⟨(List.of_mem_zip hzip).1, ?_⟩
        obtain ⟨t0, ht0, hterr, hbel⟩ := pers_transfer (hinv.pers q) ht
        exact ⟨t0, ht0, (hP t0 t hterr hbel).trans hPt⟩
      have hmono := vn_visited_mono P H ep target expand.point
        ((st.grid.getTile expand.point).g) (expand.point.neighborsSlots.zip COST) st.grid rest
      have hstable := vn_visited_stable P H ep target expand.point
        ((st.grid.getTile expand.point).g) (expand.point.neighborsSlots.zip COST) st.grid rest
      have hnew := vn_new_visited P H ep target expand.point
        ((st.grid.getTile expand.point).g) (expand.point.neighborsSlots.zip COST) st.grid rest
      have hheapnew := vn_heap_new P H ep target expand.point
        ((st.grid.getTile expand.point).g) (expand.point.neighborsSlots.zip COST) st.grid rest
      have hheapmono := vn_heap_mono P H ep target expand.point
        ((st.grid.getTile expand.point).g) (expand.point.neighborsSlots.zip COST) st.grid rest
      have hpers := vn_pers P H ep target expand.point
        ((st.grid.getTile expand.point).g) (expand.point.neighborsSlots.zip COST) st.grid rest
      have hclosureQ := vn_closure P H ep target expand.point
        ((st.grid.getTile expand.point).g) (expand.point.neighborsSlots.zip COST) st.grid rest
      refine ⟨?_, ?_, ?_, ?_, ?_, ?_, ?_, ?_, ?_⟩
      · exact fun p => (hpers p).trans (hinv.pers p)
      · exact hmono _ hinv.srcVis
      · intro n hn
        rcases hheapnew n hn with hl | hr
        · exact hmono _ (hinv.heapVis n (hrest n hl))
        · exact hr
      · intro p hvis
        rcases hnew p hvis with hl | ⟨⟨c, hc⟩, hmid, -, -⟩
        · exact hinv.visReach p hl
        · exact Reach.step hExpReach (hmid_conv p c hc hmid)
      · intro p hvis hnot q hq
        rcases hnew p hvis with hl | ⟨-, -, -, ⟨n, hnH2, hnp⟩⟩
        · by_cases hpe : p = expand.point
          · subst hpe
            obtain ⟨⟨c, hc⟩, hmidq⟩ := hstepOK_conv q hq
            exact hclosureQ q c hc hmidq
          · have hnotold : ∀ n ∈ st.openHeap, n.point ≠ p := by
              intro n hn hnp
              rcases List.mem_cons.mp (hpp.mem_iff.mp hn) with rfl | hr2
              · exact hpe hnp.symm
              · exact hnot n (hheapmono n hr2) hnp
            exact hmono q (hinv.closed p hl hnotold q hq)
        · exact absurd hnp (hnot n hnH2)
      · intro hvist
        rcases hnew target hvist with hl | ⟨-, -, -, hn⟩
        · obtain ⟨n, hnmem, hnp⟩ := hinv.tgtHeap hl
          rcases List.mem_cons.mp (hpp.mem_iff.mp hnmem) with rfl | hr2
          · exact absurd hnp htgt
          · exact ⟨n, hheapmono n hr2, hnp⟩
        · exact hn
      · intro p hvis hpar
        rcases hnew p hvis with hl | ⟨-, -, ⟨t2, ht2, ht2p, -⟩, -⟩
        · obtain ⟨t, ht, htv⟩ := hl
          have hG2 : (visitNeighbors P H ep target expand.point
              ((st.grid.getTile expand.point).g) (expand.point.neighborsSlots.zip COST)
              st.grid rest).1.get p = some t :=
            (hstable p ⟨t, ht, htv⟩).trans ht
          rw [getTile_eq _ _ _ hG2] at hpar
          apply hinv.parNone p ⟨t, ht, htv⟩
          rw [getTile_eq _ _ _ ht]
          exact hpar
        · rw [getTile_eq _ _ _ ht2, ht2p] at hpar
          exact Option.noConfusion hpar
      · intro p q hvis hpar
        rcases hnew p hvis with hl | ⟨-, -, ⟨t2, ht2, ht2p, -⟩, -⟩
        · obtain ⟨t, ht, htv⟩ := hl
          have hG2 : (visitNeighbors P H ep target expand.point
              ((st.grid.getTile expand.point).g) (expand.point.neighborsSlots.zip COST)
              st.grid rest).1.get p = some t :=
            (hstable p ⟨t, ht, htv⟩).trans ht
          rw [getTile_eq _ _ _ hG2] at hpar
          refine hmono q (hinv.parVis p q ⟨t, ht, htv⟩ ?_)
          rw [getTile_eq _ _ _ ht]
          exact hpar
        · rw [getTile_eq _ _ _ ht2, ht2p] at hpar
          obtain rfl := Option.some_inj.mp hpar
          exact hmono _ hExpVis
      · obtain ⟨t, ht, htv⟩ := hinv.srcVis
        have hG2 : (visitNeighbors P H ep target expand.point
            ((st.grid.getTile expand.point).g) (expand.point.neighborsSlots.zip COST)
            st.grid rest).1.get source = some t :=
          (hstable source ⟨t, ht, htv⟩).trans ht
        rw [getTile_eq _ _ _ hG2]
        have hsp := hinv.srcPar
        rw [getTile_eq _ _ _ ht] at hsp
        exact hsp


theorem astarLoop_some_reach (g0 : Grid) (H : Point → Point → Dist) (P : Tile → Bool)
    (source target : Point) (ep : ℕ) (hP : persStable P) :
    ∀ (fuel : ℕ) (st : SearchState) (d : SearchData) (gout : Grid),
      Inv g0 P source target ep st →
      astarLoop H P target ep fuel st = some (some d, gout) →
      Reach g0 P source target := by
  intro fuel
  induction fuel with
  | zero => intro st d gout _ hrun; exact Option.noConfusion hrun
  | succ fuel ih =>
    intro st d gout hinv hrun
    rw [astarLoop] at hrun
    cases hs : astarStep H P target ep st with
    | inl r =>
      rw [hs] at hrun
      simp only [Option.some_inj] at hrun
      subst hrun
      unfold astarStep at hs
      cases hpop : Heap.pop st.openHeap with
      | none =>
        rw [hpop] at hs
        simp only [] at hs
        obtain ⟨h1, -⟩ := Prod.mk.injEq .. ▸ Sum.inl.inj hs
        exact Option.noConfusion h1
      | some pr =>
        obtain ⟨expand, rest⟩ := pr
        rw [hpop] at hs
        simp only [] at hs
        by_cases htgt : expand.point = target
        · have hexp : expand ∈ st.openHeap :=
            (Heap.pop_perm st.openHeap expand rest hpop).mem_iff.mpr
              (List.mem_cons_self expand rest)
          have := hinv.heapVis expand hexp
          rw [htgt] at this
          exact hinv.visReach target this
        · rw [if_neg htgt] at hs
          exact Sum.noConfusion hs
    | inr st2 =>
      rw [hs] at hrun
      exact ih st2 d gout (inv_step g0 H P source target ep st st2 hP hinv hs) hrun

theorem astarLoop_none_notreach (g0 : Grid) (H : Point → Point → Dist) (P : Tile → Bool)
    (source target : Point) (ep : ℕ) (hP : persStable P) :
    ∀ (fuel : ℕ) (st : SearchState) (gout : Grid),
      Inv g0 P source target ep st →
      astarLoop H P target ep fuel st = some (none, gout) →
      ¬ Reach g0 P source target := by
  intro fuel
  induction fuel with
  | zero => intro st gout _ hrun; exact Option.noConfusion hrun
  | succ fuel ih =>
    intro st gout hinv hrun
    rw [astarLoop] at hrun
    cases hs : astarStep H P target ep st with
    | inl r =>
      rw [hs] at hrun
      simp only [Option.some_inj] at hrun
      subst hrun
      unfold astarStep at hs
      cases hpop : Heap.pop st.openHeap with
      | none =>
        have hempty : st.openHeap = [] := (Heap.pop_none _).mp hpop
        have hvisall : ∀ p, Reach g0 P source p → visitedP st.grid ep p := by
          intro p hr
          induction hr with
          | refl => exact hinv.srcVis
          | step hr1 hok ih2 =>
            refine hinv.closed _ ih2 ?_ _ hok
            intro n hn
            rw [hempty] at hn
            exact absurd hn (List.not_mem_nil n)
        intro hr
        obtain ⟨n, hn, -⟩ := hinv.tgtHeap (hvisall target hr)
        rw [hempty] at hn
        exact absurd hn (List.not_mem_nil n)
      | some pr =>
        obtain ⟨expand, rest⟩ := pr
        rw [hpop] at hs
        simp only [] at hs
        by_cases htgt : expand.point = target
        · rw [if_pos htgt] at hs
          obtain ⟨h1, -⟩ := Prod.mk.injEq .. ▸ Sum.inl.inj hs
          exact Option.noConfusion h1
        · rw [if_neg htgt] at hs
          exact Sum.noConfusion hs
    | inr st2 =>
      rw [hs] at hrun
      exact ih st2 gout (inv_step g0 H P source target ep st st2 hP hinv hs) hrun

/-- The loop measure: open set size plus unvisited tiles. -/
def loopMeasure (ep : ℕ) (st : SearchState) : ℕ :=
  st.openHeap.length + (st.grid.tileCount - countVisited st.grid ep)

theorem step_decreases (H : Point → Point → Dist) (P : Tile → Bool)
    (target : Point) (ep : ℕ) (st st2 : SearchState)
    (hstep : astarStep H P target ep st = Sum.inr st2) :
    loopMeasure ep st2 < loopMeasure ep st := by
  unfold astarStep at hstep
  cases hpop : Heap.pop st.openHeap with
  | none =>
    rw [hpop] at hstep
    simp only [] at hstep
    exact Sum.noConfusion hstep
  | some pr =>
    obtain ⟨expand, rest⟩ := pr
    rw [hpop] at hstep
    simp only [] at hstep
    by_cases htgt : expand.point = target
    · rw [if_pos htgt] at hstep
      exact Sum.noConfusion hstep
    · rw [if_neg htgt] at hstep
      obtain rfl := Sum.inr.inj hstep
      have hcount := vn_count P H ep target expand.point
        ((st.grid.getTile expand.point).g) (expand.point.neighborsSlots.zip COST)
        st.grid rest
      have htc := vn_tileCount P H ep target expand.point
        ((st.grid.getTile expand.point).g) (expand.point.neighborsSlots.zip COST)
        st.grid rest
      have hlen : st.openHeap.length = rest.length + 1 := by
        have := (Heap.pop_perm st.openHeap expand rest hpop).length_eq
        simpa using this
      have hb1 := countVisited_le_tileCount st.grid ep
      have hb2 := countVisited_le_tileCount
        (visitNeighbors P H ep target expand.point
          ((st.grid.getTile expand.point).g) (expand.point.neighborsSlots.zip COST)
          st.grid rest).1 ep
      unfold loopMeasure
      simp only []
      omega

theorem astarLoop_isSome (H : Point → Point → Dist) (P : Tile → Bool)
    (target : Point) (ep : ℕ) :
    ∀ (fuel : ℕ) (st : SearchState), loopMeasure ep st < fuel →
      (astarLoop H P target ep fuel st).isSome := by
  intro fuel
  induction fuel with
  | zero => intro st h; omega
  | succ fuel ih =>
    intro st h
    rw [astarLoop]
    cases hs : astarStep H P target ep st with
    | inl r => rfl
    | inr st2 =>
      refine ih st2 ?_
      have := step_decreases H P target ep st st2 hs
      omega

theorem tileCount_modifyTile (g : Grid) (p : Point) (f : Tile → Tile) :
    (g.modifyTile p f).tileCount = g.tileCount := by
  unfold Grid.modifyTile
  cases hp : g.get p with
  | none => rfl
  | some t => exact tileCount_setTile g p t (f t) hp

theorem initState_measure (g : Grid) (source target : Point) :
    loopMeasure (g.episode + 1) (initState g source target) < g.tileCount + 2 := by
  unfold loopMeasure
  rw [initState_heap]
  have htc : (initState g source target).grid.tileCount = g.tileCount :=
    tileCount_modifyTile _ _ _
  rw [htc]
  simp only [List.length_cons, List.length_nil]
  omega

/-- C1: astar returns None exactly when no sequence of in-bounds
8-connected steps through tiles satisfying the supplied predicate
connects the source to the target (the open set is exhausted without
popping the target); otherwise it returns Some data.  Hypotheses: the
source is in bounds (Rust would panic otherwise), the grid's episode tags
are fresh, and the predicate reads only terrain and belief. -/
theorem c1_astar_none_iff_unreachable (g : Grid) (source target : Point)
    (heuristic : Point → Point → Dist) (P : Tile → Bool)
    (hs : (g.get source).isSome) (hfresh : g.fresh) (hP : persStable P) :
    (astar g source target heuristic P).1 = none ↔
      ¬ Reach g P source target := by
  obtain ⟨t0, ht0⟩ := Option.isSome_iff_exists.mp hs
  have hinv0 := inv_init g P source target t0 ht0 hfresh
  have hsome := astarLoop_isSome heuristic P target (g.episode + 1)
    (g.tileCount + 2) (initState g source target) (initState_measure g source target)
  obtain ⟨r, hr⟩ := Option.isSome_iff_exists.mp hsome
  have hval : astar g source target heuristic P =
      Option.getD (astarLoop heuristic P target (g.episode + 1) (g.tileCount + 2)
        (initState g source target)) (none, (initState g source target).grid) := rfl
  obtain ⟨res, gout⟩ := r
  cases res with
  | none =>
    constructor
    · intro _
      exact astarLoop_none_notreach g heuristic P source target (g.episode + 1) hP
        (g.tileCount + 2) (initState g source target) gout hinv0 hr
    · intro _
      rw [hval, hr]
      rfl
  | some d =>
    constructor
    · intro hcon
      rw [hval, hr] at hcon
      exact absurd hcon (by simp)
    · intro hnr
      exact absurd (astarLoop_some_reach g heuristic P source target (g.episode + 1) hP
        (g.tileCount + 2) (initState g source target) d gout hinv0 hr) hnr

/-- Freshness follows from a bound on every stored tile tag. -/
theorem fresh_of_tiles (g : Grid)
    (h : ∀ row ∈ g.tiles, ∀ t ∈ row, t.visited ≤ g.episode) : g.fresh := by
  intro p t hget
  obtain ⟨row, hy, hx⟩ := g.get_some p t hget
  exact h row (List.get?_mem hy) t (List.get?_mem hx)

/-- C1 witness at a concrete instance: the 2 by 2 grid of the parser test
(Trees on the diagonal, Ground off it); (1,0) is connected to (0,1) under
the terrain predicate only through diagonal slots, which exist, so this
grid has a path; the theorem is applied there. -/
theorem c1_witness :
    ((Grid.new [[Tile.new Terrain.Trees, Tile.new Terrain.Ground],
       [Tile.new Terrain.Ground, Tile.new Terrain.Trees]]).get ⟨0, 1⟩).isSome ∧
    (∀ row ∈ (Grid.new [[Tile.new Terrain.Trees, Tile.new Terrain.Ground],
       [Tile.new Terrain.Ground, Tile.new Terrain.Trees]]).tiles, ∀ t ∈ row,
       t.visited ≤ (Grid.new [[Tile.new Terrain.Trees, Tile.new Terrain.Ground],
         [Tile.new Terrain.Ground, Tile.new Terrain.Trees]]).episode) ∧
    ((astar (Grid.new [[Tile.new Terrain.Trees, Tile.new Terrain.Ground],
       [Tile.new Terrain.Ground, Tile.new Terrain.Trees]]) ⟨0, 1⟩ ⟨1, 0⟩
       octile_heuristic Tile.passable).1 = none ↔
      ¬ Reach (Grid.new [[Tile.new Terrain.Trees, Tile.new Terrain.Ground],
       [Tile.new Terrain.Ground, Tile.new Terrain.Trees]]) Tile.passable ⟨0, 1⟩ ⟨1, 0⟩) :=
  ⟨by decide, by decide,
   c1_astar_none_iff_unreachable _ _ _ _ _ (by decide)
     (fresh_of_tiles _ (by decide)) persStable_passable⟩

/-- Iterating the expansion loop step; a finished search stays put. -/
def astarIter (H : Point → Point → Dist) (P : Tile → Bool) (target : Point)
    (ep : ℕ) : ℕ → SearchState → SearchState
  | 0, st => st
  | n + 1, st =>
    match astarStep H P target ep st with
    | Sum.inl _ => st
    | Sum.inr st2 => astarIter H P target ep n st2

theorem inv_iter (g0 : Grid) (H : Point → Point → Dist) (P : Tile → Bool)
    (source target : Point) (ep : ℕ) (hP : persStable P) :
    ∀ (n : ℕ) (st : SearchState), Inv g0 P source target ep st →
      Inv g0 P source target ep (astarIter H P target ep n st) := by
  intro n
  induction n with
  | zero => intro st h; exact h
  | succ n ih =>
    intro st h
    rw [astarIter]
    cases hs : astarStep H P target ep st with
    | inl r => exact h
    | inr st2 => exact ih st2 (inv_step g0 H P source target ep st st2 hP h hs)

/-- C8: after any number of expansion steps of an episode, every tile
marked visited for that episode has a parent that is absent exactly when
the tile is the source, and otherwise points to a tile visited in the
same episode; the invariant holds at every step of the loop. -/
theorem c8_visited_parent_invariant (g : Grid) (source target : Point)
    (heuristic : Point → Point → Dist) (P : Tile → Bool)
    (hs : (g.get source).isSome) (hfresh : g.fresh) (hP : persStable P) :
    ∀ (n : ℕ) (p : Point),
      visitedP (astarIter heuristic P target (g.episode + 1) n
        (initState g source target)).grid (g.episode + 1) p →
      (((astarIter heuristic P target (g.episode + 1) n
          (initState g source target)).grid.getTile p).parent = none ↔ p = source) ∧
      (∀ q, ((astarIter heuristic P target (g.episode + 1) n
          (initState g source target)).grid.getTile p).parent = some q →
        visitedP (astarIter heuristic P target (g.episode + 1) n
          (initState g source target)).grid (g.episode + 1) q) := by
  intro n p hvis
  obtain ⟨t0, ht0⟩ := Option.isSome_iff_exists.mp hs
  have hinv := inv_iter g heuristic P source target (g.episode + 1) hP n
    (initState g source target) (inv_init g P source target t0 ht0 hfresh)
  refine ⟨⟨hinv.parNone p hvis, ?_⟩, fun q hq => hinv.parVis p q hvis hq⟩
  intro hp
  subst hp
  exact hinv.srcPar

/-- C8 witness: one step into the search on the 2 by 2 parser-test grid,
the source tile is visited and the theorem applies to it. -/
theorem c8_witness :
    ((Grid.new [[Tile.new Terrain.Trees, Tile.new Terrain.Ground],
       [Tile.new Terrain.Ground, Tile.new Terrain.Trees]]).get ⟨0, 1⟩).isSome ∧
    (((astarIter octile_heuristic Tile.passable ⟨1, 0⟩
        ((Grid.new [[Tile.new Terrain.Trees, Tile.new Terrain.Ground],
          [Tile.new Terrain.Ground, Tile.new Terrain.Trees]]).episode + 1) 1
        (initState (Grid.new [[Tile.new Terrain.Trees, Tile.new Terrain.Ground],
          [Tile.new Terrain.Ground, Tile.new Terrain.Trees]]) ⟨0, 1⟩ ⟨1, 0⟩)).grid.getTile
        ⟨0, 1⟩).parent = none ↔ (⟨0, 1⟩ : Point) = ⟨0, 1⟩) := by
  refine ⟨by decide, ?_⟩
  refine (c8_visited_parent_invariant
    (Grid.new [[Tile.new Terrain.Trees, Tile.new Terrain.Ground],
      [Tile.new Terrain.Ground, Tile.new Terrain.Trees]]) ⟨0, 1⟩ ⟨1, 0⟩
    octile_heuristic Tile.passable (by decide)
    (fresh_of_tiles _ (by decide)) persStable_passable 1 ⟨0, 1⟩ ?_).1
  exact ⟨(astarIter octile_heuristic Tile.passable ⟨1, 0⟩
      ((Grid.new [[Tile.new Terrain.Trees, Tile.new Terrain.Ground],
        [Tile.new Terrain.Ground, Tile.new Terrain.Trees]]).episode + 1) 1
      (initState (Grid.new [[Tile.new Terrain.Trees, Tile.new Terrain.Ground],
        [Tile.new Terrain.Ground, Tile.new Terrain.Trees]]) ⟨0, 1⟩ ⟨1, 0⟩)).grid.getTile
      ⟨0, 1⟩, by decide, by decide⟩


/-- C10 witness on the 1 by 1 Ground grid. -/
theorem c10_witness :
    ((Grid.new [[Tile.new Terrain.Ground]]).get ⟨0, 0⟩).isSome ∧
    (astar (Grid.new [[Tile.new Terrain.Ground]]) ⟨0, 0⟩ ⟨0, 0⟩
      octile_heuristic Tile.freespace).1 = some ⟨[], 1⟩ :=
  ⟨by decide,
   c10_source_equals_target (Grid.new [[Tile.new Terrain.Ground]]) ⟨0, 0⟩
     octile_heuristic Tile.freespace (by decide)⟩

/-!  The 4 by 4 fixture of the src tests: a 2 by 2 block of Trees at rows
1-2, columns 1-2.  -/

def fixtureGrid : Grid := Grid.new
  [[Tile.new Terrain.Ground, Tile.new Terrain.Ground,
    Tile.new Terrain.Ground, Tile.new Terrain.Ground],
   [Tile.new Terrain.Ground, Tile.new Terrain.Trees,
    Tile.new Terrain.Trees, Tile.new Terrain.Ground],
   [Tile.new Terrain.Ground, Tile.new Terrain.Trees,
    Tile.new Terrain.Trees, Tile.new Terrain.Ground],
   [Tile.new Terrain.Ground, Tile.new Terrain.Ground,
    Tile.new Terrain.Ground, Tile.new Terrain.Ground]]

/-- C6: on the fixture, the run from (0,0) to (3,3) takes exactly 5
steps; the always-replan agent performs exactly 5 episodes and its
accumulated Euclidean cost is exactly 4 + sqrt 2; the repeated-path agent
performs exactly 2 episodes (and the same 5 steps). -/
theorem c6_fixture_runs :
    (run_once AgentKind.always octile 100 fixtureGrid ⟨0, 0⟩ ⟨3, 3⟩).1.map
        (fun d => (d.steps, d.episodes)) = some (5, 5) ∧
    (run_once AgentKind.always octile 100 fixtureGrid ⟨0, 0⟩ ⟨3, 3⟩).1.map
        (Datum.cost euclidean) = some (4 + Real.sqrt 2) ∧
    (run_once AgentKind.rastar octile 100 fixtureGrid ⟨0, 0⟩ ⟨3, 3⟩).1.map
        (fun d => (d.steps, d.episodes)) = some (5, 2) := by
  have hA : (run_once AgentKind.always octile 100 fixtureGrid ⟨0, 0⟩ ⟨3, 3⟩).1 =
      some ⟨[(⟨0, 0⟩, ⟨0, 1⟩), (⟨0, 1⟩, ⟨0, 2⟩), (⟨0, 2⟩, ⟨1, 3⟩),
        (⟨1, 3⟩, ⟨2, 3⟩), (⟨2, 3⟩, ⟨3, 3⟩)], 5, 5, 19⟩ := by decide
  have hR : (run_once AgentKind.rastar octile 100 fixtureGrid ⟨0, 0⟩ ⟨3, 3⟩).1 =
      some ⟨[(⟨0, 0⟩, ⟨0, 1⟩), (⟨0, 1⟩, ⟨0, 2⟩), (⟨0, 2⟩, ⟨1, 3⟩),
        (⟨1, 3⟩, ⟨2, 3⟩), (⟨2, 3⟩, ⟨3, 3⟩)], 5, 2, 10⟩ := by decide
  refine ⟨by rw [hA]; rfl, ?_, by rw [hR]; rfl⟩
  rw [hA]
  refine congrArg some ?_
  unfold Datum.cost euclidean
  simp only [List.map_cons, List.map_nil, List.sum_cons, List.sum_nil]
  norm_num
  ring


/-!  C5: the RepeatedAstar policy.  -/

/-- C5: on act, a cached next step whose tile is still believed passable
is consumed and returned with 0 expansions and an untouched grid (no
episode runs); otherwise (no cached step, or the cached step is now
believed impassable) one full astar episode under the belief predicate
refreshes the cached path, whose first step is returned with the true
expansion count, or no step when the refresh found no path; reset clears
the cached path. -/
theorem c5_rastar_act (heuristic : Point → Point → Dist) (st : Option Path)
    (grid : Grid) (location target : Point) :
    (∀ next st2, followPath st = (some next, st2) →
      (grid.getTile next).freespace = true →
      rastarAct heuristic st grid location target = (some ⟨next, 0⟩, st2, grid)) ∧
    (∀ st2, followPath st = (none, st2) →
      rastarAct heuristic st grid location target =
        ((astar grid location target heuristic Tile.freespace).1.bind
           (fun d => d.path.getLast?.map (fun a => (⟨a, d.expansions⟩ : AgentData))),
         (astar grid location target heuristic Tile.freespace).1.map
           (fun d => d.path.dropLast),
         (astar grid location target heuristic Tile.freespace).2)) ∧
    (∀ next st2, followPath st = (some next, st2) →
      (grid.getTile next).freespace = false →
      rastarAct heuristic st grid location target =
        ((astar grid location target heuristic Tile.freespace).1.bind
           (fun d => d.path.getLast?.map (fun a => (⟨a, d.expansions⟩ : AgentData))),
         (astar grid location target heuristic Tile.freespace).1.map
           (fun d => d.path.dropLast),
         (astar grid location target heuristic Tile.freespace).2)) ∧
    Agent.reset AgentKind.rastar st = none := by
  have hreplan : (match updatePath heuristic grid location target with
      | (p3, exp, g2) =>
        match followPath p3 with
        | (stp, p4) => (stp.map fun a => (⟨a, exp⟩ : AgentData), p4, g2)) =
      ((astar grid location target heuristic Tile.freespace).1.bind
         (fun d => d.path.getLast?.map (fun a => (⟨a, d.expansions⟩ : AgentData))),
       (astar grid location target heuristic Tile.freespace).1.map
         (fun d => d.path.dropLast),
       (astar grid location target heuristic Tile.freespace).2) := by
    unfold updatePath
    rcases hast : astar grid location target heuristic Tile.freespace with ⟨res, g2⟩
    cases res with
    | none => rfl
    | some d =>
      simp only [followPath]
      cases hl : d.path.getLast? with
      | none =>
        have hnil : d.path = [] := List.getLast?_eq_none_iff.mp hl
        simp [hnil]
      | some a =>
        simp only [Option.some_bind, hl, Option.map_some']
  refine ⟨?_, ?_, ?_, rfl⟩
  · intro next st2 hfp hfree
    unfold rastarAct
    rw [hfp]
    simp only []
    rw [if_pos hfree]
  · intro st2 hfp
    unfold rastarAct
    rw [hfp]
    simp only []
    exact hreplan
  · intro next st2 hfp hfree
    unfold rastarAct
    rw [hfp]
    simp only []
    rw [if_neg (by rw [hfree]; exact Bool.false_ne_true)]
    exact hreplan

/-- C5 witness: a cached step on a believed-free tile is consumed with 0
expansions, and reset clears the cache. -/
theorem c5_witness :
    followPath (some [⟨0, 0⟩]) = (some ⟨0, 0⟩, some []) ∧
    ((Grid.new [[Tile.new Terrain.Ground]]).getTile ⟨0, 0⟩).freespace = true ∧
    rastarAct octile (some [⟨0, 0⟩]) (Grid.new [[Tile.new Terrain.Ground]]) ⟨0, 0⟩ ⟨0, 0⟩ =
      (some ⟨⟨0, 0⟩, 0⟩, some [], Grid.new [[Tile.new Terrain.Ground]]) ∧
    Agent.reset AgentKind.rastar (some [⟨0, 0⟩]) = none := by
  refine ⟨by decide, by decide, ?_, ?_⟩
  · exact (c5_rastar_act octile (some [⟨0, 0⟩]) (Grid.new [[Tile.new Terrain.Ground]])
      ⟨0, 0⟩ ⟨0, 0⟩).1 ⟨0, 0⟩ (some []) (by decide) (by decide)
  · exact (c5_rastar_act octile (some [⟨0, 0⟩]) (Grid.new [[Tile.new Terrain.Ground]])
      ⟨0, 0⟩ ⟨0, 0⟩).2.2.2


/-!  Shape and terrain preservation.  -/

/-- Two grids with the same dimensions and row lengths. -/
def sameShape (g1 g2 : Grid) : Prop :=
  g1.height = g2.height ∧ g1.width = g2.width ∧
    g1.tiles.map List.length = g2.tiles.map List.length

theorem sameShape_refl (g : Grid) : sameShape g g := ⟨rfl, rfl, rfl⟩

theorem sameShape_trans {g1 g2 g3 : Grid} (h1 : sameShape g1 g2)
    (h2 : sameShape g2 g3) : sameShape g1 g3 :=
  ⟨h1.1.trans h2.1, h1.2.1.trans h2.2.1, h1.2.2.trans h2.2.2⟩

theorem wf_iff_lens (g : Grid) :
    g.wf ↔ (g.tiles.length = g.height ∧
      g.tiles.map List.length = List.replicate g.tiles.length g.width) := by
  unfold Grid.wf
  constructor
  · rintro ⟨h1, h2⟩
    refine ⟨h1, List.eq_replicate_iff.mpr ⟨by simp, ?_⟩⟩
    intro b hb
    obtain ⟨row, hrow, rfl⟩ := List.mem_map.mp hb
    exact h2 row hrow
  · rintro ⟨h1, h2⟩
    refine ⟨h1, ?_⟩
    intro row hrow
    have := (List.eq_replicate_iff.mp h2).2 row.length (List.mem_map_of_mem _ hrow)
    exact this

theorem sameShape_wf {g1 g2 : Grid} (h : sameShape g1 g2) (hwf : g2.wf) : g1.wf := by
  rw [wf_iff_lens] at hwf ⊢
  obtain ⟨hh, hw, hl⟩ := h
  have hlen : g1.tiles.length = g2.tiles.length := by
    have h2 := congrArg List.length hl
    simpa using h2
  constructor
  · rw [hlen, hwf.1, hh]
  · rw [hl, hlen, hw]
    exact hwf.2

theorem setTile_sameShape (g : Grid) (p : Point) (t : Tile) :
    sameShape (g.setTile p t) g := by
  refine ⟨rfl, rfl, ?_⟩
  unfold Grid.setTile
  cases hy : g.tiles.get? p.y with
  | none => rfl
  | some row =>
    simp only []
    rw [List.map_set]
    have hl : (row.set p.x t).length = row.length := by simp
    rw [hl]
    have hg : (g.tiles.map List.length).get? p.y = some row.length := by
      rw [List.get?_map, hy]
      rfl
    have hlt : p.y < (g.tiles.map List.length).length := get_isSome_lt hg
    have := set_get_self (g.tiles.map List.length) p.y hlt
    have hval : (g.tiles.map List.length).get ⟨p.y, hlt⟩ = row.length := by
      have h2 := List.get?_eq_get hlt
      rw [hg] at h2
      exact (Option.some_inj.mp h2).symm
    rw [← hval]
    exact this


theorem vn_shape (P : Tile → Bool) (H : Point → Point → Dist) (ep : ℕ)
    (target point : Point) (gval : Dist)
    (slots : List (Option Point × Dist)) (grid : Grid) (heap : List Node) :
    sameShape (visitNeighbors P H ep target point gval slots grid heap).1 grid := by
  induction slots generalizing grid heap with
  | nil => exact sameShape_refl grid
  | cons head rest ih =>
    obtain ⟨onbr, cost⟩ := head
    cases onbr with
    | none => exact ih grid heap
    | some nbr =>
      simp only [visitNeighbors]
      cases hget : grid.get nbr with
      | none => exact ih grid heap
      | some tile =>
        simp only []
        by_cases hcond : (!tile.visitedAt ep && P tile) = true
        · rw [if_pos hcond]
          exact sameShape_trans (ih _ _) (setTile_sameShape _ _ _)
        · rw [if_neg hcond]
          exact ih grid heap

theorem vn_tags (P : Tile → Bool) (H : Point → Point → Dist) (ep : ℕ)
    (target point : Point) (gval : Dist)
    (slots : List (Option Point × Dist)) (grid : Grid) (heap : List Node)
    (hb : ∀ p t, grid.get p = some t → t.visited ≤ ep) :
    ∀ p t, (visitNeighbors P H ep target point gval slots grid heap).1.get p = some t →
      t.visited ≤ ep := by
  induction slots generalizing grid heap with
  | nil => exact hb
  | cons head rest ih =>
    obtain ⟨onbr, cost⟩ := head
    cases onbr with
    | none => exact ih grid heap hb
    | some nbr =>
      simp only [visitNeighbors]
      cases hget : grid.get nbr with
      | none => exact ih grid heap hb
      | some tile =>
        simp only []
        by_cases hcond : (!tile.visitedAt ep && P tile) = true
        · rw [if_pos hcond]
          refine ih _ _ ?_
          intro p t hp
          by_cases hpn : p = nbr
          · subst hpn
            rw [Grid.get_setTile_self _ _ tile _ hget] at hp
            obtain rfl := Option.some_inj.mp hp.symm
            exact Nat.le_refl ep
          · rw [Grid.get_setTile_ne _ _ _ _ hpn] at hp
            exact hb p t hp
        · rw [if_neg hcond]
          exact ih grid heap hb

/-- Output-grid facts of the expansion loop: persistent data, shape and
episode are preserved, and tags stay bounded by the episode. -/
theorem astarLoop_out (H : Point → Point → Dist) (P : Tile → Bool)
    (target : Point) (ep : ℕ) :
    ∀ (fuel : ℕ) (st : SearchState) (r : Option SearchData) (gout : Grid),
      astarLoop H P target ep fuel st = some (r, gout) →
      persEq gout st.grid ∧ sameShape gout st.grid ∧
        gout.episode = st.grid.episode ∧
        ((∀ p t, st.grid.get p = some t → t.visited ≤ ep) →
          ∀ p t, gout.get p = some t → t.visited ≤ ep) := by
  intro fuel
  induction fuel with
  | zero => intro st r gout h; exact Option.noConfusion h
  | succ fuel ih =>
    intro st r gout h
    rw [astarLoop] at h
    cases hs : astarStep H P target ep st with
    | inl rr =>
      rw [hs] at h
      have hrg : rr = (r, gout) := Option.some_inj.mp h
      have hgr : rr.2 = st.grid := by
        unfold astarStep at hs
        cases hpop : Heap.pop st.openHeap with
        | none =>
          rw [hpop] at hs
          simp only [] at hs
          exact (congrArg Prod.snd (Sum.inl.inj hs)).symm
        | some pr =>
          obtain ⟨expand, rest⟩ := pr
          rw [hpop] at hs
          simp only [] at hs
          by_cases htgt : expand.point = target
          · rw [if_pos htgt] at hs
            exact (congrArg Prod.snd (Sum.inl.inj hs)).symm
          · rw [if_neg htgt] at hs
            exact Sum.noConfusion hs
      have hgout : gout = st.grid := by
        rw [← hgr, hrg]
      rw [hgout]
      exact ⟨fun p => rfl, sameShape_refl _, rfl, fun hb => hb⟩
    | inr st2 =>
      rw [hs] at h
      obtain ⟨hpe, hsh, hepi, htags⟩ := ih st2 r gout h
      unfold astarStep at hs
      cases hpop : Heap.pop st.openHeap with
      | none =>
        rw [hpop] at hs
        simp only [] at hs
        exact Sum.noConfusion hs
      | some pr =>
        obtain ⟨expand, rest⟩ := pr
        rw [hpop] at hs
        simp only [] at hs
        by_cases htgt : expand.point = target
        · rw [if_pos htgt] at hs
          exact Sum.noConfusion hs
        · rw [if_neg htgt] at hs
          obtain rfl := Sum.inr.inj hs.symm
          refine ⟨?_, ?_, ?_, ?_⟩
          · intro p
            exact (hpe p).trans (vn_pers P H ep target expand.point _ _ st.grid rest p)
          · exact sameShape_trans hsh (vn_shape P H ep target expand.point _ _ st.grid rest)
          · exact hepi.trans (vn_episode P H ep target expand.point _ _ st.grid rest)
          · intro hb
            exact htags (vn_tags P H ep target expand.point _ _ st.grid rest hb)

theorem initState_out (g : Grid) (source target : Point) :
    persEq (initState g source target).grid g ∧
    sameShape (initState g source target).grid g ∧
    (initState g source target).grid.episode = g.episode + 1 ∧
    (g.fresh → ∀ p t, (initState g source target).grid.get p = some t →
      t.visited ≤ g.episode + 1) := by
  have hmod : (initState g source target).grid =
      ({ g with episode := g.episode + 1 } : Grid).modifyTile source
        (fun t => t.visit_initial (octile_heuristic source target) (g.episode + 1)) := rfl
  cases hs : g.get source with
  | none =>
    have hid : (initState g source target).grid = { g with episode := g.episode + 1 } := by
      rw [hmod]
      unfold Grid.modifyTile
      rw [show ({ g with episode := g.episode + 1 } : Grid).get source = none from hs]
    rw [hid]
    refine ⟨fun p => rfl, sameShape_refl _, rfl, ?_⟩
    intro hfresh p t ht
    exact Nat.le_succ_of_le (hfresh p t ht)
  | some t0 =>
    have hget := initState_grid_get g source target t0 hs
    refine ⟨?_, ?_, ?_, ?_⟩
    · intro p
      rw [hget p]
      by_cases hp : p = source
      · subst hp
        rw [if_pos rfl, hs]
        rfl
      · rw [if_neg hp]
    · rw [hmod]
      unfold Grid.modifyTile
      cases hg2 : ({ g with episode := g.episode + 1 } : Grid).get source with
      | none => exact sameShape_refl _
      | some tt => exact setTile_sameShape _ _ _
    · rw [hmod]
      exact Grid.modifyTile_episode _ _ _
    · intro hfresh p t ht
      rw [hget p] at ht
      by_cases hp : p = source
      · rw [if_pos hp] at ht
        obtain rfl := Option.some_inj.mp ht.symm
        exact Nat.le_refl _
      · rw [if_neg hp] at ht
        exact Nat.le_succ_of_le (hfresh p t ht)

theorem astar_out (g : Grid) (source target : Point)
    (H : Point → Point → Dist) (P : Tile → Bool) :
    persEq (astar g source target H P).2 g ∧
    sameShape (astar g source target H P).2 g ∧
    (astar g source target H P).2.episode = g.episode + 1 ∧
    (g.fresh → (astar g source target H P).2.fresh) := by
  obtain ⟨hpe0, hsh0, hep0, htags0⟩ := initState_out g source target
  have hval : astar g source target H P =
      (astarLoop H P target (g.episode + 1) (g.tileCount + 2)
        (initState g source target)).getD (none, (initState g source target).grid) := rfl
  cases hloop : astarLoop H P target (g.episode + 1) (g.tileCount + 2)
      (initState g source target) with
  | none =>
    have h2 : (astar g source target H P).2 = (initState g source target).grid := by
      rw [hval, hloop]
      rfl
    rw [h2]
    refine ⟨hpe0, hsh0, hep0, ?_⟩
    intro hfresh p t ht
    rw [hep0]
    exact htags0 hfresh p t ht
  | some r =>
    obtain ⟨res, gout⟩ := r
    have h2 : (astar g source target H P).2 = gout := by
      rw [hval, hloop]
      rfl
    obtain ⟨hpe, hsh, hepi, htags⟩ :=
      astarLoop_out H P target (g.episode + 1) (g.tileCount + 2)
        (initState g source target) res gout hloop
    rw [h2]
    refine ⟨fun p => (hpe p).trans (hpe0 p), sameShape_trans hsh hsh0,
      hepi.trans hep0, ?_⟩
    intro hfresh p t ht
    rw [hepi.trans hep0]
    exact htags (htags0 hfresh) p t ht

theorem persEq_terrain {g1 g2 : Grid} (h : persEq g1 g2) (p : Point) (t : Tile)
    (ht : g1.get p = some t) :
    ∃ t0, g2.get p = some t0 ∧ t0.terrain = t.terrain ∧ t0.belief = t.belief :=
  pers_transfer (h p) ht

theorem reach_persEq {g1 g2 : Grid} {P : Tile → Bool} {s : Point}
    (hpe : persEq g1 g2) (hP : persStable P) :
    ∀ {t : Point}, Reach g1 P s t → Reach g2 P s t := by
  intro t hr
  induction hr with
  | refl => exact Reach.refl
  | step hr1 hok ih =>
    obtain ⟨hmem, tt, htt, hPt⟩ := hok
    obtain ⟨t0, ht0, hterr, hbel⟩ := pers_transfer (hpe _) htt
    exact Reach.step ih ⟨hmem, t0, ht0, (hP t0 tt hterr hbel).trans hPt⟩

theorem wf_get_some (g : Grid) (hwf : g.wf) (p : Point)
    (hy : p.y < g.height) (hx : p.x < g.width) : ∃ t, g.get p = some t := by
  obtain ⟨hlen, hrows⟩ := hwf
  have hy2 : p.y < g.tiles.length := by omega
  have hrow := List.get?_eq_get hy2
  set row := g.tiles.get ⟨p.y, hy2⟩ with hrowdef
  have hmem : row ∈ g.tiles := List.get_mem _ _ _
  have hx2 : p.x < row.length := by rw [hrows row hmem]; exact hx
  refine ⟨row.get ⟨p.x, hx2⟩, ?_⟩
  unfold Grid.get
  rw [hrow]
  simp only [Option.some_bind]
  exact List.get?_eq_get hx2


/-!  C3: validity of generated trials.  -/

/-- Grid states reachable from g0 during trial generation: persistent
data, shape and tag freshness are maintained. -/
def GoodFrom (g0 gi : Grid) : Prop := persEq gi g0 ∧ sameShape gi g0 ∧ gi.fresh

theorem goodFrom_refl (g0 : Grid) (hfresh : g0.fresh) : GoodFrom g0 g0 :=
  ⟨fun p => rfl, sameShape_refl g0, hfresh⟩

theorem goodFrom_has_path (g0 gi : Grid) (s t : Point) (hg : GoodFrom g0 gi) :
    GoodFrom g0 (gi.has_path s t).2 := by
  obtain ⟨hpe, hsh, hfr⟩ := hg
  obtain ⟨hpe2, hsh2, hep2, hfr2⟩ := astar_out gi s t octile_heuristic Tile.passable
  exact ⟨fun p => (hpe2 p).trans (hpe p), sameShape_trans hsh2 hsh, hfr2 hfr⟩

/-- The pair conditions claimed by C3, stated over the original grid. -/
def GoodPair (g0 : Grid) (pair : Point × Point) : Prop :=
  pair.1 ≠ pair.2 ∧
  (∃ t, g0.get pair.1 = some t ∧ Tile.passable t = true) ∧
  (∃ t, g0.get pair.2 = some t ∧ Tile.passable t = true) ∧
  Reach g0 Tile.passable pair.1 pair.2

theorem drawPair_spec (stream : ℕ → ℕ) (g0 : Grid) (hwf : g0.wf)
    (hh : 0 < g0.height) (hw : 0 < g0.width) :
    ∀ (fuel k : ℕ) (gi : Grid) (pair : Point × Point) (k2 : ℕ) (g2 : Grid),
      GoodFrom g0 gi → drawPair stream fuel k gi = some (pair, k2, g2) →
      GoodPair g0 pair ∧ GoodFrom g0 g2 := by
  intro fuel
  induction fuel with
  | zero => intro k gi pair k2 g2 _ h; exact Option.noConfusion h
  | succ fuel ih =>
    intro k gi pair k2 g2 hg h
    rw [drawPair] at h
    by_cases hcond : (⟨sampleRange stream k gi.height, sampleRange stream (k + 1) gi.width⟩ : Point) ≠
        (⟨sampleRange stream (k + 2) gi.height, sampleRange stream (k + 3) gi.width⟩ : Point) ∧
        (gi.getTile ⟨sampleRange stream k gi.height, sampleRange stream (k + 1) gi.width⟩).passable = true ∧
        (gi.getTile ⟨sampleRange stream (k + 2) gi.height, sampleRange stream (k + 3) gi.width⟩).passable = true
    · rw [if_pos hcond] at h
      obtain ⟨hne, hps, hpt⟩ := hcond
      obtain ⟨hpe, hsh, hfr⟩ := hg
      have hwfi : gi.wf := sameShape_wf hsh hwf
      have hhy : 0 < gi.height := by rw [hsh.1]; exact hh
      have hwx : 0 < gi.width := by rw [hsh.2.1]; exact hw
      have hsrc := wf_get_some gi hwfi
        ⟨sampleRange stream k gi.height, sampleRange stream (k + 1) gi.width⟩
        (Nat.mod_lt _ hhy) (Nat.mod_lt _ hwx)
      have htgt := wf_get_some gi hwfi
        ⟨sampleRange stream (k + 2) gi.height, sampleRange stream (k + 3) gi.width⟩
        (Nat.mod_lt _ hhy) (Nat.mod_lt _ hwx)
      obtain ⟨ts, hts⟩ := hsrc
      obtain ⟨tt, htt⟩ := htgt
      rw [getTile_eq _ _ _ hts] at hps
      rw [getTile_eq _ _ _ htt] at hpt
      rcases hhp : gi.has_path
          ⟨sampleRange stream k gi.height, sampleRange stream (k + 1) gi.width⟩
          ⟨sampleRange stream (k + 2) gi.height, sampleRange stream (k + 3) gi.width⟩ with ⟨b, gh⟩
      rw [hhp] at h
      have hgood2 : GoodFrom g0 gh := by
        have hgp := goodFrom_has_path g0 gi
          ⟨sampleRange stream k gi.height, sampleRange stream (k + 1) gi.width⟩
          ⟨sampleRange stream (k + 2) gi.height, sampleRange stream (k + 3) gi.width⟩
          ⟨hpe, hsh, hfr⟩
        rw [hhp] at hgp
        exact hgp
      cases b with
      | true =>
        simp only [] at h
        have h3 := Option.some_inj.mp h
        have hpair : pair =
            (⟨sampleRange stream k gi.height, sampleRange stream (k + 1) gi.width⟩,
             ⟨sampleRange stream (k + 2) gi.height, sampleRange stream (k + 3) gi.width⟩) :=
          (congrArg Prod.fst h3).symm
        have hg2e : g2 = gh := (congrArg (fun x => x.2.2) h3).symm
        subst hg2e
        refine ⟨?_, hgood2⟩
        have hreach : Reach gi Tile.passable
            ⟨sampleRange stream k gi.height, sampleRange stream (k + 1) gi.width⟩
            ⟨sampleRange stream (k + 2) gi.height, sampleRange stream (k + 3) gi.width⟩ := by
          have hiff := c1_astar_none_iff_unreachable gi
            ⟨sampleRange stream k gi.height, sampleRange stream (k + 1) gi.width⟩
            ⟨sampleRange stream (k + 2) gi.height, sampleRange stream (k + 3) gi.width⟩
            octile_heuristic Tile.passable
            (by rw [hts]; rfl) hfr persStable_passable
          have hb : ((astar gi
              ⟨sampleRange stream k gi.height, sampleRange stream (k + 1) gi.width⟩
              ⟨sampleRange stream (k + 2) gi.height, sampleRange stream (k + 3) gi.width⟩
              octile_heuristic Tile.passable).1).isSome = true := by
            have hcb : (gi.has_path
                ⟨sampleRange stream k gi.height, sampleRange stream (k + 1) gi.width⟩
                ⟨sampleRange stream (k + 2) gi.height, sampleRange stream (k + 3) gi.width⟩).1 =
                true := by rw [hhp]
            unfold Grid.has_path at hcb
            exact hcb
          by_contra hnr
          rw [Option.isSome_iff_exists] at hb
          obtain ⟨d, hd⟩ := hb
          have := hiff.mpr hnr
          rw [this] at hd
          exact Option.noConfusion hd
        subst hpair
        refine ⟨hne, ?_, ?_, ?_⟩
        · obtain ⟨t0, ht0, hterr, hbel⟩ := pers_transfer (hpe _) hts
          exact ⟨t0, ht0, (persStable_passable t0 ts hterr hbel).trans hps⟩
        · obtain ⟨t0, ht0, hterr, hbel⟩ := pers_transfer (hpe _) htt
          exact ⟨t0, ht0, (persStable_passable t0 tt hterr hbel).trans hpt⟩
        · exact reach_persEq hpe persStable_passable hreach
      | false =>
        simp only [] at h
        exact ih (k + 4) gh pair k2 g2 hgood2 h
    · rw [if_neg hcond] at h
      exact ih (k + 4) gi pair k2 g2 hg h

theorem buildTrialsGo_spec (stream : ℕ → ℕ) (innerFuel start : ℕ) (g0 : Grid)
    (hwf : g0.wf) (hh : 0 < g0.height) (hw : 0 < g0.width) :
    ∀ (remaining trialIdx k : ℕ) (gi : Grid) (acc : List (Point × Point)),
      GoodFrom g0 gi → (∀ pair ∈ acc, GoodPair g0 pair) →
      ∀ pair ∈ (buildTrialsGo stream innerFuel start remaining trialIdx k gi acc).1,
        GoodPair g0 pair := by
  intro remaining
  induction remaining with
  | zero => intro trialIdx k gi acc _ hacc pair hmem; exact hacc pair hmem
  | succ remaining ih =>
    intro trialIdx k gi acc hg hacc pair hmem
    rw [buildTrialsGo] at hmem
    cases hdp : drawPair stream innerFuel k gi with
    | none =>
      rw [hdp] at hmem
      exact hacc pair hmem
    | some res =>
      obtain ⟨pr, k2, g2⟩ := res
      rw [hdp] at hmem
      simp only [] at hmem
      obtain ⟨hgp, hgood2⟩ := drawPair_spec stream g0 hwf hh hw innerFuel k gi pr k2 g2 hg hdp
      refine ih (trialIdx + 1) k2 g2 _ hgood2 ?_ pair hmem
      intro pair2 hmem2
      by_cases hst : start ≤ trialIdx
      · rw [if_pos hst] at hmem2
        rcases List.mem_append.mp hmem2 with hin | hnew
        · exact hacc pair2 hin
        · obtain rfl : pair2 = pr := by simpa using hnew
          exact hgp
      · rw [if_neg hst] at hmem2
        exact hacc pair2 hmem2

/-- C3: every pair returned by build_trials has distinct endpoints, both
endpoints in bounds with ground-truth-passable terrain, and a
ground-truth path connecting them; failing candidates are rejected by
the inner loop and replaced. -/
theorem c3_build_trials_valid (stream : ℕ → ℕ) (innerFuel : ℕ) (g : Grid)
    (start endv : ℕ) (hwf : g.wf) (hfresh : g.fresh)
    (hh : 0 < g.height) (hw : 0 < g.width) :
    ∀ pair ∈ (build_trials stream innerFuel g start endv).1,
      pair.1 ≠ pair.2 ∧
      (∃ t, g.get pair.1 = some t ∧ Tile.passable t = true) ∧
      (∃ t, g.get pair.2 = some t ∧ Tile.passable t = true) ∧
      Reach g Tile.passable pair.1 pair.2 := by
  intro pair hmem
  exact buildTrialsGo_spec stream innerFuel start g hwf hh hw endv 0 0 g []
    (goodFrom_refl g hfresh) (by intro p hp; simp at hp) pair hmem

/-- C3 witness on the 2 by 2 parser-test grid with one trial. -/
theorem c3_witness :
    (Grid.new [[Tile.new Terrain.Trees, Tile.new Terrain.Ground],
      [Tile.new Terrain.Ground, Tile.new Terrain.Trees]]).wf ∧
    0 < (Grid.new [[Tile.new Terrain.Trees, Tile.new Terrain.Ground],
      [Tile.new Terrain.Ground, Tile.new Terrain.Trees]]).height ∧
    ∀ pair ∈ (build_trials (fun i => i) 8
        (Grid.new [[Tile.new Terrain.Trees, Tile.new Terrain.Ground],
          [Tile.new Terrain.Ground, Tile.new Terrain.Trees]]) 0 1).1,
      pair.1 ≠ pair.2 ∧ Reach (Grid.new [[Tile.new Terrain.Trees, Tile.new Terrain.Ground],
        [Tile.new Terrain.Ground, Tile.new Terrain.Trees]]) Tile.passable pair.1 pair.2 := by
  refine ⟨⟨by decide, by decide⟩, by decide, ?_⟩
  intro pair hmem
  have h := c3_build_trials_valid (fun i => i) 8
    (Grid.new [[Tile.new Terrain.Trees, Tile.new Terrain.Ground],
      [Tile.new Terrain.Ground, Tile.new Terrain.Trees]]) 0 1
    ⟨by decide, by decide⟩ (fresh_of_tiles _ (by decide)) (by decide) (by decide)
    pair hmem
  exact ⟨h.1, h.2.2.2⟩


/-!  C4: determinism under slicing.  Stage A: terrain equality and the
preservation lemmas for look and forget.  -/

/-- Two grids with the same ground truth (terrain), regardless of belief
or scratch. -/
def terrEq (g1 g2 : Grid) : Prop :=
  ∀ p, (g1.get p).map Tile.terrain = (g2.get p).map Tile.terrain

theorem map_pers_some_elim {o1 o2 : Option Tile} (h : o1.map Tile.pers = o2.map Tile.pers) :
    (o1 = none → o2 = none) ∧
    (∀ t1, o1 = some t1 → ∃ t2, o2 = some t2 ∧ t1.terrain = t2.terrain ∧
      t1.belief = t2.belief) := by
  constructor
  · intro h1
    rw [h1] at h
    cases h2 : o2 with
    | none => rfl
    | some t2 => rw [h2] at h; exact Option.noConfusion h
  · intro t1 h1
    rw [h1] at h
    cases h2 : o2 with
    | none => rw [h2] at h; exact Option.noConfusion h
    | some t2 =>
      rw [h2] at h
      have h3 := Option.some_inj.mp h
      unfold Tile.pers at h3
      exact ⟨t2, rfl, congrArg Prod.fst h3, congrArg Prod.snd h3⟩

theorem persEq_to_terrEq {g1 g2 : Grid} (h : persEq g1 g2) : terrEq g1 g2 := by
  intro p
  cases h1 : g1.get p with
  | none =>
    rw [(map_pers_some_elim (h p)).1 h1]
  | some t1 =>
    obtain ⟨t2, h2, hterr, -⟩ := (map_pers_some_elim (h p)).2 t1 h1
    rw [h2]
    simp only [Option.map_some', Option.some_inj]
    exact hterr

theorem terrEq_symm {g1 g2 : Grid} (h : terrEq g1 g2) : terrEq g2 g1 :=
  fun p => (h p).symm

theorem terrEq_trans {g1 g2 g3 : Grid} (h1 : terrEq g1 g2) (h2 : terrEq g2 g3) :
    terrEq g1 g3 := fun p => (h1 p).trans (h2 p)

theorem persEq_symm {g1 g2 : Grid} (h : persEq g1 g2) : persEq g2 g1 :=
  fun p => (h p).symm

theorem persEq_trans {g1 g2 g3 : Grid} (h1 : persEq g1 g2) (h2 : persEq g2 g3) :
    persEq g1 g3 := fun p => (h1 p).trans (h2 p)

theorem sameShape_symm {g1 g2 : Grid} (h : sameShape g1 g2) : sameShape g2 g1 :=
  ⟨h.1.symm, h.2.1.symm, h.2.2.symm⟩

theorem look_pers (t : Tile) :
    Tile.pers t.look =
      (t.terrain, if t.belief = Belief.Unknown then t.terrain.passable else t.belief) := by
  unfold Tile.look Tile.pers
  split_ifs <;> rfl

/-- The fold at the heart of Grid.look. -/
def foldLook (g : Grid) (ps : List Point) : Grid :=
  ps.foldl (fun acc q => acc.modifyTile q Tile.look) g

theorem grid_look_eq_foldLook (g : Grid) (p : Point) :
    g.look p = foldLook g (p :: p.neighborsSlots.filterMap id) := rfl

theorem modifyLook_persEq {g1 g2 : Grid} (h : persEq g1 g2) (q : Point) :
    persEq (g1.modifyTile q Tile.look) (g2.modifyTile q Tile.look) := by
  intro p
  cases h1 : g1.get q with
  | none =>
    have hb := (map_pers_some_elim (h q)).1 h1
    have e1 : g1.modifyTile q Tile.look = g1 := by
      unfold Grid.modifyTile
      rw [h1]
    have e2 : g2.modifyTile q Tile.look = g2 := by
      unfold Grid.modifyTile
      rw [hb]
    rw [e1, e2]
    exact h p
  | some t1 =>
    obtain ⟨t2, hb, hterr, hbel⟩ := (map_pers_some_elim (h q)).2 t1 h1
    by_cases hp : p = q
    · subst hp
      rw [Grid.get_modifyTile_self g1 p Tile.look t1 h1,
        Grid.get_modifyTile_self g2 p Tile.look t2 hb]
      simp only [Option.map_some', Option.some_inj]
      rw [look_pers, look_pers, hterr, hbel]
    · rw [Grid.get_modifyTile_ne _ _ _ _ hp, Grid.get_modifyTile_ne _ _ _ _ hp]
      exact h p

theorem foldLook_persEq {g1 g2 : Grid} (h : persEq g1 g2) :
    ∀ ps : List Point, persEq (foldLook g1 ps) (foldLook g2 ps) := by
  intro ps
  induction ps generalizing g1 g2 with
  | nil => exact h
  | cons q rest ih => exact ih (modifyLook_persEq h q)

theorem look_persEq {g1 g2 : Grid} (h : persEq g1 g2) (p : Point) :
    persEq (g1.look p) (g2.look p) :=
  foldLook_persEq h (p :: p.neighborsSlots.filterMap id)

/-- modifyTile with look changes only the belief of one tile: terrain,
scratch, episode, shape all survive. -/
theorem modifyLook_skeleton (g : Grid) (q : Point) :
    ((g.modifyTile q Tile.look).episode = g.episode) ∧
    sameShape (g.modifyTile q Tile.look) g ∧
    (∀ p t2, (g.modifyTile q Tile.look).get p = some t2 →
      ∃ t1, g.get p = some t1 ∧ t2.terrain = t1.terrain ∧ t2.h = t1.h ∧
        t2.g = t1.g ∧ t2.parent = t1.parent ∧ t2.visited = t1.visited) := by
  refine ⟨Grid.modifyTile_episode g q Tile.look, ?_, ?_⟩
  · unfold Grid.modifyTile
    cases hq : g.get q with
    | none => exact sameShape_refl g
    | some t => exact setTile_sameShape g q t.look
  · intro p t2 hget
    cases hq : g.get q with
    | none =>
      have e1 : g.modifyTile q Tile.look = g := by
        unfold Grid.modifyTile
        rw [hq]
      rw [e1] at hget
      exact ⟨t2, hget, rfl, rfl, rfl, rfl, rfl⟩
    | some t =>
      by_cases hp : p = q
      · subst hp
        rw [Grid.get_modifyTile_self g p Tile.look t hq] at hget
        obtain rfl := Option.some_inj.mp hget.symm
        refine ⟨t, hq, ?_, ?_, ?_, ?_, ?_⟩ <;>
          (unfold Tile.look; split_ifs <;> rfl)
      · rw [Grid.get_modifyTile_ne _ _ _ _ hp] at hget
        exact ⟨t2, hget, rfl, rfl, rfl, rfl, rfl⟩

theorem foldLook_skeleton (g : Grid) :
    ∀ ps : List Point,
    ((foldLook g ps).episode = g.episode) ∧
    sameShape (foldLook g ps) g ∧
    (∀ p t2, (foldLook g ps).get p = some t2 →
      ∃ t1, g.get p = some t1 ∧ t2.terrain = t1.terrain ∧ t2.h = t1.h ∧
        t2.g = t1.g ∧ t2.parent = t1.parent ∧ t2.visited = t1.visited) := by
  intro ps
  induction ps generalizing g with
  | nil => exact ⟨rfl, sameShape_refl g, fun p t2 h => ⟨t2, h, rfl, rfl, rfl, rfl, rfl⟩⟩
  | cons q rest ih =>
    obtain ⟨hep1, hsh1, hsk1⟩ := modifyLook_skeleton g q
    obtain ⟨hep2, hsh2, hsk2⟩ := ih (g.modifyTile q Tile.look)
    refine ⟨hep2.trans hep1, sameShape_trans hsh2 hsh1, ?_⟩
    intro p t2 hget
    obtain ⟨tm, hgm, h1, h2, h3, h4, h5⟩ := hsk2 p t2 hget
    obtain ⟨t1, hg1, k1, k2, k3, k4, k5⟩ := hsk1 p tm hgm
    exact ⟨t1, hg1, h1.trans k1, h2.trans k2, h3.trans k3, h4.trans k4, h5.trans k5⟩

theorem look_skeleton (g : Grid) (p : Point) :
    ((g.look p).episode = g.episode) ∧
    sameShape (g.look p) g ∧
    (∀ q t2, (g.look p).get q = some t2 →
      ∃ t1, g.get q = some t1 ∧ t2.terrain = t1.terrain ∧ t2.h = t1.h ∧
        t2.g = t1.g ∧ t2.parent = t1.parent ∧ t2.visited = t1.visited) :=
  foldLook_skeleton g (p :: p.neighborsSlots.filterMap id)

theorem look_fresh (g : Grid) (p : Point) (h : g.fresh) : (g.look p).fresh := by
  intro q t2 hget
  obtain ⟨hep, -, hsk⟩ := look_skeleton g p
  obtain ⟨t1, hg1, -, -, -, -, hvis⟩ := hsk q t2 hget
  rw [hep, hvis]
  exact h q t1 hg1

theorem modifyTile_get_none_iff (g : Grid) (q : Point) (f : Tile → Tile) (p : Point) :
    (g.modifyTile q f).get p = none ↔ g.get p = none := by
  cases hq : g.get q with
  | none =>
    have e : g.modifyTile q f = g := by
      unfold Grid.modifyTile
      rw [hq]
    rw [e]
  | some t =>
    by_cases hp : p = q
    · subst hp
      rw [Grid.get_modifyTile_self g p f t hq, hq]
      simp
    · rw [Grid.get_modifyTile_ne _ _ _ _ hp]

theorem foldLook_get_none_iff (g : Grid) :
    ∀ (ps : List Point) (p : Point), (foldLook g ps).get p = none ↔ g.get p = none := by
  intro ps
  induction ps generalizing g with
  | nil => intro p; exact Iff.rfl
  | cons q rest ih =>
    intro p
    exact (ih (g.modifyTile q Tile.look) p).trans (modifyTile_get_none_iff g q Tile.look p)

theorem look_terrEq (g : Grid) (p : Point) : terrEq (g.look p) g := by
  intro q
  obtain ⟨-, -, hsk⟩ := look_skeleton g p
  cases hq : (g.look p).get q with
  | none =>
    rw [grid_look_eq_foldLook] at hq
    rw [(foldLook_get_none_iff g (p :: p.neighborsSlots.filterMap id) q).mp hq]
  | some t2 =>
    obtain ⟨t1, hg1, hterr, -⟩ := hsk q t2 hq
    rw [hg1]
    simp only [Option.map_some', Option.some_inj]
    exact hterr


/-!  Stage B of C4: bisimulation of two searches over grids that agree on
persistent data, shape and current-episode scratch, run under different
episode tags.  -/

/-- Two tiles agree for episodes ep1 (left) and ep2 (right): same
persistent data, same visited-this-episode status, and equal scratch when
visited. -/
def tileSync (ep1 ep2 : ℕ) (t1 t2 : Tile) : Prop :=
  t1.terrain = t2.terrain ∧ t1.belief = t2.belief ∧
  t1.visitedAt ep1 = t2.visitedAt ep2 ∧
  (t1.visitedAt ep1 = true → t1.h = t2.h ∧ t1.g = t2.g ∧ t1.parent = t2.parent)

def optSync (ep1 ep2 : ℕ) : Option Tile → Option Tile → Prop
  | none, none => True
  | some t1, some t2 => tileSync ep1 ep2 t1 t2
  | _, _ => False

/-- Grid synchronisation for a pair of running episodes. -/
def GSync (ep1 ep2 : ℕ) (g1 g2 : Grid) : Prop :=
  sameShape g1 g2 ∧ ∀ p, optSync ep1 ep2 (g1.get p) (g2.get p)

/-- Parents of tiles visited this episode are out of bounds or themselves
visited this episode (holds throughout a search). -/
def parOK (ep : ℕ) (g : Grid) : Prop :=
  ∀ p t q, g.get p = some t → t.visitedAt ep = true → t.parent = some q →
    g.get q = none ∨ ∃ tq, g.get q = some tq ∧ tq.visitedAt ep = true

/-- Every open-set entry is out of bounds or visited this episode. -/
def heapOK (ep : ℕ) (g : Grid) (heap : List Node) : Prop :=
  ∀ nd ∈ heap, g.get nd.point = none ∨
    ∃ t, g.get nd.point = some t ∧ t.visitedAt ep = true

theorem sameShape_tileCount {g1 g2 : Grid} (h : sameShape g1 g2) :
    g1.tileCount = g2.tileCount := by
  unfold Grid.tileCount
  rw [h.2.2]

theorem extractGo_succ (g : Grid) (fuel : ℕ) (p : Point) (acc : Path) :
    extractPathGo g (fuel + 1) p acc =
      match (g.getTile p).parent with
      | some previous => extractPathGo g fuel previous (acc ++ [p])
      | none => acc := rfl

theorem extractGo_sync {ep1 ep2 : ℕ} {g1 g2 : Grid}
    (hg : GSync ep1 ep2 g1 g2) (hpar : parOK ep1 g1) :
    ∀ (fuel : ℕ) (p : Point) (acc : Path),
      (g1.get p = none ∨ ∃ t, g1.get p = some t ∧ t.visitedAt ep1 = true) →
      extractPathGo g1 fuel p acc = extractPathGo g2 fuel p acc := by
  intro fuel
  induction fuel with
  | zero => intro p acc _; rfl
  | succ fuel ih =>
    intro p acc hb
    have hsync := hg.2 p
    rcases hb with hnone | ⟨t1, hget1, hvis1⟩
    · rw [hnone] at hsync
      cases hget2 : g2.get p with
      | some t2 =>
        rw [hget2] at hsync
        simp only [optSync] at hsync
      | none =>
        have hp1 : (g1.getTile p).parent = none := by
          unfold Grid.getTile
          rw [hnone]
          rfl
        have hp2 : (g2.getTile p).parent = none := by
          unfold Grid.getTile
          rw [hget2]
          rfl
        rw [extractGo_succ, extractGo_succ, hp1, hp2]
    · rw [hget1] at hsync
      cases hget2 : g2.get p with
      | none =>
        rw [hget2] at hsync
        simp only [optSync] at hsync
      | some t2 =>
        rw [hget2] at hsync
        simp only [optSync] at hsync
        obtain ⟨hterr, hbel, hviseq, hscr⟩ := hsync
        obtain ⟨hh, hgv, hparent⟩ := hscr hvis1
        have e1 : g1.getTile p = t1 := getTile_eq g1 p t1 hget1
        have e2 : g2.getTile p = t2 := getTile_eq g2 p t2 hget2
        cases hpt : t1.parent with
        | none =>
          rw [extractGo_succ, extractGo_succ, e1, e2, ← hparent, hpt]
        | some prev =>
          rw [extractGo_succ, extractGo_succ, e1, e2, ← hparent, hpt]
          exact ih prev (acc ++ [p]) (hpar p t1 prev hget1 hvis1 hpt)

theorem extract_path_sync {ep1 ep2 : ℕ} {g1 g2 : Grid}
    (hg : GSync ep1 ep2 g1 g2) (hpar : parOK ep1 g1) (p : Point)
    (hb : g1.get p = none ∨ ∃ t, g1.get p = some t ∧ t.visitedAt ep1 = true) :
    extract_path g1 p = extract_path g2 p := by
  unfold extract_path
  rw [sameShape_tileCount hg.1]
  exact extractGo_sync hg hpar (g2.tileCount + 1) p [] hb

theorem GSync_visit {ep1 ep2 : ℕ} {g1 g2 : Grid} (hg : GSync ep1 ep2 g1 g2)
    {nbr : Point} {t1 t2 : Tile} (h1 : g1.get nbr = some t1) (h2 : g2.get nbr = some t2)
    (hts : tileSync ep1 ep2 t1 t2) (point : Point) (gv hv : Dist) :
    GSync ep1 ep2 (g1.setTile nbr (t1.visit point gv hv ep1))
      (g2.setTile nbr (t2.visit point gv hv ep2)) := by
  constructor
  · exact sameShape_trans (setTile_sameShape g1 nbr _)
      (sameShape_trans hg.1 (sameShape_symm (setTile_sameShape g2 nbr _)))
  · intro p
    by_cases hp : p = nbr
    · subst hp
      rw [Grid.get_setTile_self g1 p t1 _ h1, Grid.get_setTile_self g2 p t2 _ h2]
      simp only [optSync]
      refine ⟨hts.1, hts.2.1, ?_, ?_⟩
      · simp [Tile.visit, Tile.visitedAt]
      · intro _
        simp [Tile.visit]
    · rw [Grid.get_setTile_ne _ _ _ _ hp, Grid.get_setTile_ne _ _ _ _ hp]
      exact hg.2 p

theorem vn_sync (P : Tile → Bool) (hP : persStable P) (H : Point → Point → Dist)
    (ep1 ep2 : ℕ) (target point : Point) (gval : Dist) :
    ∀ (slots : List (Option Point × Dist)) (g1 g2 : Grid) (heap : List Node),
      GSync ep1 ep2 g1 g2 →
      (visitNeighbors P H ep1 target point gval slots g1 heap).2 =
        (visitNeighbors P H ep2 target point gval slots g2 heap).2 ∧
      GSync ep1 ep2 (visitNeighbors P H ep1 target point gval slots g1 heap).1
        (visitNeighbors P H ep2 target point gval slots g2 heap).1 := by
  intro slots
  induction slots with
  | nil => intro g1 g2 heap hg; exact ⟨rfl, hg⟩
  | cons head rest ih =>
    intro g1 g2 heap hg
    obtain ⟨onbr, cost⟩ := head
    cases onbr with
    | none => exact ih g1 g2 heap hg
    | some nbr =>
      simp only [visitNeighbors]
      have hsync := hg.2 nbr
      cases hget1 : g1.get nbr with
      | none =>
        rw [hget1] at hsync
        have hget2 : g2.get nbr = none := by
          cases hx : g2.get nbr with
          | none => rfl
          | some t2 =>
            rw [hx] at hsync
            simp only [optSync] at hsync
        rw [hget2]
        exact ih g1 g2 heap hg
      | some t1 =>
        rw [hget1] at hsync
        cases hget2 : g2.get nbr with
        | none =>
          rw [hget2] at hsync
          simp only [optSync] at hsync
        | some t2 =>
          rw [hget2] at hsync
          simp only [optSync] at hsync
          obtain ⟨hterr, hbel, hviseq, hscr⟩ := hsync
          simp only []
          have hPeq : P t1 = P t2 := hP t1 t2 hterr hbel
          have hcond : (!t1.visitedAt ep1 && P t1) = (!t2.visitedAt ep2 && P t2) := by
            rw [hviseq, hPeq]
          by_cases hc : (!t1.visitedAt ep1 && P t1) = true
          · rw [if_pos hc, if_pos (hcond ▸ hc)]
            have hnd : (⟨nbr, (t2.visit point (gval + cost) (H nbr target) ep2).f,
                (t2.visit point (gval + cost) (H nbr target) ep2).g⟩ : Node) =
                ⟨nbr, (t1.visit point (gval + cost) (H nbr target) ep1).f,
                  (t1.visit point (gval + cost) (H nbr target) ep1).g⟩ := rfl
            rw [hnd]
            exact ih _ _ _ (GSync_visit hg hget1 hget2 ⟨hterr, hbel, hviseq, hscr⟩
              point (gval + cost) (H nbr target))
          · rw [if_neg hc, if_neg (hcond ▸ hc)]
            exact ih g1 g2 heap hg


theorem vn_parOK (P : Tile → Bool) (H : Point → Point → Dist)
    (ep : ℕ) (target point : Point) (gval : Dist) :
    ∀ (slots : List (Option Point × Dist)) (g : Grid) (heap : List Node),
      parOK ep g →
      (g.get point = none ∨ ∃ t, g.get point = some t ∧ t.visitedAt ep = true) →
      parOK ep (visitNeighbors P H ep target point gval slots g heap).1 := by
  intro slots
  induction slots with
  | nil => intro g heap hpar _; exact hpar
  | cons head rest ih =>
    intro g heap hpar hpt
    obtain ⟨onbr, cost⟩ := head
    cases onbr with
    | none => exact ih g heap hpar hpt
    | some nbr =>
      simp only [visitNeighbors]
      cases hget : g.get nbr with
      | none => exact ih g heap hpar hpt
      | some tile =>
        simp only []
        by_cases hc : (!tile.visitedAt ep && P tile) = true
        · rw [if_pos hc]
          have hvt : (tile.visit point (gval + cost) (H nbr target) ep).visitedAt ep
              = true := by
            simp [Tile.visit, Tile.visitedAt]
          have hnewget := Grid.get_setTile_self g nbr tile
            (tile.visit point (gval + cost) (H nbr target) ep) hget
          refine ih _ _ ?_ ?_
          · intro p t q hp hvis hq
            by_cases hpn : p = nbr
            · rw [hpn] at hp
              rw [hnewget] at hp
              obtain rfl := Option.some_inj.mp hp.symm
              have hqpt : q = point := by
                have := hq
                simp only [Tile.visit] at this
                exact (Option.some_inj.mp this).symm
              rw [hqpt]
              by_cases hqn : point = nbr
              · refine Or.inr ⟨_, ?_, hvt⟩
                exact (congrArg (fun r =>
                  (g.setTile nbr (tile.visit point (gval + cost) (H nbr target) ep)).get r)
                  hqn).trans hnewget
              · rw [Grid.get_setTile_ne _ _ _ _ hqn]
                exact hpt
            · rw [Grid.get_setTile_ne _ _ _ _ hpn] at hp
              rcases hpar p t q hp hvis hq with hnone | ⟨tq, htq, htqv⟩
              · by_cases hqn : q = nbr
                · subst hqn
                  rw [hget] at hnone
                  exact Option.noConfusion hnone
                · rw [Grid.get_setTile_ne _ _ _ _ hqn]
                  exact Or.inl hnone
              · by_cases hqn : q = nbr
                · subst hqn
                  exact Or.inr ⟨_, hnewget, hvt⟩
                · rw [Grid.get_setTile_ne _ _ _ _ hqn]
                  exact Or.inr ⟨tq, htq, htqv⟩
          · by_cases hptn : point = nbr
            · subst hptn
              exact Or.inr ⟨_, hnewget, hvt⟩
            · rw [Grid.get_setTile_ne _ _ _ _ hptn]
              exact hpt
        · rw [if_neg hc]
          exact ih g heap hpar hpt

theorem vn_heapOK (P : Tile → Bool) (H : Point → Point → Dist)
    (ep : ℕ) (target point : Point) (gval : Dist) :
    ∀ (slots : List (Option Point × Dist)) (g : Grid) (heap : List Node),
      heapOK ep g heap →
      heapOK ep (visitNeighbors P H ep target point gval slots g heap).1
        (visitNeighbors P H ep target point gval slots g heap).2 := by
  intro slots
  induction slots with
  | nil => intro g heap hhk; exact hhk
  | cons head rest ih =>
    intro g heap hhk
    obtain ⟨onbr, cost⟩ := head
    cases onbr with
    | none => exact ih g heap hhk
    | some nbr =>
      simp only [visitNeighbors]
      cases hget : g.get nbr with
      | none => exact ih g heap hhk
      | some tile =>
        simp only []
        by_cases hc : (!tile.visitedAt ep && P tile) = true
        · rw [if_pos hc]
          have hvt : (tile.visit point (gval + cost) (H nbr target) ep).visitedAt ep
              = true := by
            simp [Tile.visit, Tile.visitedAt]
          have hnewget := Grid.get_setTile_self g nbr tile
            (tile.visit point (gval + cost) (H nbr target) ep) hget
          refine ih _ _ ?_
          intro nd hnd
          have hmem := (Heap.push_perm heap
            ⟨nbr, (tile.visit point (gval + cost) (H nbr target) ep).f,
              (tile.visit point (gval + cost) (H nbr target) ep).g⟩).mem_iff.mp hnd
          rcases List.mem_cons.mp hmem with rfl | hold
          · exact Or.inr ⟨_, hnewget, hvt⟩
          · by_cases hpn : nd.point = nbr
            · rw [hpn]
              exact Or.inr ⟨_, hnewget, hvt⟩
            · rw [Grid.get_setTile_ne _ _ _ _ hpn]
              exact hhk nd hold
        · rw [if_neg hc]
          exact ih g heap hhk


theorem getTile_g_sync {ep1 ep2 : ℕ} {g1 g2 : Grid} (hg : GSync ep1 ep2 g1 g2)
    (p : Point)
    (hb : g1.get p = none ∨ ∃ t, g1.get p = some t ∧ t.visitedAt ep1 = true) :
    (g1.getTile p).g = (g2.getTile p).g := by
  have hsync := hg.2 p
  rcases hb with hnone | ⟨t1, hget1, hvis1⟩
  · rw [hnone] at hsync
    cases hget2 : g2.get p with
    | some t2 =>
      rw [hget2] at hsync
      simp only [optSync] at hsync
    | none =>
      unfold Grid.getTile
      rw [hnone, hget2]
  · rw [hget1] at hsync
    cases hget2 : g2.get p with
    | none =>
      rw [hget2] at hsync
      simp only [optSync] at hsync
    | some t2 =>
      rw [hget2] at hsync
      simp only [optSync] at hsync
      rw [getTile_eq g1 p t1 hget1, getTile_eq g2 p t2 hget2]
      exact (hsync.2.2.2 hvis1).2.1

theorem astarLoop_sync (Hh : Point → Point → Dist) (P : Tile → Bool)
    (hP : persStable P) (target : Point) (ep1 ep2 : ℕ) :
    ∀ (fuel : ℕ) (st1 st2 : SearchState),
      GSync ep1 ep2 st1.grid st2.grid → st1.openHeap = st2.openHeap →
      st1.expansions = st2.expansions → parOK ep1 st1.grid →
      heapOK ep1 st1.grid st1.openHeap →
      Option.map Prod.fst (astarLoop Hh P target ep1 fuel st1) =
        Option.map Prod.fst (astarLoop Hh P target ep2 fuel st2) := by
  intro fuel
  induction fuel with
  | zero => intro st1 st2 _ _ _ _ _; rfl
  | succ fuel ih =>
    intro st1 st2 hg hh he hpar hhk
    rw [astarLoop, astarLoop]
    unfold astarStep
    rw [← hh]
    cases hpop : Heap.pop st1.openHeap with
    | none =>
      simp only []
      rfl
    | some pr =>
      obtain ⟨expand, rest⟩ := pr
      simp only []
      have hmem : expand ∈ st1.openHeap :=
        (Heap.pop_perm _ _ _ hpop).mem_iff.mpr (List.mem_cons_self _ _)
      have hbexp := hhk expand hmem
      by_cases htgt : expand.point = target
      · rw [if_pos htgt, if_pos htgt]
        simp only [Option.map_some']
        rw [extract_path_sync hg hpar expand.point hbexp, he]
      · rw [if_neg htgt, if_neg htgt]
        have hgv : (st1.grid.getTile expand.point).g = (st2.grid.getTile expand.point).g :=
          getTile_g_sync hg expand.point hbexp
        rw [← hgv]
        have hvs := vn_sync P hP Hh ep1 ep2 target expand.point
          ((st1.grid.getTile expand.point).g) (expand.point.neighborsSlots.zip COST)
          st1.grid st2.grid rest hg
        have hrestOK : heapOK ep1 st1.grid rest := by
          intro nd hnd
          exact hhk nd ((Heap.pop_perm _ _ _ hpop).mem_iff.mpr
            (List.mem_cons_of_mem _ hnd))
        exact ih _ _ hvs.2 hvs.1 (by rw [he])
          (vn_parOK P Hh ep1 target expand.point _ _ st1.grid rest hpar hbexp)
          (vn_heapOK P Hh ep1 target expand.point _ _ st1.grid rest hrestOK)

def RunRel (g1 g2 : Grid) : Prop :=
  persEq g1 g2 ∧ sameShape g1 g2 ∧ g1.fresh ∧ g2.fresh

theorem initState_sync (g1 g2 : Grid) (hpe : persEq g1 g2) (hsh : sameShape g1 g2)
    (hf1 : g1.fresh) (hf2 : g2.fresh) (s t : Point) :
    GSync (g1.episode + 1) (g2.episode + 1)
      (initState g1 s t).grid (initState g2 s t).grid ∧
    (initState g1 s t).openHeap = (initState g2 s t).openHeap ∧
    parOK (g1.episode + 1) (initState g1 s t).grid ∧
    heapOK (g1.episode + 1) (initState g1 s t).grid (initState g1 s t).openHeap := by
  have hsh1 := (initState_out g1 s t).2.1
  have hsh2 := (initState_out g2 s t).2.1
  have hshout : sameShape (initState g1 s t).grid (initState g2 s t).grid :=
    sameShape_trans hsh1 (sameShape_trans hsh (sameShape_symm hsh2))
  cases hs1 : g1.get s with
  | none =>
    have hs2 : g2.get s = none := (map_pers_some_elim (hpe s)).1 hs1
    have hid1 : (initState g1 s t).grid = { g1 with episode := g1.episode + 1 } := by
      show ({ g1 with episode := g1.episode + 1 } : Grid).modifyTile s
        (fun t0 => t0.visit_initial (octile_heuristic s t) (g1.episode + 1)) = _
      unfold Grid.modifyTile
      rw [show ({ g1 with episode := g1.episode + 1 } : Grid).get s = none from hs1]
    have hid2 : (initState g2 s t).grid = { g2 with episode := g2.episode + 1 } := by
      show ({ g2 with episode := g2.episode + 1 } : Grid).modifyTile s
        (fun t0 => t0.visit_initial (octile_heuristic s t) (g2.episode + 1)) = _
      unfold Grid.modifyTile
      rw [show ({ g2 with episode := g2.episode + 1 } : Grid).get s = none from hs2]
    have hgetid1 : ∀ p, (initState g1 s t).grid.get p = g1.get p := by
      intro p
      rw [hid1]
      rfl
    have hgetid2 : ∀ p, (initState g2 s t).grid.get p = g2.get p := by
      intro p
      rw [hid2]
      rfl
    refine ⟨⟨hshout, ?_⟩, ?_, ?_, ?_⟩
    · intro p
      rw [hgetid1 p, hgetid2 p]
      have hsp := hpe p
      cases hg1p : g1.get p with
      | none =>
        rw [hg1p] at hsp
        cases hg2p : g2.get p with
        | none => simp only [optSync]
        | some t2 =>
          rw [hg2p] at hsp
          exact Option.noConfusion hsp
      | some t1 =>
        obtain ⟨t2, hg2p, hterr, hbel⟩ := pers_transfer hsp hg1p
        rw [hg2p]
        simp only [optSync]
        have hv1 : t1.visitedAt (g1.episode + 1) = false := by
          have := hf1 p t1 hg1p
          simp only [Tile.visitedAt]
          simp only [decide_eq_false_iff_not]
          omega
        have hv2 : t2.visitedAt (g2.episode + 1) = false := by
          have := hf2 p t2 hg2p
          simp only [Tile.visitedAt]
          simp only [decide_eq_false_iff_not]
          omega
        refine ⟨hterr.symm, hbel.symm, by rw [hv1, hv2], ?_⟩
        intro habs
        rw [hv1] at habs
        exact Bool.noConfusion habs
    · rw [initState_heap, initState_heap]
      have e1 : (initState g1 s t).grid.getTile s = default := by
        unfold Grid.getTile
        rw [hgetid1 s, hs1]
        rfl
      have e2 : (initState g2 s t).grid.getTile s = default := by
        unfold Grid.getTile
        rw [hgetid2 s, hs2]
        rfl
      rw [e1, e2]
    · intro p t0 q hget hvis
      rw [hgetid1 p] at hget
      have := hf1 p t0 hget
      have hfalse : t0.visitedAt (g1.episode + 1) = false := by
        simp only [Tile.visitedAt]
        simp only [decide_eq_false_iff_not]
        omega
      rw [hfalse] at hvis
      exact Bool.noConfusion hvis
    · intro nd hnd
      rw [initState_heap] at hnd
      obtain rfl : nd = ⟨s, ((initState g1 s t).grid.getTile s).f,
          ((initState g1 s t).grid.getTile s).g⟩ := by simpa using hnd
      exact Or.inl (by rw [hgetid1, hs1])
  | some t1 =>
    obtain ⟨t2, hs2, hterr, hbel⟩ := pers_transfer (hpe s) hs1
    have hget1 := initState_grid_get g1 s t t1 hs1
    have hget2 := initState_grid_get g2 s t t2 hs2
    have hvinit1 : (t1.visit_initial (octile_heuristic s t)
        (g1.episode + 1)).visitedAt (g1.episode + 1) = true := by
      simp [Tile.visit_initial, Tile.visitedAt]
    have hvinit2 : (t2.visit_initial (octile_heuristic s t)
        (g2.episode + 1)).visitedAt (g2.episode + 1) = true := by
      simp [Tile.visit_initial, Tile.visitedAt]
    refine ⟨⟨hshout, ?_⟩, ?_, ?_, ?_⟩
    · intro p
      rw [hget1 p, hget2 p]
      by_cases hp : p = s
      · rw [if_pos hp, if_pos hp]
        simp only [optSync]
        refine ⟨?_, ?_, by rw [hvinit1, hvinit2], ?_⟩
        · show t1.terrain = t2.terrain
          exact hterr.symm
        · show t1.belief = t2.belief
          exact hbel.symm
        · intro _
          exact ⟨rfl, rfl, rfl⟩
      · rw [if_neg hp, if_neg hp]
        have hsp := hpe p
        cases hg1p : g1.get p with
        | none =>
          rw [hg1p] at hsp
          cases hg2p : g2.get p with
          | none => simp only [optSync]
          | some u2 =>
            rw [hg2p] at hsp
            exact Option.noConfusion hsp
        | some u1 =>
          obtain ⟨u2, hg2p, huterr, hubel⟩ := pers_transfer hsp hg1p
          rw [hg2p]
          simp only [optSync]
          have hv1 : u1.visitedAt (g1.episode + 1) = false := by
            have := hf1 p u1 hg1p
            simp only [Tile.visitedAt]
            simp only [decide_eq_false_iff_not]
            omega
          have hv2 : u2.visitedAt (g2.episode + 1) = false := by
            have := hf2 p u2 hg2p
            simp only [Tile.visitedAt]
            simp only [decide_eq_false_iff_not]
            omega
          refine ⟨huterr.symm, hubel.symm, by rw [hv1, hv2], ?_⟩
          intro habs
          rw [hv1] at habs
          exact Bool.noConfusion habs
    · rw [initState_heap, initState_heap]
      have e1 : (initState g1 s t).grid.getTile s =
          t1.visit_initial (octile_heuristic s t) (g1.episode + 1) :=
        getTile_eq _ _ _ (by rw [hget1 s, if_pos rfl])
      have e2 : (initState g2 s t).grid.getTile s =
          t2.visit_initial (octile_heuristic s t) (g2.episode + 1) :=
        getTile_eq _ _ _ (by rw [hget2 s, if_pos rfl])
      rw [e1, e2]
      rfl
    · intro p t0 q hget hvis hq
      rw [hget1 p] at hget
      by_cases hp : p = s
      · rw [if_pos hp] at hget
        obtain rfl := Option.some_inj.mp hget.symm
        simp only [Tile.visit_initial] at hq
        exact Option.noConfusion hq
      · rw [if_neg hp] at hget
        have := hf1 p t0 hget
        have hfalse : t0.visitedAt (g1.episode + 1) = false := by
          simp only [Tile.visitedAt]
          simp only [decide_eq_false_iff_not]
          omega
        rw [hfalse] at hvis
        exact Bool.noConfusion hvis
    · intro nd hnd
      rw [initState_heap] at hnd
      obtain rfl : nd = ⟨s, ((initState g1 s t).grid.getTile s).f,
          ((initState g1 s t).grid.getTile s).g⟩ := by simpa using hnd
      refine Or.inr ⟨t1.visit_initial (octile_heuristic s t) (g1.episode + 1), ?_, hvinit1⟩
      rw [hget1 s, if_pos rfl]

theorem astar_fst_eq (g : Grid) (s t : Point) (Hh : Point → Point → Dist)
    (P : Tile → Bool) :
    astar g s t Hh P =
      (astarLoop Hh P t (g.episode + 1) (g.tileCount + 2)
        (initState g s t)).getD (none, (initState g s t).grid) := rfl

theorem astar_sync (g1 g2 : Grid) (hpe : persEq g1 g2) (hsh : sameShape g1 g2)
    (hf1 : g1.fresh) (hf2 : g2.fresh) (s t : Point) (Hh : Point → Point → Dist)
    (P : Tile → Bool) (hP : persStable P) :
    (astar g1 s t Hh P).1 = (astar g2 s t Hh P).1 := by
  obtain ⟨hg, hh, hpar, hhk⟩ := initState_sync g1 g2 hpe hsh hf1 hf2 s t
  have hm := astarLoop_sync Hh P hP t (g1.episode + 1) (g2.episode + 1)
    (g1.tileCount + 2) (initState g1 s t) (initState g2 s t) hg hh rfl hpar hhk
  rw [astar_fst_eq, astar_fst_eq,
    show g2.tileCount = g1.tileCount from (sameShape_tileCount hsh).symm]
  cases h1 : astarLoop Hh P t (g1.episode + 1) (g1.tileCount + 2)
      (initState g1 s t) with
  | none =>
    rw [h1] at hm
    cases h2 : astarLoop Hh P t (g2.episode + 1) (g1.tileCount + 2)
        (initState g2 s t) with
    | none => rfl
    | some r2 =>
      rw [h2] at hm
      exact Option.noConfusion hm
  | some r1 =>
    rw [h1] at hm
    cases h2 : astarLoop Hh P t (g2.episode + 1) (g1.tileCount + 2)
        (initState g2 s t) with
    | none =>
      rw [h2] at hm
      exact Option.noConfusion hm
    | some r2 =>
      rw [h2] at hm
      simp only [Option.map_some'] at hm
      simp only [Option.getD_some]
      exact Option.some_inj.mp hm

theorem astar_runrel {g1 g2 : Grid} (hr : RunRel g1 g2) (s t : Point)
    (Hh : Point → Point → Dist) {P : Tile → Bool} (hP : persStable P) :
    (astar g1 s t Hh P).1 = (astar g2 s t Hh P).1 ∧
    RunRel (astar g1 s t Hh P).2 (astar g2 s t Hh P).2 := by
  obtain ⟨hpe, hsh, hf1, hf2⟩ := hr
  obtain ⟨hpe1, hsh1, -, hfr1⟩ := astar_out g1 s t Hh P
  obtain ⟨hpe2, hsh2, -, hfr2⟩ := astar_out g2 s t Hh P
  refine ⟨astar_sync g1 g2 hpe hsh hf1 hf2 s t Hh P hP, ?_, ?_, hfr1 hf1, hfr2 hf2⟩
  · exact persEq_trans hpe1 (persEq_trans hpe (persEq_symm hpe2))
  · exact sameShape_trans hsh1 (sameShape_trans hsh (sameShape_symm hsh2))


/-!  Stage C of C4: the bisimulation lifted to agents and single runs.  -/

theorem terrEq_refl (g : Grid) : terrEq g g := fun _ => rfl

theorem look_runrel {g1 g2 : Grid} (hr : RunRel g1 g2) (p : Point) :
    RunRel (g1.look p) (g2.look p) :=
  ⟨look_persEq hr.1 p,
   sameShape_trans (look_skeleton g1 p).2.1
     (sameShape_trans hr.2.1 (sameShape_symm (look_skeleton g2 p).2.1)),
   look_fresh g1 p hr.2.2.1, look_fresh g2 p hr.2.2.2⟩

theorem getTile_freespace_pe {g1 g2 : Grid} (hpe : persEq g1 g2) (p : Point) :
    (g1.getTile p).freespace = (g2.getTile p).freespace := by
  cases h1 : g1.get p with
  | none =>
    have h2 : g2.get p = none := (map_pers_some_elim (hpe p)).1 h1
    unfold Grid.getTile
    rw [h1, h2]
  | some t1 =>
    obtain ⟨t2, h2, hterr, hbel⟩ := pers_transfer (hpe p) h1
    rw [getTile_eq g1 p t1 h1, getTile_eq g2 p t2 h2]
    exact (persStable_freespace t2 t1 hterr hbel).symm

theorem updatePath_sync {g1 g2 : Grid} (hr : RunRel g1 g2)
    (Hh : Point → Point → Dist) (loc t : Point) :
    (updatePath Hh g1 loc t).1 = (updatePath Hh g2 loc t).1 ∧
    (updatePath Hh g1 loc t).2.1 = (updatePath Hh g2 loc t).2.1 ∧
    RunRel (updatePath Hh g1 loc t).2.2 (updatePath Hh g2 loc t).2.2 := by
  obtain ⟨heq, hrel⟩ := astar_runrel hr loc t Hh persStable_freespace
  unfold updatePath
  rcases h1 : astar g1 loc t Hh Tile.freespace with ⟨o1, gg1⟩
  rcases h2 : astar g2 loc t Hh Tile.freespace with ⟨o2, gg2⟩
  rw [h1, h2] at heq hrel
  simp only [] at heq hrel
  obtain rfl : o1 = o2 := heq
  cases o1 with
  | none => exact ⟨rfl, rfl, hrel⟩
  | some d => exact ⟨rfl, rfl, hrel⟩

theorem act_sync (kind : AgentKind) (Hh : Point → Point → Dist) {g1 g2 : Grid}
    (hr : RunRel g1 g2) (st : Option Path) (loc t : Point) :
    (Agent.act kind Hh st g1 loc t).1 = (Agent.act kind Hh st g2 loc t).1 ∧
    (Agent.act kind Hh st g1 loc t).2.1 = (Agent.act kind Hh st g2 loc t).2.1 ∧
    RunRel (Agent.act kind Hh st g1 loc t).2.2 (Agent.act kind Hh st g2 loc t).2.2 := by
  cases kind with
  | always =>
    obtain ⟨heq, hrel⟩ := astar_runrel hr loc t Hh persStable_freespace
    unfold Agent.act alwaysAct
    rcases h1 : astar g1 loc t Hh Tile.freespace with ⟨o1, gg1⟩
    rcases h2 : astar g2 loc t Hh Tile.freespace with ⟨o2, gg2⟩
    rw [h1, h2] at heq hrel
    simp only [] at heq hrel
    obtain rfl : o1 = o2 := heq
    cases o1 with
    | none => exact ⟨rfl, rfl, hrel⟩
    | some d => exact ⟨rfl, rfl, hrel⟩
  | rastar =>
    unfold Agent.act rastarAct
    rcases hfp : followPath st with ⟨onext, st2⟩
    simp only []
    cases onext with
    | some next =>
      simp only []
      have hfs : (g1.getTile next).freespace = (g2.getTile next).freespace :=
        getTile_freespace_pe hr.1 next
      by_cases hfree : (g1.getTile next).freespace = true
      · rw [if_pos hfree, if_pos (hfs ▸ hfree)]
        exact ⟨rfl, rfl, hr⟩
      · rw [if_neg hfree, if_neg (hfs ▸ hfree)]
        obtain ⟨hu1, hu2, hurel⟩ := updatePath_sync hr Hh loc t
        rcases hup1 : updatePath Hh g1 loc t with ⟨p1, e1, gg1⟩
        rcases hup2 : updatePath Hh g2 loc t with ⟨p2, e2, gg2⟩
        rw [hup1, hup2] at hu1 hu2 hurel
        simp only [] at hu1 hu2 hurel
        obtain rfl : p1 = p2 := hu1
        obtain ⟨rfl, -⟩ : e1 = e2 ∧ True := ⟨hu2, trivial⟩
        rcases hfp2 : followPath p1 with ⟨stp, p4⟩
        exact ⟨rfl, rfl, hurel⟩
    | none =>
      simp only []
      obtain ⟨hu1, hu2, hurel⟩ := updatePath_sync hr Hh loc t
      rcases hup1 : updatePath Hh g1 loc t with ⟨p1, e1, gg1⟩
      rcases hup2 : updatePath Hh g2 loc t with ⟨p2, e2, gg2⟩
      rw [hup1, hup2] at hu1 hu2 hurel
      simp only [] at hu1 hu2 hurel
      obtain rfl : p1 = p2 := hu1
      obtain ⟨rfl, -⟩ : e1 = e2 ∧ True := ⟨hu2, trivial⟩
      rcases hfp2 : followPath p1 with ⟨stp, p4⟩
      exact ⟨rfl, rfl, hurel⟩

/-- The statistics update of one loop iteration of run_once (the two let
bindings of the source, as one function). -/
def bumpData (data : Datum) (location : Point) (d : AgentData) : Datum :=
  let data2 := if 0 < d.expansions then
      { data with episodes := data.episodes + 1,
                  expansions := data.expansions + d.expansions }
    else data
  { data2 with steps := data2.steps + 1,
               moves := data2.moves ++ [(location, d.action)] }

theorem runOnceGo_succ (kind : AgentKind) (Hh : Point → Point → Dist) (fuel : ℕ)
    (g : Grid) (st : Option Path) (location target : Point) (data : Datum) :
    runOnceGo kind Hh (fuel + 1) g st location target data =
      match Agent.act kind Hh st g location target with
      | (none, _, g2) => (none, g2)
      | (some d, st2, g2) =>
        if d.action = target then (some (bumpData data location d), g2.look d.action)
        else runOnceGo kind Hh fuel (g2.look d.action) st2 d.action target
          (bumpData data location d) := rfl

theorem runOnceGo_sync (kind : AgentKind) (Hh : Point → Point → Dist) :
    ∀ (fuel : ℕ) {g1 g2 : Grid}, RunRel g1 g2 →
      ∀ (st : Option Path) (loc t : Point) (data : Datum),
      (runOnceGo kind Hh fuel g1 st loc t data).1 =
        (runOnceGo kind Hh fuel g2 st loc t data).1 := by
  intro fuel
  induction fuel with
  | zero => intro g1 g2 _ st loc t data; rfl
  | succ fuel ih =>
    intro g1 g2 hr st loc t data
    rw [runOnceGo_succ, runOnceGo_succ]
    obtain ⟨ha1, ha2, harel⟩ := act_sync kind Hh hr st loc t
    rcases hact1 : Agent.act kind Hh st g1 loc t with ⟨od1, stA, gA⟩
    rcases hact2 : Agent.act kind Hh st g2 loc t with ⟨od2, stB, gB⟩
    rw [hact1, hact2] at ha1 ha2 harel
    simp only [] at ha1 ha2 harel
    obtain rfl : od1 = od2 := ha1
    obtain rfl : stA = stB := ha2
    cases od1 with
    | none => rfl
    | some d =>
      simp only []
      by_cases hd : d.action = t
      · rw [if_pos hd, if_pos hd]
      · rw [if_neg hd, if_neg hd]
        exact ih (look_runrel harel d.action) stA d.action t (bumpData data loc d)

theorem run_once_sync (kind : AgentKind) (Hh : Point → Point → Dist) (fuel : ℕ)
    {g1 g2 : Grid} (hr : RunRel g1 g2) (s t : Point) :
    (run_once kind Hh fuel g1 s t).1 = (run_once kind Hh fuel g2 s t).1 := by
  unfold run_once
  exact runOnceGo_sync kind Hh fuel (look_runrel hr s) (Agent.reset kind none) s t
    Datum.empty

theorem look_out (g : Grid) (p : Point) :
    terrEq (g.look p) g ∧ sameShape (g.look p) g ∧ (g.fresh → (g.look p).fresh) :=
  ⟨look_terrEq g p, (look_skeleton g p).2.1, fun h => look_fresh g p h⟩

theorem updatePath_out (Hh : Point → Point → Dist) (g : Grid) (loc t : Point) :
    terrEq (updatePath Hh g loc t).2.2 g ∧
    sameShape (updatePath Hh g loc t).2.2 g ∧
    (g.fresh → (updatePath Hh g loc t).2.2.fresh) := by
  obtain ⟨hpe, hsh, -, hfr⟩ := astar_out g loc t Hh Tile.freespace
  unfold updatePath
  rcases h1 : astar g loc t Hh Tile.freespace with ⟨o, gg⟩
  rw [h1] at hpe hsh hfr
  simp only [] at hpe hsh hfr
  cases o with
  | none => exact ⟨persEq_to_terrEq hpe, hsh, hfr⟩
  | some d => exact ⟨persEq_to_terrEq hpe, hsh, hfr⟩

theorem act_out (kind : AgentKind) (Hh : Point → Point → Dist) (st : Option Path)
    (g : Grid) (loc t : Point) :
    terrEq (Agent.act kind Hh st g loc t).2.2 g ∧
    sameShape (Agent.act kind Hh st g loc t).2.2 g ∧
    (g.fresh → (Agent.act kind Hh st g loc t).2.2.fresh) := by
  cases kind with
  | always =>
    obtain ⟨hpe, hsh, -, hfr⟩ := astar_out g loc t Hh Tile.freespace
    unfold Agent.act alwaysAct
    rcases h1 : astar g loc t Hh Tile.freespace with ⟨o, gg⟩
    rw [h1] at hpe hsh hfr
    simp only [] at hpe hsh hfr
    cases o with
    | none => exact ⟨persEq_to_terrEq hpe, hsh, hfr⟩
    | some d => exact ⟨persEq_to_terrEq hpe, hsh, hfr⟩
  | rastar =>
    unfold Agent.act rastarAct
    rcases hfp : followPath st with ⟨onext, st2⟩
    simp only []
    obtain ⟨hup1, hup2, hup3⟩ := updatePath_out Hh g loc t
    cases onext with
    | some next =>
      simp only []
      by_cases hfree : (g.getTile next).freespace = true
      · rw [if_pos hfree]
        exact ⟨terrEq_refl g, sameShape_refl g, fun h => h⟩
      · rw [if_neg hfree]
        rcases hup : updatePath Hh g loc t with ⟨p3, e3, gg⟩
        rw [hup] at hup1 hup2 hup3
        simp only [] at hup1 hup2 hup3
        rcases hfp2 : followPath p3 with ⟨stp, p4⟩
        exact ⟨hup1, hup2, hup3⟩
    | none =>
      simp only []
      rcases hup : updatePath Hh g loc t with ⟨p3, e3, gg⟩
      rw [hup] at hup1 hup2 hup3
      simp only [] at hup1 hup2 hup3
      rcases hfp2 : followPath p3 with ⟨stp, p4⟩
      exact ⟨hup1, hup2, hup3⟩

theorem runOnceGo_out (kind : AgentKind) (Hh : Point → Point → Dist) :
    ∀ (fuel : ℕ) (g : Grid) (st : Option Path) (loc t : Point) (data : Datum),
      terrEq (runOnceGo kind Hh fuel g st loc t data).2 g ∧
      sameShape (runOnceGo kind Hh fuel g st loc t data).2 g ∧
      (g.fresh → (runOnceGo kind Hh fuel g st loc t data).2.fresh) := by
  intro fuel
  induction fuel with
  | zero => intro g st loc t data; exact ⟨terrEq_refl g, sameShape_refl g, fun h => h⟩
  | succ fuel ih =>
    intro g st loc t data
    rw [runOnceGo_succ]
    obtain ⟨hA1, hA2, hA3⟩ := act_out kind Hh st g loc t
    rcases hact : Agent.act kind Hh st g loc t with ⟨od, st2, g2⟩
    rw [hact] at hA1 hA2 hA3
    simp only [] at hA1 hA2 hA3
    cases od with
    | none => exact ⟨hA1, hA2, hA3⟩
    | some d =>
      simp only []
      obtain ⟨hL1, hL2, hL3⟩ := look_out g2 d.action
      by_cases hd : d.action = t
      · rw [if_pos hd]
        exact ⟨terrEq_trans hL1 hA1, sameShape_trans hL2 hA2,
          fun h => hL3 (hA3 h)⟩
      · rw [if_neg hd]
        obtain ⟨hR1, hR2, hR3⟩ := ih (g2.look d.action) st2 d.action t
          (bumpData data loc d)
        exact ⟨terrEq_trans hR1 (terrEq_trans hL1 hA1),
          sameShape_trans hR2 (sameShape_trans hL2 hA2),
          fun h => hR3 (hL3 (hA3 h))⟩

theorem run_once_out (kind : AgentKind) (Hh : Point → Point → Dist) (fuel : ℕ)
    (g : Grid) (s t : Point) :
    terrEq (run_once kind Hh fuel g s t).2 g ∧
    sameShape (run_once kind Hh fuel g s t).2 g ∧
    (g.fresh → (run_once kind Hh fuel g s t).2.fresh) := by
  unfold run_once
  obtain ⟨hL1, hL2, hL3⟩ := look_out g s
  obtain ⟨hR1, hR2, hR3⟩ := runOnceGo_out kind Hh fuel (g.look s)
    (Agent.reset kind none) s t Datum.empty
  exact ⟨terrEq_trans hR1 hL1, sameShape_trans hR2 hL2, fun h => hR3 (hL3 h)⟩

theorem forget_get (g : Grid) (p : Point) :
    g.forget.get p = (g.get p).map Tile.forget := by
  show ((g.tiles.map (List.map Tile.forget)).get? p.y).bind (fun row => row.get? p.x) =
    ((g.tiles.get? p.y).bind fun row => row.get? p.x).map Tile.forget
  rw [List.get?_map]
  cases hy : g.tiles.get? p.y with
  | none => rfl
  | some row =>
    simp only [Option.map_some', Option.some_bind]
    rw [List.get?_map]

theorem forget_terrEq (g : Grid) : terrEq g.forget g := by
  intro p
  rw [forget_get]
  cases g.get p <;> rfl

theorem forget_sameShape (g : Grid) : sameShape g.forget g := by
  refine ⟨rfl, rfl, ?_⟩
  show (g.tiles.map (List.map Tile.forget)).map List.length = g.tiles.map List.length
  rw [List.map_map]
  have hcomp : (List.length ∘ List.map Tile.forget) = (List.length : List Tile → ℕ) := by
    funext l
    simp
  rw [hcomp]

theorem forget_fresh (g : Grid) (h : g.fresh) : g.forget.fresh := by
  intro p t hget
  rw [forget_get] at hget
  cases hg : g.get p with
  | none =>
    rw [hg] at hget
    exact Option.noConfusion hget
  | some t0 =>
    rw [hg] at hget
    obtain rfl := Option.some_inj.mp hget.symm
    exact h p t0 hg

theorem forget_runrel {g1 g2 : Grid} (ht : terrEq g1 g2) (hsh : sameShape g1 g2)
    (hf1 : g1.fresh) (hf2 : g2.fresh) : RunRel g1.forget g2.forget := by
  refine ⟨?_, ?_, forget_fresh g1 hf1, forget_fresh g2 hf2⟩
  · intro p
    rw [forget_get, forget_get]
    have hterr := ht p
    cases h1 : g1.get p with
    | none =>
      rw [h1] at hterr
      cases h2 : g2.get p with
      | none => rfl
      | some t2 =>
        rw [h2] at hterr
        exact Option.noConfusion hterr
    | some t1 =>
      rw [h1] at hterr
      cases h2 : g2.get p with
      | none =>
        rw [h2] at hterr
        exact Option.noConfusion hterr
      | some t2 =>
        rw [h2] at hterr
        have ht12 : t1.terrain = t2.terrain := by simpa using hterr
        simp only [Option.map_some', Option.some_inj]
        show Tile.pers (Tile.forget t1) = Tile.pers (Tile.forget t2)
        unfold Tile.pers Tile.forget
        simp [ht12]
  · exact sameShape_trans (forget_sameShape g1)
      (sameShape_trans hsh (sameShape_symm (forget_sameShape g2)))


/-!  Stage D of C4: trial generation is independent of the start index;
slicing structure of build_trials and run_trials.  -/

/-- The full generation sequence of build_trials, with the running trial
index attached to each accepted pair; independent of the start bound. -/
def genTrials (stream : ℕ → ℕ) (innerFuel : ℕ) :
    ℕ → ℕ → ℕ → Grid → List (ℕ × (Point × Point)) × Grid
  | 0, _, _, g => ([], g)
  | remaining + 1, trialIdx, k, g =>
    match drawPair stream innerFuel k g with
    | none => ([], g)
    | some (pair, k2, g2) =>
      ((trialIdx, pair) :: (genTrials stream innerFuel remaining (trialIdx + 1) k2 g2).1,
        (genTrials stream innerFuel remaining (trialIdx + 1) k2 g2).2)

theorem buildTrialsGo_gen (stream : ℕ → ℕ) (innerFuel start : ℕ) :
    ∀ (remaining trialIdx k : ℕ) (g : Grid) (acc : List (Point × Point)),
      buildTrialsGo stream innerFuel start remaining trialIdx k g acc =
        (acc ++ ((genTrials stream innerFuel remaining trialIdx k g).1.filter
            (fun pr => start ≤ pr.1)).map Prod.snd,
          (genTrials stream innerFuel remaining trialIdx k g).2) := by
  intro remaining
  induction remaining with
  | zero =>
    intro trialIdx k g acc
    simp [buildTrialsGo, genTrials]
  | succ remaining ih =>
    intro trialIdx k g acc
    rw [buildTrialsGo, genTrials]
    cases hdp : drawPair stream innerFuel k g with
    | none => simp
    | some res =>
      obtain ⟨pair, k2, g2⟩ := res
      simp only []
      rw [ih]
      by_cases hst : start ≤ trialIdx
      · rw [if_pos hst]
        simp [List.filter_cons, hst]
      · rw [if_neg hst]
        simp [List.filter_cons, hst]

theorem genTrials_indices (stream : ℕ → ℕ) (innerFuel : ℕ) :
    ∀ (remaining trialIdx k : ℕ) (g : Grid),
      (genTrials stream innerFuel remaining trialIdx k g).1.map Prod.fst =
        List.range' trialIdx (genTrials stream innerFuel remaining trialIdx k g).1.length := by
  intro remaining
  induction remaining with
  | zero => intro trialIdx k g; rfl
  | succ remaining ih =>
    intro trialIdx k g
    rw [genTrials]
    cases hdp : drawPair stream innerFuel k g with
    | none => rfl
    | some res =>
      obtain ⟨pair, k2, g2⟩ := res
      simp only [List.map_cons, List.length_cons]
      rw [ih, List.range'_succ]

theorem filter_map_snd_of_indices {α : Type} :
    ∀ (l : List (ℕ × α)) (i start : ℕ),
      l.map Prod.fst = List.range' i l.length →
      (l.filter (fun pr => start ≤ pr.1)).map Prod.snd =
        (l.map Prod.snd).drop (start - i) := by
  intro l
  induction l with
  | nil => intro i start _; simp
  | cons hd rest ih =>
    intro i start hidx
    obtain ⟨j, a⟩ := hd
    simp only [List.map_cons, List.length_cons] at hidx
    have hidx2 : j :: rest.map Prod.fst = i :: List.range' (i + 1) rest.length := hidx
    have hj : j = i := (List.cons.inj hidx2).1
    have hrest : rest.map Prod.fst = List.range' (j + 1) rest.length := by
      rw [hj]
      exact (List.cons.inj hidx2).2
    rw [← hj]
    by_cases hst : start ≤ j
    · have h0 : start - j = 0 := by omega
      have h0' : start - (j + 1) = 0 := by omega
      have hrec := ih (j + 1) start hrest
      rw [h0'] at hrec
      rw [h0]
      simp only [List.map_cons, List.drop_zero] at hrec ⊢
      simp [List.filter_cons, hst, hrec]
    · have hsub : start - j = (start - (j + 1)) + 1 := by omega
      have hrec := ih (j + 1) start hrest
      rw [hsub]
      simp only [List.map_cons, List.drop_succ_cons]
      rw [← hrec]
      simp [List.filter_cons, hst]

theorem build_trials_slice (stream : ℕ → ℕ) (innerFuel : ℕ) (g : Grid)
    (start endv : ℕ) :
    build_trials stream innerFuel g start endv =
      (((genTrials stream innerFuel endv 0 0 g).1.map Prod.snd).drop start,
        (genTrials stream innerFuel endv 0 0 g).2) := by
  unfold build_trials
  rw [buildTrialsGo_gen]
  rw [filter_map_snd_of_indices _ 0 start (genTrials_indices stream innerFuel endv 0 0 g)]
  simp

theorem drawPair_out (stream : ℕ → ℕ) :
    ∀ (fuel k : ℕ) (g : Grid) (pair : Point × Point) (k2 : ℕ) (g2 : Grid),
      drawPair stream fuel k g = some (pair, k2, g2) →
      terrEq g2 g ∧ sameShape g2 g ∧ (g.fresh → g2.fresh) := by
  intro fuel
  induction fuel with
  | zero => intro k g pair k2 g2 h; exact Option.noConfusion h
  | succ fuel ih =>
    intro k g pair k2 g2 h
    rw [drawPair] at h
    by_cases hcond : (⟨sampleRange stream k g.height, sampleRange stream (k + 1) g.width⟩ : Point) ≠
        (⟨sampleRange stream (k + 2) g.height, sampleRange stream (k + 3) g.width⟩ : Point) ∧
        (g.getTile ⟨sampleRange stream k g.height, sampleRange stream (k + 1) g.width⟩).passable = true ∧
        (g.getTile ⟨sampleRange stream (k + 2) g.height, sampleRange stream (k + 3) g.width⟩).passable = true
    · rw [if_pos hcond] at h
      rcases hhp : Grid.has_path g
          ⟨sampleRange stream k g.height, sampleRange stream (k + 1) g.width⟩
          ⟨sampleRange stream (k + 2) g.height, sampleRange stream (k + 3) g.width⟩
        with ⟨b, gmid⟩
      unfold Grid.has_path at hhp
      obtain ⟨-, hgmid⟩ := Prod.mk.inj hhp
      obtain ⟨hpe, hsh, -, hfr⟩ := astar_out g
        ⟨sampleRange stream k g.height, sampleRange stream (k + 1) g.width⟩
        ⟨sampleRange stream (k + 2) g.height, sampleRange stream (k + 3) g.width⟩
        octile_heuristic Tile.passable
      rw [hgmid] at hpe hsh hfr
      have hmid : terrEq gmid g ∧ sameShape gmid g ∧ (g.fresh → gmid.fresh) :=
        ⟨persEq_to_terrEq hpe, hsh, hfr⟩
      rw [show (Grid.has_path g
          ⟨sampleRange stream k g.height, sampleRange stream (k + 1) g.width⟩
          ⟨sampleRange stream (k + 2) g.height, sampleRange stream (k + 3) g.width⟩) =
        (b, gmid) from hhp] at h
      cases b with
      | true =>
        simp only [] at h
        have h3 := Option.some_inj.mp h
        have hg2 : gmid = g2 := congrArg (fun x => x.2.2) h3
        rw [← hg2]
        exact hmid
      | false =>
        simp only [] at h
        obtain ⟨ht2, hsh2, hfr2⟩ := ih (k + 4) gmid pair k2 g2 h
        exact ⟨terrEq_trans ht2 hmid.1, sameShape_trans hsh2 hmid.2.1,
          fun hf => hfr2 (hmid.2.2 hf)⟩
    · rw [if_neg hcond] at h
      exact ih (k + 4) g pair k2 g2 h

theorem genTrials_out (stream : ℕ → ℕ) (innerFuel : ℕ) :
    ∀ (remaining trialIdx k : ℕ) (g : Grid),
      terrEq (genTrials stream innerFuel remaining trialIdx k g).2 g ∧
      sameShape (genTrials stream innerFuel remaining trialIdx k g).2 g ∧
      (g.fresh → (genTrials stream innerFuel remaining trialIdx k g).2.fresh) := by
  intro remaining
  induction remaining with
  | zero =>
    intro trialIdx k g
    exact ⟨terrEq_refl g, sameShape_refl g, fun h => h⟩
  | succ remaining ih =>
    intro trialIdx k g
    rw [genTrials]
    cases hdp : drawPair stream innerFuel k g with
    | none => exact ⟨terrEq_refl g, sameShape_refl g, fun h => h⟩
    | some res =>
      obtain ⟨pair, k2, g2⟩ := res
      simp only []
      obtain ⟨ht2, hsh2, hfr2⟩ := drawPair_out stream innerFuel k g pair k2 g2 hdp
      obtain ⟨ht3, hsh3, hfr3⟩ := ih (trialIdx + 1) k2 g2
      exact ⟨terrEq_trans ht3 ht2, sameShape_trans hsh3 hsh2,
        fun hf => hfr3 (hfr2 hf)⟩

theorem runTrialsGo_acc (kind : AgentKind) (Hh : Point → Point → Dist) (rF : ℕ) :
    ∀ (trials : List (Point × Point)) (g : Grid) (acc : List (Option Datum)),
      (runTrialsGo kind Hh rF trials g acc).1 =
        acc ++ (runTrialsGo kind Hh rF trials g []).1 := by
  intro trials
  induction trials with
  | nil => intro g acc; simp [runTrialsGo]
  | cons pair rest ih =>
    intro g acc
    rw [runTrialsGo, runTrialsGo]
    rcases hro : run_once kind Hh rF g.forget pair.1 pair.2 with ⟨r, g2⟩
    simp only []
    rw [ih g2 (acc ++ [r]), ih g2 ([] ++ [r]), List.append_assoc]
    simp

/-- Grid state after the first i trials of the processing loop. -/
def trialsGrid (kind : AgentKind) (Hh : Point → Point → Dist) (rF : ℕ) :
    ℕ → List (Point × Point) → Grid → Grid
  | 0, _, g => g
  | _ + 1, [], g => g
  | i + 1, pair :: rest, g =>
    trialsGrid kind Hh rF i rest (run_once kind Hh rF g.forget pair.1 pair.2).2

theorem runTrialsGo_get (kind : AgentKind) (Hh : Point → Point → Dist) (rF : ℕ) :
    ∀ (i : ℕ) (trials : List (Point × Point)) (g : Grid),
      (runTrialsGo kind Hh rF trials g []).1.get? i =
        (runTrialsGo kind Hh rF (trials.drop i)
          (trialsGrid kind Hh rF i trials g) []).1.get? 0 := by
  intro i
  induction i with
  | zero => intro trials g; rfl
  | succ i ih =>
    intro trials g
    cases trials with
    | nil => simp [runTrialsGo, trialsGrid]
    | cons pair rest =>
      rw [runTrialsGo]
      rcases hro : run_once kind Hh rF g.forget pair.1 pair.2 with ⟨r, g2⟩
      simp only [List.nil_append]
      rw [runTrialsGo_acc kind Hh rF rest g2 [r]]
      simp only [List.singleton_append, List.get?_cons_succ]
      have hstep : trialsGrid kind Hh rF (i + 1) (pair :: rest) g =
          trialsGrid kind Hh rF i rest g2 := by
        rw [trialsGrid, hro]
      rw [show (pair :: rest).drop (i + 1) = rest.drop i from rfl, hstep]
      exact ih rest g2

theorem trialsGrid_out (kind : AgentKind) (Hh : Point → Point → Dist) (rF : ℕ) :
    ∀ (i : ℕ) (trials : List (Point × Point)) (g : Grid),
      terrEq (trialsGrid kind Hh rF i trials g) g ∧
      sameShape (trialsGrid kind Hh rF i trials g) g ∧
      (g.fresh → (trialsGrid kind Hh rF i trials g).fresh) := by
  intro i
  induction i with
  | zero =>
    intro trials g
    cases trials with
    | nil => exact ⟨terrEq_refl g, sameShape_refl g, fun h => h⟩
    | cons pair rest => exact ⟨terrEq_refl g, sameShape_refl g, fun h => h⟩
  | succ i ih =>
    intro trials g
    cases trials with
    | nil => exact ⟨terrEq_refl g, sameShape_refl g, fun h => h⟩
    | cons pair rest =>
      rw [trialsGrid]
      obtain ⟨hr1, hr2, hr3⟩ := run_once_out kind Hh rF g.forget pair.1 pair.2
      obtain ⟨hi1, hi2, hi3⟩ := ih rest (run_once kind Hh rF g.forget pair.1 pair.2).2
      refine ⟨?_, ?_, ?_⟩
      · exact terrEq_trans hi1 (terrEq_trans hr1 (forget_terrEq g))
      · exact sameShape_trans hi2 (sameShape_trans hr2 (forget_sameShape g))
      · intro hf
        exact hi3 (hr3 (forget_fresh g hf))

theorem runTrialsGo_sync (kind : AgentKind) (Hh : Point → Point → Dist) (rF : ℕ) :
    ∀ (trials : List (Point × Point)) {h1 h2 : Grid},
      terrEq h1 h2 → sameShape h1 h2 → h1.fresh → h2.fresh →
      (runTrialsGo kind Hh rF trials h1 []).1 =
        (runTrialsGo kind Hh rF trials h2 []).1 := by
  intro trials
  induction trials with
  | nil => intro h1 h2 _ _ _ _; rfl
  | cons pair rest ih =>
    intro h1 h2 ht hsh hf1 hf2
    rw [runTrialsGo, runTrialsGo]
    have hrr : RunRel h1.forget h2.forget := forget_runrel ht hsh hf1 hf2
    have hre := run_once_sync kind Hh rF hrr pair.1 pair.2
    rcases hro1 : run_once kind Hh rF h1.forget pair.1 pair.2 with ⟨r1, gA⟩
    rcases hro2 : run_once kind Hh rF h2.forget pair.1 pair.2 with ⟨r2, gB⟩
    rw [hro1, hro2] at hre
    simp only [] at hre
    obtain rfl : r1 = r2 := hre
    simp only [List.nil_append]
    obtain ⟨hoA1, hoA2, hoA3⟩ := run_once_out kind Hh rF h1.forget pair.1 pair.2
    obtain ⟨hoB1, hoB2, hoB3⟩ := run_once_out kind Hh rF h2.forget pair.1 pair.2
    rw [hro1] at hoA1 hoA2 hoA3
    rw [hro2] at hoB1 hoB2 hoB3
    simp only [] at hoA1 hoA2 hoA3 hoB1 hoB2 hoB3
    have htAB : terrEq gA gB :=
      terrEq_trans hoA1 (terrEq_trans (forget_terrEq h1) (terrEq_trans ht
        (terrEq_trans (terrEq_symm (forget_terrEq h2)) (terrEq_symm hoB1))))
    have hshAB : sameShape gA gB :=
      sameShape_trans hoA2 (sameShape_trans (forget_sameShape h1) (sameShape_trans hsh
        (sameShape_trans (sameShape_symm (forget_sameShape h2)) (sameShape_symm hoB2))))
    have hfA : gA.fresh := hoA3 (forget_fresh h1 hf1)
    have hfB : gB.fresh := hoB3 (forget_fresh h2 hf2)
    rw [runTrialsGo_acc kind Hh rF rest gA [r1], runTrialsGo_acc kind Hh rF rest gB [r1],
      ih htAB hshAB hfA hfB]


/-- C4: determinism of run_trials under slicing by start index: with the
same seed stream, the single statistics record produced by running trials
[99, 100) is identical (moves and hence cost, steps, episodes,
expansions) to the 100th record produced by running trials [0, 100);
trial generation always proceeds from index 0, so the accepted pair
sequence, the generation grid, and the ground truth seen by each run are
stable under slicing. -/
theorem c4_trials_slicing (kind : AgentKind) (Hh : Point → Point → Dist)
    (stream : ℕ → ℕ) (innerFuel runFuel : ℕ) (g : Grid) (hfresh : g.fresh) :
    (run_trials kind Hh stream innerFuel runFuel g 99 100).1.get? 0 =
      (run_trials kind Hh stream innerFuel runFuel g 0 100).1.get? 99 := by
  unfold run_trials
  rw [build_trials_slice stream innerFuel g 99 100,
    build_trials_slice stream innerFuel g 0 100]
  simp only [List.drop_zero]
  rw [runTrialsGo_get kind Hh runFuel 99
    ((genTrials stream innerFuel 100 0 0 g).1.map Prod.snd)
    (genTrials stream innerFuel 100 0 0 g).2]
  obtain ⟨-, -, hgf_fresh⟩ := genTrials_out stream innerFuel 100 0 0 g
  obtain ⟨htg1, htg2, htg3⟩ := trialsGrid_out kind Hh runFuel 99
    ((genTrials stream innerFuel 100 0 0 g).1.map Prod.snd)
    (genTrials stream innerFuel 100 0 0 g).2
  rw [runTrialsGo_sync kind Hh runFuel
    (((genTrials stream innerFuel 100 0 0 g).1.map Prod.snd).drop 99)
    (terrEq_symm htg1) (sameShape_symm htg2) (hgf_fresh hfresh) (htg3 (hgf_fresh hfresh))]

/-- C4 witness: the slicing identity applied to a concrete 1 by 1 ground
grid, a concrete stream, and concrete fuels, with the freshness
hypothesis discharged by evaluation. -/
theorem c4_witness :
    (run_trials AgentKind.always octile_heuristic (fun _ => 0) 1 1
        (Grid.new [[Tile.new Terrain.Ground]]) 99 100).1.get? 0 =
      (run_trials AgentKind.always octile_heuristic (fun _ => 0) 1 1
        (Grid.new [[Tile.new Terrain.Ground]]) 0 100).1.get? 99 :=
  c4_trials_slicing AgentKind.always octile_heuristic (fun _ => 0) 1 1
    (Grid.new [[Tile.new Terrain.Ground]])
    (fresh_of_tiles _ (by decide))

end Gridist
